import Mathlib

/-!
# Streaming copy with text conversions (`homework/cmd`)

A shallow embedding of the Go program under `src/homework/cmd`:

* `converters.go`: the converters `TrimSpaces`, `UpperCase`, `LowerCase`;
* `main.go`: the `conv` flag handler of `MustParseFlags`, the block-read loop
  `runRead`, the decode-and-convert closure `processAndWrite`, the check
  `postValidateParams` and the exit codes of `main`;
* `better_stream.go` and `better_file.go`: `Read`, `Seek` and `Size` of the two
  kinds of source.

Conventions of the embedding.

* A `[]byte` is a `List UInt8`.  A Go `string` that holds text is the list of its
  code points, natural numbers (`List Nat`); every string the program hands to a converter is
  built with `strings.Builder.WriteRune`, and `encodeString` gives its bytes.
* The Go standard library functions used by the program (`utf8.DecodeRune`,
  `utf8.AppendRune`, `unicode.IsSpace`, `strings.TrimLeftFunc`, ...) are
  transcribed from their definitions.  The Unicode case tables behind
  `unicode.ToUpper` and `unicode.ToLower` are a parameter (`CaseTables`); the
  ASCII branch of these functions is transcribed.  `unicodeCaseTables` is the
  table of the `unicode` package itself (`unicode.CaseRanges` with the binary
  search of `unicode.to`).
* `io.Reader` and `io.Writer` values are step functions on an explicit state.
* The loop of `runRead` may run forever (a sink that never accepts a byte), so it
  takes a fuel argument and returns `none` when the fuel runs out.
-/

namespace Lesson3

/-! ## Bytes, runes, errors -/

abbrev Byte := UInt8

/-- The error values that the program distinguishes. -/
inductive Err where
  | EOF
  | invalidOperation
  | illegalFlag
  | unknownConversion
  | invalidOffset
  | other (code : Nat)
  deriving DecidableEq, Repr

/-! ## `unicode/utf8` -/

def RuneError : Nat := 0xFFFD

def MaxRune : Nat := 0x10FFFF

def surrogateMin : Nat := 0xD800

def surrogateMax : Nat := 0xDFFF

def rune1Max : Nat := 0x7F

def rune2Max : Nat := 0x7FF

def rune3Max : Nat := 0xFFFF

def locb : Nat := 0x80

def hicb : Nat := 0xBF

/-- The table `utf8.first`: information about the first byte of an encoding.
`0xF0` (`as`) is ASCII, `0xF1` (`xx`) is invalid, otherwise the low three bits
give the size and the high four bits index `acceptRanges`. -/
def first (p0 : Nat) : Nat :=
  if p0 < 0x80 then 0xF0
  else if p0 < 0xC2 then 0xF1
  else if p0 < 0xE0 then 0x02
  else if p0 = 0xE0 then 0x13
  else if p0 < 0xED then 0x03
  else if p0 = 0xED then 0x23
  else if p0 < 0xF0 then 0x03
  else if p0 = 0xF0 then 0x34
  else if p0 < 0xF4 then 0x04
  else if p0 = 0xF4 then 0x44
  else 0xF1

/-- The table `utf8.acceptRanges`: the range allowed for the second byte. -/
def acceptRanges (i : Nat) : Nat × Nat :=
  match i with
  | 0 => (locb, hicb)
  | 1 => (0xA0, hicb)
  | 2 => (locb, 0x9F)
  | 3 => (0x90, hicb)
  | 4 => (locb, 0x8F)
  | _ => (0, 0)

/-- Go `utf8.DecodeRune`: the first rune of `p` and its width in bytes.  An empty
input gives `(RuneError, 0)`, an invalid or incomplete encoding `(RuneError, 1)`. -/
def decodeRune (p : List Byte) : Nat × Nat :=
  match p with
  | [] => (RuneError, 0)
  | p0 :: rest =>
    let x := first p0.toNat
    if x ≥ 0xF0 then
      -- `mask := rune(x) << 31 >> 31`: all zeros for `as`, all ones for `xx`
      (if x &&& 1 = 0 then p0.toNat else RuneError, 1)
    else
      let sz := x &&& 7
      let accept := acceptRanges (x >>> 4)
      if p.length < sz then (RuneError, 1)
      else
        match rest with
        | [] => (RuneError, 1)
        | b1 :: rest1 =>
          if b1.toNat < accept.1 ∨ accept.2 < b1.toNat then (RuneError, 1)
          else if sz ≤ 2 then
            (((p0.toNat &&& 0x1F) <<< 6) ||| (b1.toNat &&& 0x3F), 2)
          else
            match rest1 with
            | [] => (RuneError, 1)
            | b2 :: rest2 =>
              if b2.toNat < locb ∨ hicb < b2.toNat then (RuneError, 1)
              else if sz ≤ 3 then
                (((p0.toNat &&& 0x0F) <<< 12) ||| ((b1.toNat &&& 0x3F) <<< 6)
                  ||| (b2.toNat &&& 0x3F), 3)
              else
                match rest2 with
                | [] => (RuneError, 1)
                | b3 :: _ =>
                  if b3.toNat < locb ∨ hicb < b3.toNat then (RuneError, 1)
                  else
                    (((p0.toNat &&& 0x07) <<< 18) ||| ((b1.toNat &&& 0x3F) <<< 12)
                      ||| ((b2.toNat &&& 0x3F) <<< 6) ||| (b3.toNat &&& 0x3F), 4)

/-- The conversion `byte(x)`: the low eight bits. -/
def toByte (x : Nat) : Byte := UInt8.ofNat (x % 256)

/-- Go `utf8.AppendRune` on an empty slice (what `strings.Builder.WriteRune`
appends): the UTF-8 encoding of `r`; a surrogate or a value above `MaxRune` is
encoded as `RuneError`. -/
def appendRune (r : Nat) : List Byte :=
  if r ≤ rune1Max then [toByte r]
  else if r ≤ rune2Max then
    [toByte (0xC0 ||| (r >>> 6) % 256), toByte (0x80 ||| (r % 256 &&& 0x3F))]
  else
    let r3 := if r > MaxRune ∨ (surrogateMin ≤ r ∧ r ≤ surrogateMax) then RuneError else r
    if r > MaxRune ∨ (surrogateMin ≤ r ∧ r ≤ surrogateMax) ∨ r ≤ rune3Max then
      [toByte (0xE0 ||| (r3 >>> 12) % 256), toByte (0x80 ||| ((r3 >>> 6) % 256 &&& 0x3F)),
        toByte (0x80 ||| (r3 % 256 &&& 0x3F))]
    else
      [toByte (0xF0 ||| (r >>> 18) % 256), toByte (0x80 ||| ((r >>> 12) % 256 &&& 0x3F)),
        toByte (0x80 ||| ((r >>> 6) % 256 &&& 0x3F)), toByte (0x80 ||| (r % 256 &&& 0x3F))]

/-- The bytes of a string built rune by rune with `WriteRune`. -/
def encodeString (s : List Nat) : List Byte :=
  match s with
  | [] => []
  | r :: rs => appendRune r ++ encodeString rs

/-- Go `utf8.ValidRune`. -/
def validRune (r : Nat) : Bool :=
  decide (r < surrogateMin) || (decide (surrogateMax < r) && decide (r ≤ MaxRune))

/-! ## `unicode` and `strings` -/

/-- Go `unicode.IsSpace`: the Latin-1 cases are special-cased, the other code
points are those of the `White_Space` table. -/
def isSpace (r : Nat) : Bool :=
  if r ≤ 0xFF then
    decide (r = 0x09 ∨ r = 0x0A ∨ r = 0x0B ∨ r = 0x0C ∨ r = 0x0D ∨ r = 0x20 ∨ r = 0x85 ∨ r = 0xA0)
  else
    decide (r = 0x1680 ∨ (0x2000 ≤ r ∧ r ≤ 0x200A) ∨ r = 0x2028 ∨ r = 0x2029 ∨ r = 0x202F
      ∨ r = 0x205F ∨ r = 0x3000)

/-- Go `strings.TrimLeftFunc`: the string without its leading runes satisfying `f`. -/
def trimLeftFunc (f : Nat → Bool) (s : List Nat) : List Nat :=
  match s with
  | [] => []
  | r :: rs => if f r then trimLeftFunc f rs else r :: rs

/-- Go `strings.LastIndexFunc`, with the index counted in runes: the position of
the last rune satisfying `f`, or `none` for Go's `-1`. -/
def lastIndexFunc (f : Nat → Bool) (s : List Nat) : Option Nat :=
  match s with
  | [] => none
  | r :: rs =>
    match lastIndexFunc f rs with
    | some i => some (i + 1)
    | none => if f r then some 0 else none

/-- The Unicode case tables of Go's `unicode` package (`unicode.To(UpperCase, r)`
and `unicode.To(LowerCase, r)`), consulted for code points above ASCII. -/
structure CaseTables where
  toUpper : Nat → Nat
  toLower : Nat → Nat

/-- Go `unicode.ToUpper`. -/
def unicodeToUpper (T : CaseTables) (r : Nat) : Nat :=
  if r ≤ 0x7F then
    if 0x61 ≤ r ∧ r ≤ 0x7A then r - (0x61 - 0x41) else r
  else T.toUpper r

/-- Go `unicode.ToLower`. -/
def unicodeToLower (T : CaseTables) (r : Nat) : Nat :=
  if r ≤ 0x7F then
    if 0x41 ≤ r ∧ r ≤ 0x5A then r + (0x61 - 0x41) else r
  else T.toLower r

/-- The rune that `WriteRune` leaves in a string: an invalid value is written as
`RuneError`. -/
def writtenRune (r : Nat) : Nat :=
  if validRune r then r else RuneError

/-- Go `strings.Map` on a text string: every rune is mapped and written back. -/
def stringsMap (mapping : Nat → Nat) (s : List Nat) : List Nat :=
  match s with
  | [] => []
  | r :: rs => writtenRune (mapping r) :: stringsMap mapping rs

/-- Go `strings.ToUpper`. -/
def stringsToUpper (T : CaseTables) (s : List Nat) : List Nat :=
  stringsMap (unicodeToUpper T) s

/-- Go `strings.ToLower`. -/
def stringsToLower (T : CaseTables) (s : List Nat) : List Nat :=
  stringsMap (unicodeToLower T) s

/-! ## `converters.go` -/

/-- The state of the `TrimSpaces` converter. -/
structure TrimSpaces where
  leadingSpacesProcessed : Bool
  undecidedSpaces : List Nat
  deriving DecidableEq, Repr

/-- A fresh converter, `&TrimSpaces{}`. -/
def TrimSpaces.fresh : TrimSpaces :=
  { leadingSpacesProcessed := false, undecidedSpaces := [] }

/-- The method `(*TrimSpaces).ConvertChunk`: the returned fragment and the new state. -/
def TrimSpaces.ConvertChunk (state : TrimSpaces) (inputChunk : List Nat) :
    List Nat × TrimSpaces :=
  let inputChunk1 :=
    if !state.leadingSpacesProcessed then trimLeftFunc isSpace inputChunk else inputChunk
  let processed :=
    if !state.leadingSpacesProcessed then
      (if inputChunk1 ≠ [] then true else state.leadingSpacesProcessed)
    else state.leadingSpacesProcessed
  if processed then
    match lastIndexFunc (fun x => !isSpace x) inputChunk1 with
    | none =>
      ([], { leadingSpacesProcessed := processed,
             undecidedSpaces := state.undecidedSpaces ++ inputChunk1 })
    | some nonSpaceI =>
      -- a rune has width 1 in a list of runes
      let lastNonSpaceWidth := 1
      let result := state.undecidedSpaces ++ inputChunk1.take (nonSpaceI + lastNonSpaceWidth)
      (result, { leadingSpacesProcessed := processed,
                 undecidedSpaces := inputChunk1.drop (nonSpaceI + lastNonSpaceWidth) })
  else
    (inputChunk1, { leadingSpacesProcessed := processed,
                    undecidedSpaces := state.undecidedSpaces })

/-- The method `UpperCase.ConvertChunk`. -/
def UpperCase.ConvertChunk (T : CaseTables) (inputChunk : List Nat) : List Nat :=
  stringsToUpper T inputChunk

/-- The method `LowerCase.ConvertChunk`. -/
def LowerCase.ConvertChunk (T : CaseTables) (inputChunk : List Nat) : List Nat :=
  stringsToLower T inputChunk

/-- A value of the interface `Converter`: `UpperCase{}`, `LowerCase{}` or a
`*TrimSpaces` with its state. -/
inductive Converter where
  | upperCase
  | lowerCase
  | trimSpaces (state : TrimSpaces)
  deriving DecidableEq, Repr

/-- One call of `converter.ConvertChunk`. -/
def Converter.ConvertChunk (T : CaseTables) (c : Converter) (s : List Nat) :
    List Nat × Converter :=
  match c with
  | .upperCase => (UpperCase.ConvertChunk T s, .upperCase)
  | .lowerCase => (LowerCase.ConvertChunk T s, .lowerCase)
  | .trimSpaces st => ((st.ConvertChunk s).1, .trimSpaces (st.ConvertChunk s).2)

/-- The loop `for converter := range opts.Conversions`, the keys of the map taken
in the order of the list. -/
def convertAll (T : CaseTables) (convs : List Converter) (s : List Nat) :
    List Nat × List Converter :=
  match convs with
  | [] => (s, [])
  | c :: cs =>
    let r := c.ConvertChunk T s
    let rs := convertAll T cs r.1
    (rs.1, r.2 :: rs.2)

/-! ## Sources and sinks -/

/-- An `io.Reader`: `read st n` is a call of `Read` with a buffer of `n` bytes,
giving the bytes placed in the buffer, the error and the next state. -/
structure Reader (σ : Type) where
  read : σ → Nat → (List Byte × Option Err) × σ

/-- An `io.Writer`: `write st p` is a call of `Write(p)`, giving the number of
bytes accepted, the error and the next state. -/
structure Writer (ω : Type) where
  write : ω → List Byte → (Nat × Option Err) × ω

/-- A file as a source: the state is what remains to be read.  A read into an
empty buffer returns `0, nil`; at the end of the file a read returns `0, io.EOF`. -/
def fileReader : Reader (List Byte) where
  read st n :=
    if n = 0 then (([], none), st)
    else if st = [] then (([], some Err.EOF), st)
    else ((st.take n, none), st.drop n)

/-- A sink that accepts every write in full; its state is all that was written. -/
def fullSink : Writer (List Byte) where
  write st p := ((p.length, none), st ++ p)

/-- The state of a sink with short writes: the bytes accepted so far and the
number of bytes that each coming write accepts at most. -/
structure ShortSink where
  written : List Byte
  caps : List Nat
  deriving DecidableEq, Repr

/-- A sink that may accept only the beginning of a write, without an error; once
`caps` is used up every write is accepted in full. -/
def shortSink : Writer ShortSink where
  write st p :=
    match st.caps with
    | [] => ((p.length, none), { written := st.written ++ p, caps := [] })
    | c :: cs => ((min c p.length, none), { written := st.written ++ p.take c, caps := cs })

/-! ## `main.go`: the closure `processAndWrite` -/

/-- How the decoding loop of `processAndWrite` ends: with the `return` inside the
loop after a short write of raw bytes, or at the end of the chunk. -/
inductive ScanResult (ω : Type) where
  | early (carry : List Byte) (err : Option Err) (sink : ω)
  | done (decoded : List Nat) (unprocessedTail : List Byte) (sink : ω)

/-- The loop `for i := 0; i < len(readChunk); ` of `processAndWrite`; `rest` is
`readChunk[i:]`.  Every iteration consumes at least one byte, so `fuel` equal to
the length of the chunk is enough. -/
def scanChunk {ω : Type} (W : Writer ω) (fuel : Nat) (rest : List Byte) (decoded : List Nat)
    (unprocessedTail : List Byte) (sink : ω) : ScanResult ω :=
  match fuel with
  | 0 => .done decoded unprocessedTail sink
  | fuel + 1 =>
    match rest with
    | [] => .done decoded unprocessedTail sink
    | _ :: _ =>
      let letter := (decodeRune rest).1
      let width := (decodeRune rest).2
      if letter = RuneError then
        scanChunk W fuel (rest.drop width) decoded (unprocessedTail ++ rest.take width) sink
      else
        let res := W.write sink unprocessedTail
        let n := res.1.1
        if n < unprocessedTail.length then
          .early (unprocessedTail.drop n) res.1.2 res.2
        else
          scanChunk W fuel (rest.drop width) (decoded ++ [letter]) (unprocessedTail.drop n) res.2

/-- What the closure `processAndWrite` captures and changes: the sink `opts.To`
and the converters of `opts.Conversions`. -/
structure Engine (ω : Type) where
  sink : ω
  conversions : List Converter

/-- The closure `processAndWrite` of `main`: the returned slice and error, and the
new state of the sink and of the converters. -/
def processAndWrite {ω : Type} (W : Writer ω) (T : CaseTables) (e : Engine ω)
    (readChunk : List Byte) (isLastChunk : Bool) : (List Byte × Option Err) × Engine ω :=
  match scanChunk W readChunk.length readChunk [] [] e.sink with
  | .early carry err sink => ((carry, err), { e with sink := sink })
  | .done decoded unprocessedTail sink =>
    if (encodeString decoded).length = 0 ∧ isLastChunk = true then
      let res := W.write sink unprocessedTail
      ((unprocessedTail.drop res.1.1, res.1.2), { e with sink := res.2 })
    else
      let conv := convertAll T e.conversions decoded
      let currentString := encodeString conv.1
      let res := W.write sink currentString
      let n := res.1.1
      let unprocessedTail1 :=
        if n < currentString.length then currentString.drop n ++ unprocessedTail
        else unprocessedTail
      ((unprocessedTail1, res.1.2), { sink := res.2, conversions := conv.2 })

/-! ## `main.go`: the loop `runRead` -/

/-- The subtraction of `uint64` values. -/
def uint64Sub (a b : Nat) : Nat := (a + 2 ^ 64 - b % 2 ^ 64) % 2 ^ 64

/-- The function `runRead`.  `cb` is `readChunkCallback` with its state `κ`.  The
result is `none` when `fuel` iterations did not end the loop, otherwise the
returned error (`none` for `nil`) with the final state of the source and of the
callback. -/
def runRead {σ κ : Type} (R : Reader σ)
    (cb : κ → List Byte → Bool → (List Byte × Option Err) × κ) (blockSize : Nat)
    (fuel : Nat) (src : σ) (bytesToRead : Nat) (unprocessedTail : List Byte) (k : κ) :
    Option (Option Err × σ × κ) :=
  if bytesToRead > 0 ∨ unprocessedTail.length > 0 then
    match fuel with
    | 0 => none
    | fuel + 1 =>
      if bytesToRead > 0 then
        let rd := R.read src (min blockSize bytesToRead)
        let readN := rd.1.1.length
        let readError := rd.1.2
        let tail1 := unprocessedTail ++ rd.1.1
        if readError ≠ none ∧ readError ≠ some Err.EOF then
          some (readError, rd.2, k)
        else
          let bytesToRead1 := if readError = some Err.EOF then 0 else uint64Sub bytesToRead readN
          let res := cb k tail1 (decide (bytesToRead1 = 0))
          match res.1.2 with
          | some err => some (some err, rd.2, res.2)
          | none => runRead R cb blockSize fuel rd.2 bytesToRead1 res.1.1 res.2
      else
        let res := cb k unprocessedTail (decide (bytesToRead = 0))
        match res.1.2 with
        | some err => some (some err, src, res.2)
        | none => runRead R cb blockSize fuel src bytesToRead res.1.1 res.2
  else some (none, src, k)

/-- The part of `main` after the seek: `runRead(opts.From, opts.Limit,
opts.BlockSize, processAndWrite)` on a source that stands at the offset. -/
def runMain {σ ω : Type} (R : Reader σ) (W : Writer ω) (T : CaseTables) (fuel : Nat)
    (src : σ) (limit blockSize : Nat) (e : Engine ω) : Option (Option Err × σ × Engine ω) :=
  runRead R (processAndWrite W T) blockSize fuel src limit [] e

/-- The bytes that a whole run writes to an accepting sink: the input file is read
from `offset` (the seek of `main`), with the given limit, block size and
converters. -/
def runOutput (T : CaseTables) (fuel : Nat) (input : List Byte) (offset limit blockSize : Nat)
    (convs : List Converter) : Option (List Byte) :=
  match runMain fileReader fullSink T fuel (input.drop offset) limit blockSize
      { sink := [], conversions := convs } with
  | some (none, _, e) => some e.sink
  | _ => none

/-! ## `main.go`: the `conv` flag of `MustParseFlags` -/

/-- Go `strings.TrimSpace` on the argument of a flag. -/
def trimSpace (s : List Char) : List Char :=
  ((s.dropWhile (fun c => isSpace c.toNat)).reverse.dropWhile (fun c => isSpace c.toNat)).reverse

/-- Go `strings.Split(s, sep)` for a separator of one character. -/
def splitOn (sep : Char) (s : List Char) : List (List Char) :=
  match s with
  | [] => [[]]
  | c :: cs =>
    if c = sep then [] :: splitOn sep cs
    else
      match splitOn sep cs with
      | [] => [[c]]
      | h :: t => (c :: h) :: t

/-- The body of the loop `for _, conv := range selected` of the `conv` handler:
`opts.Conversions` is the list of the keys of the map. -/
def selectConv (convs : List Converter) (conv : List Char) : Except Err (List Converter) :=
  if conv = "upper_case".toList then
    if Converter.lowerCase ∈ convs then .error Err.illegalFlag
    else if Converter.upperCase ∈ convs then .ok convs
    else .ok (convs ++ [Converter.upperCase])
  else if conv = "lower_case".toList then
    if Converter.upperCase ∈ convs then .error Err.illegalFlag
    else if Converter.lowerCase ∈ convs then .ok convs
    else .ok (convs ++ [Converter.lowerCase])
  else if conv = "trim_spaces".toList then
    .ok (convs ++ [Converter.trimSpaces TrimSpaces.fresh])
  else .error Err.unknownConversion

/-- The loop over the selected names, stopping at the first error. -/
def selectAll (convs : List Converter) (selected : List (List Char)) :
    Except Err (List Converter) :=
  match selected with
  | [] => .ok convs
  | conv :: rest =>
    match selectConv convs conv with
    | .error e => .error e
    | .ok convs1 => selectAll convs1 rest

/-- The handler given to `flag.Func` for `conv`, called with the value of one
occurrence of the option. -/
def convHandler (convs : List Converter) (s : List Char) : Except Err (List Converter) :=
  selectAll convs (splitOn ',' (trimSpace s))

/-- The effect of `flag.Parse` on the occurrences of `conv`, in order: the first
error of a handler ends the parsing (and, with `ExitOnError`, the program). -/
def parseConv (convs : List Converter) (occurrences : List (List Char)) :
    Except Err (List Converter) :=
  match occurrences with
  | [] => .ok convs
  | s :: rest =>
    match convHandler convs s with
    | .error e => .error e
    | .ok convs1 => parseConv convs1 rest

/-! ## Notions used to state the properties -/

/-- A string without its leading and without its trailing run of whitespace. -/
def trimBoth (s : List Nat) : List Nat :=
  ((s.dropWhile isSpace).reverse.dropWhile isSpace).reverse

/-- The fragments are passed in order to one converter: the concatenation of the
returned fragments and the final state. -/
def TrimSpaces.feed (state : TrimSpaces) (frags : List (List Nat)) : List Nat × TrimSpaces :=
  match frags with
  | [] => ([], state)
  | f :: fs =>
    let r := state.ConvertChunk f
    let rs := TrimSpaces.feed r.2 fs
    (r.1 ++ rs.1, rs.2)

/-- The code point that `strings.ToUpper` stores for a code point above ASCII is
its own upper case. -/
def upperFixed (T : CaseTables) : Prop :=
  ∀ r, 0x7F < r → unicodeToUpper T (writtenRune (T.toUpper r)) = writtenRune (T.toUpper r)

/-- The code point that `strings.ToLower` stores for a code point above ASCII is
its own lower case. -/
def lowerFixed (T : CaseTables) : Prop :=
  ∀ r, 0x7F < r → unicodeToLower T (writtenRune (T.toLower r)) = writtenRune (T.toLower r)

/-- The entries of the Unicode case tables for the Latin-1 supplement; every other
code point is left as it is. -/
def latin1Tables : CaseTables where
  toUpper r :=
    if 0xE0 ≤ r ∧ r ≤ 0xFE ∧ r ≠ 0xF7 then r - 0x20
    else if r = 0xFF then 0x178
    else if r = 0xB5 then 0x39C
    else r
  toLower r :=
    if 0xC0 ≤ r ∧ r ≤ 0xDE ∧ r ≠ 0xD7 then r + 0x20
    else if r = 0x178 then 0xFF
    else r

/-- The state of a `TrimSpaces` converter after the text `s` was passed to it and
`acc` was returned: before the first non-space character nothing is returned or
held back; afterwards the returned text ends with a non-space character and,
followed by the whitespace held back, is `s` without its leading whitespace. -/
def trimInv (s acc : List Nat) (st : TrimSpaces) : Prop :=
  (st.leadingSpacesProcessed = false ∧ st.undecidedSpaces = [] ∧ acc = []
      ∧ ∀ x ∈ s, isSpace x = true)
  ∨ (st.leadingSpacesProcessed = true ∧ (∀ x ∈ st.undecidedSpaces, isSpace x = true)
      ∧ (∃ pre x, acc = pre ++ [x] ∧ isSpace x = false)
      ∧ s.dropWhile isSpace = acc ++ st.undecidedSpaces)

/-- A byte string without its leading and without its trailing run of bytes that
are whitespace characters. -/
def trimBytes (s : List Byte) : List Byte :=
  ((s.dropWhile (fun b => isSpace b.toNat)).reverse.dropWhile (fun b => isSpace b.toNat)).reverse

/-- The fragments are passed in order through the converters: the concatenation of
the converted fragments and the final state of the converters. -/
def convertFrags (T : CaseTables) (convs : List Converter) (frags : List (List Nat)) :
    List Nat × List Converter :=
  match frags with
  | [] => ([], convs)
  | f :: fs =>
    let r := convertAll T convs f
    let rs := convertFrags T r.2 fs
    (r.1 ++ rs.1, rs.2)

/-! ## `better_stream.go` and `better_file.go` -/

/-- A value of the interface `SizedReadSeekCloser` with its state: `Read`, `Seek`
(`none` when the call does not return) and `Size`. -/
structure SizedReadSeekCloser (σ : Type) where
  read : σ → Nat → (List Byte × Option Err) × σ
  seek : σ → Int → Int → Option ((Int × Option Err) × σ)
  size : σ → (Int × Option Err) × σ

/-- The `io.Reader` part of a source. -/
def SizedReadSeekCloser.reader {σ : Type} (S : SizedReadSeekCloser σ) : Reader σ where
  read := S.read

/-- The loop `for pos < offset` of `BetterStream.Seek`: every iteration reads into a
buffer of `offset - pos` bytes; a read error ends the call with the position before
that read.  `R` is the `Read` of the underlying file; the result is `none` when
`fuel` iterations did not end the loop. -/
def seekLoop {σ : Type} (R : Reader σ) (fuel : Nat) (st : σ) (pos offset : Int) :
    Option ((Int × Option Err) × σ) :=
  if pos < offset then
    match fuel with
    | 0 => none
    | fuel + 1 =>
      let rd := R.read st (offset - pos).toNat
      match rd.1.2 with
      | some err => some ((pos, some err), rd.2)
      | none => seekLoop R fuel rd.2 (pos + (rd.1.1.length : Int)) offset
  else some ((pos, none), st)

/-- The method `BetterStream.Seek`. -/
def BetterStream.Seek {σ : Type} (R : Reader σ) (fuel : Nat) (st : σ) (offset whence : Int) :
    Option ((Int × Option Err) × σ) :=
  if offset < 0 then some ((0, some Err.invalidOperation), st)
  else if whence ≠ 1 then some ((0, some Err.invalidOperation), st)
  else seekLoop R fuel st 0 offset

/-- The method `BetterStream.Size`. -/
def BetterStream.Size {σ : Type} (st : σ) : (Int × Option Err) × σ :=
  ((-1, some Err.invalidOperation), st)

/-- A `BetterStream` over an underlying file with the `Read` function `R`. -/
def betterStream {σ : Type} (R : Reader σ) (fuel : Nat) : SizedReadSeekCloser σ where
  read := R.read
  seek := BetterStream.Seek R fuel
  size := BetterStream.Size

/-- A regular file that is open for reading: its bytes and the file position. -/
structure OsFile where
  content : List Byte
  pos : Nat
  deriving DecidableEq, Repr

/-- The method `BetterFile.Read`: `os.File.Read` at the file position. -/
def BetterFile.Read (f : OsFile) (n : Nat) : (List Byte × Option Err) × OsFile :=
  let r := fileReader.read (f.content.drop f.pos) n
  (r.1, { f with pos := f.pos + r.1.1.length })

/-- The method `BetterFile.Seek`: `os.File.Seek`; a wrong `whence` or a negative
resulting position is the error `EINVAL`. -/
def BetterFile.Seek (f : OsFile) (offset whence : Int) : Option ((Int × Option Err) × OsFile) :=
  let base : Int :=
    if whence = 0 then 0 else if whence = 1 then (f.pos : Int) else (f.content.length : Int)
  if (whence ≠ 0 ∧ whence ≠ 1 ∧ whence ≠ 2) ∨ base + offset < 0 then
    some ((0, some (Err.other 22)), f)
  else some ((base + offset, none), { f with pos := (base + offset).toNat })

/-- The method `BetterFile.Size`: the size that `Stat` reports. -/
def BetterFile.Size (f : OsFile) : (Int × Option Err) × OsFile :=
  (((f.content.length : Int), none), f)

/-- A `BetterFile`. -/
def betterFile : SizedReadSeekCloser OsFile where
  read := BetterFile.Read
  seek := BetterFile.Seek
  size := BetterFile.Size

/-! ## `main.go`: `postValidateParams` and `main` -/

/-- The fields of `Options` with the state of the source and of the sink. -/
structure Options (σ ω : Type) where
  From : σ
  To : ω
  Conversions : List Converter
  Offset : Int
  Limit : Nat
  BlockSize : Nat

/-- The function `postValidateParams`: the returned error (`none` for `nil`) and the
state of the source after the call of `Size`.  An error that wraps another one is
the wrapped error. -/
def postValidateParams {σ : Type} (S : SizedReadSeekCloser σ) (src : σ) (offset : Int) :
    Option Err × σ :=
  let r := S.size src
  match r.1.2 with
  | some err =>
    if err ≠ Err.invalidOperation then (some err, r.2)
    else (none, r.2)
  | none =>
    if offset ≥ r.1.1 then (some Err.invalidOffset, r.2)
    else (none, r.2)

/-- The function `main` after `MustParseFlags`: the exit code of the process with
the final state of the source, of the sink and of the converters; `none` when the
program does not end within `fuel` iterations of the read loop.  Returning from
`main` is the exit code 0. -/
def main {σ ω : Type} (S : SizedReadSeekCloser σ) (W : Writer ω) (T : CaseTables) (fuel : Nat)
    (opts : Options σ ω) : Option (Nat × σ × Engine ω) :=
  let v := postValidateParams S opts.From opts.Offset
  if v.1 ≠ none then
    -- the message is printed, then `if err != nil { return }` comes before `os.Exit(2)`
    if v.1 ≠ none then
      some (0, v.2, { sink := opts.To, conversions := opts.Conversions })
    else
      some (2, v.2, { sink := opts.To, conversions := opts.Conversions })
  else
    match S.seek v.2 opts.Offset 1 with
    | none => none
    | some sk =>
      if sk.1.2 ≠ none then
        some (1, sk.2, { sink := opts.To, conversions := opts.Conversions })
      else
        match runRead S.reader (processAndWrite W T) opts.BlockSize fuel sk.2 opts.Limit []
            { sink := opts.To, conversions := opts.Conversions } with
        | none => none
        | some (some _, src, e) => some (1, src, e)
        | some (none, src, e) => some (0, src, e)

/-! ## More notions used to state the properties -/

/-- A source that keeps, next to its state, all the bytes it has delivered. -/
def loggedReader {σ : Type} (R : Reader σ) : Reader (σ × List Byte) where
  read st n := ((R.read st.1 n).1, ((R.read st.1 n).2, st.2 ++ (R.read st.1 n).1.1))

/-- A read returns at most as many bytes as the buffer holds. -/
def readsWithinBuffer {σ : Type} (R : Reader σ) : Prop :=
  ∀ st n, (R.read st n).1.1.length ≤ n

/-- A read into a non-empty buffer returns at least one byte (and at most the
buffer) without an error, or reports the end of the input. -/
def readsProgress {σ : Type} (R : Reader σ) : Prop :=
  ∀ st n, 1 ≤ n →
    ((R.read st n).1.2 = none ∧ 1 ≤ (R.read st n).1.1.length ∧ (R.read st n).1.1.length ≤ n)
    ∨ (R.read st n).1.2 = some Err.EOF

/-- A stream that delivers one byte for every read into a non-empty buffer. -/
def byteReader : Reader (List Byte) where
  read st n := fileReader.read st (min n 1)

/-- A source that returns the results of a script, one for every read (cut to the
size of the buffer), and then the end of the input. -/
def scriptReader : Reader (List (List Byte × Option Err)) where
  read st n :=
    match st with
    | [] => (([], some Err.EOF), [])
    | r :: rest => ((r.1.take n, r.2), rest)

/-- A run of bytes in which the decoding loop of `processAndWrite` finds no valid
character: scanned on its own it is kept whole as raw bytes and nothing is written. -/
def allRaw (raw : List Byte) : Prop :=
  ∀ (ω : Type) (W : Writer ω) (fuel : Nat) (decoded : List Nat) (tail : List Byte) (w : ω),
    raw.length ≤ fuel → scanChunk W fuel raw decoded tail w = .done decoded (tail ++ raw) w

/-- One pass of the loop `for converter := range opts.Conversions` in one of two
iteration orders of the map: the order of the list or the reverse order. -/
def convertOrdered (T : CaseTables) (reversed : Bool) (convs : List Converter) (s : List Nat) :
    List Nat × List Converter :=
  if reversed then
    ((convertAll T convs.reverse s).1, (convertAll T convs.reverse s).2.reverse)
  else convertAll T convs s

/-- The fragments are passed in order through the converters, each with its own
iteration order of the map: the list of the converted fragments. -/
def convertFragsOrdered (T : CaseTables) (orders : List Bool) (convs : List Converter)
    (frags : List (List Nat)) : List (List Nat) :=
  match frags with
  | [] => []
  | f :: fs =>
    let r := convertOrdered T (orders.headD false) convs f
    r.1 :: convertFragsOrdered T orders.tail r.2 fs

/-- What the claims on the order of the converters need of the Unicode case tables:
above ASCII, a whitespace character is its own upper and lower case, and the upper
or lower case of another character is not a whitespace character. -/
def foldKeepsSpace (T : CaseTables) : Prop :=
  ∀ r, 0x7F < r →
    (isSpace r = true → writtenRune (T.toUpper r) = r ∧ writtenRune (T.toLower r) = r)
    ∧ (isSpace r = false →
        isSpace (writtenRune (T.toUpper r)) = false ∧ isSpace (writtenRune (T.toLower r)) = false)

/-- The invariant of the state of a `TrimSpaces` converter: only whitespace is held
back, and nothing is held back before the first non-space character. -/
def trimStateOK (st : TrimSpaces) : Prop :=
  (∀ x ∈ st.undecidedSpaces, isSpace x = true)
  ∧ (st.leadingSpacesProcessed = false → st.undecidedSpaces = [])

/-- The decoding loop of `processAndWrite` reaches the end of the chunk: no write of
raw bytes inside the loop is short. -/
def scanCompletes {ω : Type} (W : Writer ω) (sink : ω) (readChunk : List Byte) : Bool :=
  match scanChunk W readChunk.length readChunk [] [] sink with
  | .early _ _ _ => false
  | .done _ _ _ => true

/-! ## The case tables of the `unicode` package -/

/-- Go `unicode.UpperCase`, `unicode.LowerCase`, `unicode.TitleCase` and
`unicode.MaxCase`: the indices into the `Delta` array of a `CaseRange`. -/
def unicodeUpperCase : Nat := 0

/-- Go `unicode.LowerCase`. -/
def unicodeLowerCase : Nat := 1

/-- Go `unicode.TitleCase`. -/
def unicodeTitleCase : Nat := 2

/-- Go `unicode.MaxCase`. -/
def unicodeMaxCase : Nat := 3

/-- Go `unicode.UpperLower`: the delta of a range of alternating upper and lower
case letters. -/
def UpperLower : Int := MaxRune + 1

/-- Go `unicode.CaseRange`: the code points `Lo` to `Hi` and the number to add to a
code point of the range to reach its upper, lower and title case. -/
structure CaseRange where
  Lo : Nat
  Hi : Nat
  Delta : List Int

/-- Go `unicode.CaseRanges` (the table `_CaseRanges` of `unicode/tables.go`) for
Unicode 15.0.0, the version of the `unicode` package since Go 1.21: the simple
case mappings of `UnicodeData.txt`. -/
def CaseRanges : List CaseRange :=
  [CaseRange.mk 0x0041 0x005A [0, 32, 0], CaseRange.mk 0x0061 0x007A [-32, 0, -32],
   CaseRange.mk 0x00B5 0x00B5 [743, 0, 743], CaseRange.mk 0x00C0 0x00D6 [0, 32, 0],
   CaseRange.mk 0x00D8 0x00DE [0, 32, 0], CaseRange.mk 0x00E0 0x00F6 [-32, 0, -32],
   CaseRange.mk 0x00F8 0x00FE [-32, 0, -32], CaseRange.mk 0x00FF 0x00FF [121, 0, 121],
   CaseRange.mk 0x0100 0x012F [UpperLower, UpperLower, UpperLower],
   CaseRange.mk 0x0130 0x0130 [0, -199, 0], CaseRange.mk 0x0131 0x0131 [-232, 0, -232],
   CaseRange.mk 0x0132 0x0137 [UpperLower, UpperLower, UpperLower],
   CaseRange.mk 0x0139 0x0148 [UpperLower, UpperLower, UpperLower],
   CaseRange.mk 0x014A 0x0177 [UpperLower, UpperLower, UpperLower],
   CaseRange.mk 0x0178 0x0178 [0, -121, 0],
   CaseRange.mk 0x0179 0x017E [UpperLower, UpperLower, UpperLower],
   CaseRange.mk 0x017F 0x017F [-300, 0, -300], CaseRange.mk 0x0180 0x0180 [195, 0, 195],
   CaseRange.mk 0x0181 0x0181 [0, 210, 0],
   CaseRange.mk 0x0182 0x0185 [UpperLower, UpperLower, UpperLower],
   CaseRange.mk 0x0186 0x0186 [0, 206, 0],
   CaseRange.mk 0x0187 0x0188 [UpperLower, UpperLower, UpperLower],
   CaseRange.mk 0x0189 0x018A [0, 205, 0],
   CaseRange.mk 0x018B 0x018C [UpperLower, UpperLower, UpperLower],
   CaseRange.mk 0x018E 0x018E [0, 79, 0], CaseRange.mk 0x018F 0x018F [0, 202, 0],
   CaseRange.mk 0x0190 0x0190 [0, 203, 0],
   CaseRange.mk 0x0191 0x0192 [UpperLower, UpperLower, UpperLower],
   CaseRange.mk 0x0193 0x0193 [0, 205, 0], CaseRange.mk 0x0194 0x0194 [0, 207, 0],
   CaseRange.mk 0x0195 0x0195 [97, 0, 97], CaseRange.mk 0x0196 0x0196 [0, 211, 0],
   CaseRange.mk 0x0197 0x0197 [0, 209, 0],
   CaseRange.mk 0x0198 0x0199 [UpperLower, UpperLower, UpperLower],
   CaseRange.mk 0x019A 0x019A [163, 0, 163], CaseRange.mk 0x019C 0x019C [0, 211, 0],
   CaseRange.mk 0x019D 0x019D [0, 213, 0], CaseRange.mk 0x019E 0x019E [130, 0, 130],
   CaseRange.mk 0x019F 0x019F [0, 214, 0],
   CaseRange.mk 0x01A0 0x01A5 [UpperLower, UpperLower, UpperLower],
   CaseRange.mk 0x01A6 0x01A6 [0, 218, 0],
   CaseRange.mk 0x01A7 0x01A8 [UpperLower, UpperLower, UpperLower],
   CaseRange.mk 0x01A9 0x01A9 [0, 218, 0],
   CaseRange.mk 0x01AC 0x01AD [UpperLower, UpperLower, UpperLower],
   CaseRange.mk 0x01AE 0x01AE [0, 218, 0],
   CaseRange.mk 0x01AF 0x01B0 [UpperLower, UpperLower, UpperLower],
   CaseRange.mk 0x01B1 0x01B2 [0, 217, 0],
   CaseRange.mk 0x01B3 0x01B6 [UpperLower, UpperLower, UpperLower],
   CaseRange.mk 0x01B7 0x01B7 [0, 219, 0],
   CaseRange.mk 0x01B8 0x01B9 [UpperLower, UpperLower, UpperLower],
   CaseRange.mk 0x01BC 0x01BD [UpperLower, UpperLower, UpperLower],
   CaseRange.mk 0x01BF 0x01BF [56, 0, 56], CaseRange.mk 0x01C4 0x01C4 [0, 2, 1],
   CaseRange.mk 0x01C5 0x01C5 [-1, 1, 0], CaseRange.mk 0x01C6 0x01C6 [-2, 0, -1],
   CaseRange.mk 0x01C7 0x01C7 [0, 2, 1], CaseRange.mk 0x01C8 0x01C8 [-1, 1, 0],
   CaseRange.mk 0x01C9 0x01C9 [-2, 0, -1], CaseRange.mk 0x01CA 0x01CA [0, 2, 1],
   CaseRange.mk 0x01CB 0x01CB [-1, 1, 0], CaseRange.mk 0x01CC 0x01CC [-2, 0, -1],
   CaseRange.mk 0x01CD 0x01DC [UpperLower, UpperLower, UpperLower],
   CaseRange.mk 0x01DD 0x01DD [-79, 0, -79],
   CaseRange.mk 0x01DE 0x01EF [UpperLower, UpperLower, UpperLower],
   CaseRange.mk 0x01F1 0x01F1 [0, 2, 1], CaseRange.mk 0x01F2 0x01F2 [-1, 1, 0],
   CaseRange.mk 0x01F3 0x01F3 [-2, 0, -1],
   CaseRange.mk 0x01F4 0x01F5 [UpperLower, UpperLower, UpperLower],
   CaseRange.mk 0x01F6 0x01F6 [0, -97, 0], CaseRange.mk 0x01F7 0x01F7 [0, -56, 0],
   CaseRange.mk 0x01F8 0x021F [UpperLower, UpperLower, UpperLower],
   CaseRange.mk 0x0220 0x0220 [0, -130, 0],
   CaseRange.mk 0x0222 0x0233 [UpperLower, UpperLower, UpperLower],
   CaseRange.mk 0x023A 0x023A [0, 10795, 0],
   CaseRange.mk 0x023B 0x023C [UpperLower, UpperLower, UpperLower],
   CaseRange.mk 0x023D 0x023D [0, -163, 0], CaseRange.mk 0x023E 0x023E [0, 10792, 0],
   CaseRange.mk 0x023F 0x0240 [10815, 0, 10815],
   CaseRange.mk 0x0241 0x0242 [UpperLower, UpperLower, UpperLower],
   CaseRange.mk 0x0243 0x0243 [0, -195, 0], CaseRange.mk 0x0244 0x0244 [0, 69, 0],
   CaseRange.mk 0x0245 0x0245 [0, 71, 0],
   CaseRange.mk 0x0246 0x024F [UpperLower, UpperLower, UpperLower],
   CaseRange.mk 0x0250 0x0250 [10783, 0, 10783], CaseRange.mk 0x0251 0x0251 [10780, 0, 10780],
   CaseRange.mk 0x0252 0x0252 [10782, 0, 10782], CaseRange.mk 0x0253 0x0253 [-210, 0, -210],
   CaseRange.mk 0x0254 0x0254 [-206, 0, -206], CaseRange.mk 0x0256 0x0257 [-205, 0, -205],
   CaseRange.mk 0x0259 0x0259 [-202, 0, -202], CaseRange.mk 0x025B 0x025B [-203, 0, -203],
   CaseRange.mk 0x025C 0x025C [42319, 0, 42319], CaseRange.mk 0x0260 0x0260 [-205, 0, -205],
   CaseRange.mk 0x0261 0x0261 [42315, 0, 42315], CaseRange.mk 0x0263 0x0263 [-207, 0, -207],
   CaseRange.mk 0x0265 0x0265 [42280, 0, 42280], CaseRange.mk 0x0266 0x0266 [42308, 0, 42308],
   CaseRange.mk 0x0268 0x0268 [-209, 0, -209], CaseRange.mk 0x0269 0x0269 [-211, 0, -211],
   CaseRange.mk 0x026A 0x026A [42308, 0, 42308], CaseRange.mk 0x026B 0x026B [10743, 0, 10743],
   CaseRange.mk 0x026C 0x026C [42305, 0, 42305], CaseRange.mk 0x026F 0x026F [-211, 0, -211],
   CaseRange.mk 0x0271 0x0271 [10749, 0, 10749], CaseRange.mk 0x0272 0x0272 [-213, 0, -213],
   CaseRange.mk 0x0275 0x0275 [-214, 0, -214], CaseRange.mk 0x027D 0x027D [10727, 0, 10727],
   CaseRange.mk 0x0280 0x0280 [-218, 0, -218], CaseRange.mk 0x0282 0x0282 [42307, 0, 42307],
   CaseRange.mk 0x0283 0x0283 [-218, 0, -218], CaseRange.mk 0x0287 0x0287 [42282, 0, 42282],
   CaseRange.mk 0x0288 0x0288 [-218, 0, -218], CaseRange.mk 0x0289 0x0289 [-69, 0, -69],
   CaseRange.mk 0x028A 0x028B [-217, 0, -217], CaseRange.mk 0x028C 0x028C [-71, 0, -71],
   CaseRange.mk 0x0292 0x0292 [-219, 0, -219], CaseRange.mk 0x029D 0x029D [42261, 0, 42261],
   CaseRange.mk 0x029E 0x029E [42258, 0, 42258], CaseRange.mk 0x0345 0x0345 [84, 0, 84],
   CaseRange.mk 0x0370 0x0373 [UpperLower, UpperLower, UpperLower],
   CaseRange.mk 0x0376 0x0377 [UpperLower, UpperLower, UpperLower],
   CaseRange.mk 0x037B 0x037D [130, 0, 130], CaseRange.mk 0x037F 0x037F [0, 116, 0],
   CaseRange.mk 0x0386 0x0386 [0, 38, 0], CaseRange.mk 0x0388 0x038A [0, 37, 0],
   CaseRange.mk 0x038C 0x038C [0, 64, 0], CaseRange.mk 0x038E 0x038F [0, 63, 0],
   CaseRange.mk 0x0391 0x03A1 [0, 32, 0], CaseRange.mk 0x03A3 0x03AB [0, 32, 0],
   CaseRange.mk 0x03AC 0x03AC [-38, 0, -38], CaseRange.mk 0x03AD 0x03AF [-37, 0, -37],
   CaseRange.mk 0x03B1 0x03C1 [-32, 0, -32], CaseRange.mk 0x03C2 0x03C2 [-31, 0, -31],
   CaseRange.mk 0x03C3 0x03CB [-32, 0, -32], CaseRange.mk 0x03CC 0x03CC [-64, 0, -64],
   CaseRange.mk 0x03CD 0x03CE [-63, 0, -63], CaseRange.mk 0x03CF 0x03CF [0, 8, 0],
   CaseRange.mk 0x03D0 0x03D0 [-62, 0, -62], CaseRange.mk 0x03D1 0x03D1 [-57, 0, -57],
   CaseRange.mk 0x03D5 0x03D5 [-47, 0, -47], CaseRange.mk 0x03D6 0x03D6 [-54, 0, -54],
   CaseRange.mk 0x03D7 0x03D7 [-8, 0, -8],
   CaseRange.mk 0x03D8 0x03EF [UpperLower, UpperLower, UpperLower],
   CaseRange.mk 0x03F0 0x03F0 [-86, 0, -86], CaseRange.mk 0x03F1 0x03F1 [-80, 0, -80],
   CaseRange.mk 0x03F2 0x03F2 [7, 0, 7], CaseRange.mk 0x03F3 0x03F3 [-116, 0, -116],
   CaseRange.mk 0x03F4 0x03F4 [0, -60, 0], CaseRange.mk 0x03F5 0x03F5 [-96, 0, -96],
   CaseRange.mk 0x03F7 0x03F8 [UpperLower, UpperLower, UpperLower],
   CaseRange.mk 0x03F9 0x03F9 [0, -7, 0],
   CaseRange.mk 0x03FA 0x03FB [UpperLower, UpperLower, UpperLower],
   CaseRange.mk 0x03FD 0x03FF [0, -130, 0], CaseRange.mk 0x0400 0x040F [0, 80, 0],
   CaseRange.mk 0x0410 0x042F [0, 32, 0], CaseRange.mk 0x0430 0x044F [-32, 0, -32],
   CaseRange.mk 0x0450 0x045F [-80, 0, -80],
   CaseRange.mk 0x0460 0x0481 [UpperLower, UpperLower, UpperLower],
   CaseRange.mk 0x048A 0x04BF [UpperLower, UpperLower, UpperLower],
   CaseRange.mk 0x04C0 0x04C0 [0, 15, 0],
   CaseRange.mk 0x04C1 0x04CE [UpperLower, UpperLower, UpperLower],
   CaseRange.mk 0x04CF 0x04CF [-15, 0, -15],
   CaseRange.mk 0x04D0 0x052F [UpperLower, UpperLower, UpperLower],
   CaseRange.mk 0x0531 0x0556 [0, 48, 0], CaseRange.mk 0x0561 0x0586 [-48, 0, -48],
   CaseRange.mk 0x10A0 0x10C5 [0, 7264, 0], CaseRange.mk 0x10C7 0x10C7 [0, 7264, 0],
   CaseRange.mk 0x10CD 0x10CD [0, 7264, 0], CaseRange.mk 0x10D0 0x10FA [3008, 0, 0],
   CaseRange.mk 0x10FD 0x10FF [3008, 0, 0], CaseRange.mk 0x13A0 0x13EF [0, 38864, 0],
   CaseRange.mk 0x13F0 0x13F5 [0, 8, 0], CaseRange.mk 0x13F8 0x13FD [-8, 0, -8],
   CaseRange.mk 0x1C80 0x1C80 [-6254, 0, -6254], CaseRange.mk 0x1C81 0x1C81 [-6253, 0, -6253],
   CaseRange.mk 0x1C82 0x1C82 [-6244, 0, -6244], CaseRange.mk 0x1C83 0x1C84 [-6242, 0, -6242],
   CaseRange.mk 0x1C85 0x1C85 [-6243, 0, -6243], CaseRange.mk 0x1C86 0x1C86 [-6236, 0, -6236],
   CaseRange.mk 0x1C87 0x1C87 [-6181, 0, -6181], CaseRange.mk 0x1C88 0x1C88 [35266, 0, 35266],
   CaseRange.mk 0x1C90 0x1CBA [0, -3008, 0], CaseRange.mk 0x1CBD 0x1CBF [0, -3008, 0],
   CaseRange.mk 0x1D79 0x1D79 [35332, 0, 35332], CaseRange.mk 0x1D7D 0x1D7D [3814, 0, 3814],
   CaseRange.mk 0x1D8E 0x1D8E [35384, 0, 35384],
   CaseRange.mk 0x1E00 0x1E95 [UpperLower, UpperLower, UpperLower],
   CaseRange.mk 0x1E9B 0x1E9B [-59, 0, -59], CaseRange.mk 0x1E9E 0x1E9E [0, -7615, 0],
   CaseRange.mk 0x1EA0 0x1EFF [UpperLower, UpperLower, UpperLower],
   CaseRange.mk 0x1F00 0x1F07 [8, 0, 8], CaseRange.mk 0x1F08 0x1F0F [0, -8, 0],
   CaseRange.mk 0x1F10 0x1F15 [8, 0, 8], CaseRange.mk 0x1F18 0x1F1D [0, -8, 0],
   CaseRange.mk 0x1F20 0x1F27 [8, 0, 8], CaseRange.mk 0x1F28 0x1F2F [0, -8, 0],
   CaseRange.mk 0x1F30 0x1F37 [8, 0, 8], CaseRange.mk 0x1F38 0x1F3F [0, -8, 0],
   CaseRange.mk 0x1F40 0x1F45 [8, 0, 8], CaseRange.mk 0x1F48 0x1F4D [0, -8, 0],
   CaseRange.mk 0x1F51 0x1F51 [8, 0, 8], CaseRange.mk 0x1F53 0x1F53 [8, 0, 8],
   CaseRange.mk 0x1F55 0x1F55 [8, 0, 8], CaseRange.mk 0x1F57 0x1F57 [8, 0, 8],
   CaseRange.mk 0x1F59 0x1F59 [0, -8, 0], CaseRange.mk 0x1F5B 0x1F5B [0, -8, 0],
   CaseRange.mk 0x1F5D 0x1F5D [0, -8, 0], CaseRange.mk 0x1F5F 0x1F5F [0, -8, 0],
   CaseRange.mk 0x1F60 0x1F67 [8, 0, 8], CaseRange.mk 0x1F68 0x1F6F [0, -8, 0],
   CaseRange.mk 0x1F70 0x1F71 [74, 0, 74], CaseRange.mk 0x1F72 0x1F75 [86, 0, 86],
   CaseRange.mk 0x1F76 0x1F77 [100, 0, 100], CaseRange.mk 0x1F78 0x1F79 [128, 0, 128],
   CaseRange.mk 0x1F7A 0x1F7B [112, 0, 112], CaseRange.mk 0x1F7C 0x1F7D [126, 0, 126],
   CaseRange.mk 0x1F80 0x1F87 [8, 0, 8], CaseRange.mk 0x1F88 0x1F8F [0, -8, 0],
   CaseRange.mk 0x1F90 0x1F97 [8, 0, 8], CaseRange.mk 0x1F98 0x1F9F [0, -8, 0],
   CaseRange.mk 0x1FA0 0x1FA7 [8, 0, 8], CaseRange.mk 0x1FA8 0x1FAF [0, -8, 0],
   CaseRange.mk 0x1FB0 0x1FB1 [8, 0, 8], CaseRange.mk 0x1FB3 0x1FB3 [9, 0, 9],
   CaseRange.mk 0x1FB8 0x1FB9 [0, -8, 0], CaseRange.mk 0x1FBA 0x1FBB [0, -74, 0],
   CaseRange.mk 0x1FBC 0x1FBC [0, -9, 0], CaseRange.mk 0x1FBE 0x1FBE [-7205, 0, -7205],
   CaseRange.mk 0x1FC3 0x1FC3 [9, 0, 9], CaseRange.mk 0x1FC8 0x1FCB [0, -86, 0],
   CaseRange.mk 0x1FCC 0x1FCC [0, -9, 0], CaseRange.mk 0x1FD0 0x1FD1 [8, 0, 8],
   CaseRange.mk 0x1FD8 0x1FD9 [0, -8, 0], CaseRange.mk 0x1FDA 0x1FDB [0, -100, 0],
   CaseRange.mk 0x1FE0 0x1FE1 [8, 0, 8], CaseRange.mk 0x1FE5 0x1FE5 [7, 0, 7],
   CaseRange.mk 0x1FE8 0x1FE9 [0, -8, 0], CaseRange.mk 0x1FEA 0x1FEB [0, -112, 0],
   CaseRange.mk 0x1FEC 0x1FEC [0, -7, 0], CaseRange.mk 0x1FF3 0x1FF3 [9, 0, 9],
   CaseRange.mk 0x1FF8 0x1FF9 [0, -128, 0], CaseRange.mk 0x1FFA 0x1FFB [0, -126, 0],
   CaseRange.mk 0x1FFC 0x1FFC [0, -9, 0], CaseRange.mk 0x2126 0x2126 [0, -7517, 0],
   CaseRange.mk 0x212A 0x212A [0, -8383, 0], CaseRange.mk 0x212B 0x212B [0, -8262, 0],
   CaseRange.mk 0x2132 0x2132 [0, 28, 0], CaseRange.mk 0x214E 0x214E [-28, 0, -28],
   CaseRange.mk 0x2160 0x216F [0, 16, 0], CaseRange.mk 0x2170 0x217F [-16, 0, -16],
   CaseRange.mk 0x2183 0x2184 [UpperLower, UpperLower, UpperLower],
   CaseRange.mk 0x24B6 0x24CF [0, 26, 0], CaseRange.mk 0x24D0 0x24E9 [-26, 0, -26],
   CaseRange.mk 0x2C00 0x2C2F [0, 48, 0], CaseRange.mk 0x2C30 0x2C5F [-48, 0, -48],
   CaseRange.mk 0x2C60 0x2C61 [UpperLower, UpperLower, UpperLower],
   CaseRange.mk 0x2C62 0x2C62 [0, -10743, 0], CaseRange.mk 0x2C63 0x2C63 [0, -3814, 0],
   CaseRange.mk 0x2C64 0x2C64 [0, -10727, 0], CaseRange.mk 0x2C65 0x2C65 [-10795, 0, -10795],
   CaseRange.mk 0x2C66 0x2C66 [-10792, 0, -10792],
   CaseRange.mk 0x2C67 0x2C6C [UpperLower, UpperLower, UpperLower],
   CaseRange.mk 0x2C6D 0x2C6D [0, -10780, 0], CaseRange.mk 0x2C6E 0x2C6E [0, -10749, 0],
   CaseRange.mk 0x2C6F 0x2C6F [0, -10783, 0], CaseRange.mk 0x2C70 0x2C70 [0, -10782, 0],
   CaseRange.mk 0x2C72 0x2C73 [UpperLower, UpperLower, UpperLower],
   CaseRange.mk 0x2C75 0x2C76 [UpperLower, UpperLower, UpperLower],
   CaseRange.mk 0x2C7E 0x2C7F [0, -10815, 0],
   CaseRange.mk 0x2C80 0x2CE3 [UpperLower, UpperLower, UpperLower],
   CaseRange.mk 0x2CEB 0x2CEE [UpperLower, UpperLower, UpperLower],
   CaseRange.mk 0x2CF2 0x2CF3 [UpperLower, UpperLower, UpperLower],
   CaseRange.mk 0x2D00 0x2D25 [-7264, 0, -7264], CaseRange.mk 0x2D27 0x2D27 [-7264, 0, -7264],
   CaseRange.mk 0x2D2D 0x2D2D [-7264, 0, -7264],
   CaseRange.mk 0xA640 0xA66D [UpperLower, UpperLower, UpperLower],
   CaseRange.mk 0xA680 0xA69B [UpperLower, UpperLower, UpperLower],
   CaseRange.mk 0xA722 0xA72F [UpperLower, UpperLower, UpperLower],
   CaseRange.mk 0xA732 0xA76F [UpperLower, UpperLower, UpperLower],
   CaseRange.mk 0xA779 0xA77C [UpperLower, UpperLower, UpperLower],
   CaseRange.mk 0xA77D 0xA77D [0, -35332, 0],
   CaseRange.mk 0xA77E 0xA787 [UpperLower, UpperLower, UpperLower],
   CaseRange.mk 0xA78B 0xA78C [UpperLower, UpperLower, UpperLower],
   CaseRange.mk 0xA78D 0xA78D [0, -42280, 0],
   CaseRange.mk 0xA790 0xA793 [UpperLower, UpperLower, UpperLower],
   CaseRange.mk 0xA794 0xA794 [48, 0, 48],
   CaseRange.mk 0xA796 0xA7A9 [UpperLower, UpperLower, UpperLower],
   CaseRange.mk 0xA7AA 0xA7AA [0, -42308, 0], CaseRange.mk 0xA7AB 0xA7AB [0, -42319, 0],
   CaseRange.mk 0xA7AC 0xA7AC [0, -42315, 0], CaseRange.mk 0xA7AD 0xA7AD [0, -42305, 0],
   CaseRange.mk 0xA7AE 0xA7AE [0, -42308, 0], CaseRange.mk 0xA7B0 0xA7B0 [0, -42258, 0],
   CaseRange.mk 0xA7B1 0xA7B1 [0, -42282, 0], CaseRange.mk 0xA7B2 0xA7B2 [0, -42261, 0],
   CaseRange.mk 0xA7B3 0xA7B3 [0, 928, 0],
   CaseRange.mk 0xA7B4 0xA7C3 [UpperLower, UpperLower, UpperLower],
   CaseRange.mk 0xA7C4 0xA7C4 [0, -48, 0], CaseRange.mk 0xA7C5 0xA7C5 [0, -42307, 0],
   CaseRange.mk 0xA7C6 0xA7C6 [0, -35384, 0],
   CaseRange.mk 0xA7C7 0xA7CA [UpperLower, UpperLower, UpperLower],
   CaseRange.mk 0xA7D0 0xA7D1 [UpperLower, UpperLower, UpperLower],
   CaseRange.mk 0xA7D6 0xA7D9 [UpperLower, UpperLower, UpperLower],
   CaseRange.mk 0xA7F5 0xA7F6 [UpperLower, UpperLower, UpperLower],
   CaseRange.mk 0xAB53 0xAB53 [-928, 0, -928], CaseRange.mk 0xAB70 0xABBF [-38864, 0, -38864],
   CaseRange.mk 0xFF21 0xFF3A [0, 32, 0], CaseRange.mk 0xFF41 0xFF5A [-32, 0, -32],
   CaseRange.mk 0x10400 0x10427 [0, 40, 0], CaseRange.mk 0x10428 0x1044F [-40, 0, -40],
   CaseRange.mk 0x104B0 0x104D3 [0, 40, 0], CaseRange.mk 0x104D8 0x104FB [-40, 0, -40],
   CaseRange.mk 0x10570 0x1057A [0, 39, 0], CaseRange.mk 0x1057C 0x1058A [0, 39, 0],
   CaseRange.mk 0x1058C 0x10592 [0, 39, 0], CaseRange.mk 0x10594 0x10595 [0, 39, 0],
   CaseRange.mk 0x10597 0x105A1 [-39, 0, -39], CaseRange.mk 0x105A3 0x105B1 [-39, 0, -39],
   CaseRange.mk 0x105B3 0x105B9 [-39, 0, -39], CaseRange.mk 0x105BB 0x105BC [-39, 0, -39],
   CaseRange.mk 0x10C80 0x10CB2 [0, 64, 0], CaseRange.mk 0x10CC0 0x10CF2 [-64, 0, -64],
   CaseRange.mk 0x118A0 0x118BF [0, 32, 0], CaseRange.mk 0x118C0 0x118DF [-32, 0, -32],
   CaseRange.mk 0x16E40 0x16E5F [0, 32, 0], CaseRange.mk 0x16E60 0x16E7F [-32, 0, -32],
   CaseRange.mk 0x1E900 0x1E921 [0, 34, 0], CaseRange.mk 0x1E922 0x1E943 [-34, 0, -34]]

/-- The loop of Go `unicode.to`, a binary search over the ranges `lo` to `hi - 1`.
Every iteration makes `hi - lo` smaller, so `fuel` equal to `hi - lo` is enough. -/
def caseSearch (_case : Nat) (r : Nat) (caseRange : List CaseRange) :
    Nat → Nat → Nat → Nat × Bool
  | 0, _, _ => (r, false)
  | fuel + 1, lo, hi =>
    if lo < hi then
      let m := (lo + hi) / 2
      match caseRange[m]? with
      | none => (r, false)
      | some cr =>
        if cr.Lo ≤ r ∧ r ≤ cr.Hi then
          let delta := cr.Delta.getD _case 0
          if delta > MaxRune then
            (cr.Lo + (((r - cr.Lo) - (r - cr.Lo) % 2) ||| (_case % 2)), true)
          else (((r : Int) + delta).toNat, true)
        else if r < cr.Lo then caseSearch _case r caseRange fuel lo m
        else caseSearch _case r caseRange fuel (m + 1) hi
    else (r, false)

/-- Go `unicode.to`: the mapped code point and whether a range holds `r`. -/
def unicodeToIn (_case : Nat) (r : Nat) (caseRange : List CaseRange) : Nat × Bool :=
  if unicodeMaxCase ≤ _case then (RuneError, false)
  else caseSearch _case r caseRange caseRange.length 0 caseRange.length

/-- Go `unicode.To`. -/
def unicodeTo (_case : Nat) (r : Nat) : Nat :=
  (unicodeToIn _case r CaseRanges).1

/-- The case tables of Go's `unicode` package: `unicode.To(UpperCase, r)` and
`unicode.To(LowerCase, r)`. -/
def unicodeCaseTables : CaseTables where
  toUpper := unicodeTo unicodeUpperCase
  toLower := unicodeTo unicodeLowerCase

/-- A mapping of code points applied to what `strings.Map` stored for a code point
of the range gives that code point again. -/
def foldFixedOn (f : Nat → Nat) (cr : CaseRange) : Bool :=
  (List.range' cr.Lo (cr.Hi + 1 - cr.Lo)).all fun r => f (writtenRune (f r)) == writtenRune (f r)

/-! ## Lemmas -/

theorem trimLeftFunc_eq (f : Nat → Bool) (s : List Nat) :
    trimLeftFunc f s = s.dropWhile f := by
  induction s with
  | nil => rfl
  | cons r rs ih =>
    simp only [trimLeftFunc, List.dropWhile]
    cases h : f r <;> simp [ih]

theorem lastIndexFunc_none {f : Nat → Bool} {s : List Nat} :
    lastIndexFunc f s = none ↔ ∀ x ∈ s, f x = false := by
  induction s with
  | nil => simp [lastIndexFunc]
  | cons r rs ih =>
    simp only [lastIndexFunc]
    cases h : lastIndexFunc f rs with
    | some i =>
      simp only [List.mem_cons, forall_eq_or_imp]
      constructor
      · intro h0
        cases h0
      · rintro ⟨_, hall⟩
        rw [ih.mpr hall] at h
        cases h
    | none =>
      have := ih.mp h
      simp only [List.mem_cons, forall_eq_or_imp]
      cases hr : f r
      · simpa using this
      · simp

theorem lastIndexFunc_some {f : Nat → Bool} {s : List Nat} {i : Nat}
    (h : lastIndexFunc f s = some i) :
    ∃ pre x, s.take (i + 1) = pre ++ [x] ∧ f x = true ∧ ∀ y ∈ s.drop (i + 1), f y = false := by
  induction s generalizing i with
  | nil => simp [lastIndexFunc] at h
  | cons r rs ih =>
    simp only [lastIndexFunc] at h
    cases h1 : lastIndexFunc f rs with
    | some j =>
      rw [h1] at h
      simp only [Option.some.injEq] at h
      subst h
      obtain ⟨pre, x, h2, h3, h4⟩ := ih h1
      exact ⟨r :: pre, x, by simp [h2], h3, by simpa using h4⟩
    | none =>
      rw [h1] at h
      simp only at h
      split_ifs at h with hr
      simp only [Option.some.injEq] at h
      subst h
      exact ⟨[], r, by simp, hr, by simpa using lastIndexFunc_none.mp h1⟩

theorem dropWhile_append_all {p : Nat → Bool} {a : List Nat} (b : List Nat)
    (h : ∀ x ∈ a, p x = true) : (a ++ b).dropWhile p = b.dropWhile p := by
  induction a with
  | nil => rfl
  | cons x xs ih =>
    have hx : p x = true := h x (by simp)
    simp only [List.cons_append, List.dropWhile, hx]
    exact ih (fun y hy => h y (by simp [hy]))

theorem dropWhile_append_ne_nil {p : Nat → Bool} {a : List Nat} (b : List Nat)
    (h : a.dropWhile p ≠ []) : (a ++ b).dropWhile p = a.dropWhile p ++ b := by
  induction a with
  | nil => simp at h
  | cons x xs ih =>
    simp only [List.cons_append, List.dropWhile] at h ⊢
    cases hx : p x
    · simp
    · simp only [hx] at h
      simpa using ih h

theorem dropWhile_all {p : Nat → Bool} {a : List Nat} (h : ∀ x ∈ a, p x = true) :
    a.dropWhile p = [] := by
  simpa using dropWhile_append_all [] h

theorem rstrip_concat {a suf : List Nat} {x : Nat} (hx : isSpace x = false)
    (hs : ∀ y ∈ suf, isSpace y = true) :
    (((a ++ [x]) ++ suf).reverse.dropWhile isSpace).reverse = a ++ [x] := by
  have h1 : ((a ++ [x]) ++ suf).reverse = suf.reverse ++ (x :: a.reverse) := by simp
  rw [h1, dropWhile_append_all _ (by simpa using hs)]
  simp [List.dropWhile, hx]

theorem convertChunk_processed (st : TrimSpaces) (c : List Nat)
    (h : st.leadingSpacesProcessed = true) :
    ((∀ x ∈ c, isSpace x = true)
      ∧ st.ConvertChunk c
        = ([], { leadingSpacesProcessed := true, undecidedSpaces := st.undecidedSpaces ++ c }))
    ∨ (∃ pre x suf, c = (pre ++ [x]) ++ suf ∧ isSpace x = false
        ∧ (∀ y ∈ suf, isSpace y = true)
        ∧ st.ConvertChunk c
          = (st.undecidedSpaces ++ (pre ++ [x]),
              { leadingSpacesProcessed := true, undecidedSpaces := suf })) := by
  unfold TrimSpaces.ConvertChunk
  simp only [h, Bool.not_true, Bool.false_eq_true, if_false, if_true]
  cases hl : lastIndexFunc (fun x => !isSpace x) c with
  | none =>
    left
    refine ⟨?_, rfl⟩
    intro x hx
    simpa using lastIndexFunc_none.mp hl x hx
  | some i =>
    right
    obtain ⟨pre, x, h1, h2, h3⟩ := lastIndexFunc_some hl
    refine ⟨pre, x, c.drop (i + 1), ?_, by simpa using h2, ?_, ?_⟩
    · rw [← h1, List.take_append_drop]
    · intro y hy
      simpa using h3 y hy
    · simp only [h1]

theorem dropWhile_head_false {p : Nat → Bool} {l : List Nat} {y : Nat} {ys : List Nat}
    (h : l.dropWhile p = y :: ys) : p y = false := by
  induction l with
  | nil => simp at h
  | cons x xs ih =>
    simp only [List.dropWhile] at h
    cases hx : p x
    · simp only [hx, List.cons.injEq] at h
      rw [← h.1]
      exact hx
    · simp only [hx] at h
      exact ih h

theorem convertChunk_leading (st : TrimSpaces) (c : List Nat)
    (h : st.leadingSpacesProcessed = false) :
    ((∀ x ∈ c, isSpace x = true)
      ∧ st.ConvertChunk c
        = ([], { leadingSpacesProcessed := false, undecidedSpaces := st.undecidedSpaces }))
    ∨ (∃ pre x suf, c.dropWhile isSpace = (pre ++ [x]) ++ suf ∧ isSpace x = false
        ∧ (∀ y ∈ suf, isSpace y = true)
        ∧ st.ConvertChunk c
          = (st.undecidedSpaces ++ (pre ++ [x]),
              { leadingSpacesProcessed := true, undecidedSpaces := suf })) := by
  by_cases hc : c.dropWhile isSpace = []
  · left
    refine ⟨by simpa using hc, ?_⟩
    unfold TrimSpaces.ConvertChunk
    simp [h, trimLeftFunc_eq, hc]
  · right
    have key := convertChunk_processed
      { leadingSpacesProcessed := true, undecidedSpaces := st.undecidedSpaces }
      (c.dropWhile isSpace) rfl
    have heq : st.ConvertChunk c
        = TrimSpaces.ConvertChunk
            { leadingSpacesProcessed := true, undecidedSpaces := st.undecidedSpaces }
            (c.dropWhile isSpace) := by
      unfold TrimSpaces.ConvertChunk
      simp [h, trimLeftFunc_eq, hc]
    rcases key with ⟨hall, _⟩ | ⟨pre, x, suf, h1, h2, h3, h4⟩
    · exfalso
      cases hd : c.dropWhile isSpace with
      | nil => exact hc hd
      | cons y ys =>
        have hy : isSpace y = true := hall y (by simp [hd])
        rw [dropWhile_head_false hd] at hy
        cases hy
    · exact ⟨pre, x, suf, h1, h2, h3, by rw [heq, h4]⟩

theorem trimInv_step {s acc : List Nat} {st : TrimSpaces} (c : List Nat)
    (h : trimInv s acc st) :
    trimInv (s ++ c) (acc ++ (st.ConvertChunk c).1) (st.ConvertChunk c).2 := by
  rcases h with ⟨h1, h2, h3, h4⟩ | ⟨h1, h2, ⟨pre0, x0, h3, hx0⟩, h4⟩
  · rcases convertChunk_leading st c h1 with ⟨hall, heq⟩ | ⟨pre, x, suf, hc, hx, hsuf, heq⟩
    · left
      rw [heq]
      refine ⟨rfl, h2, by simp [h3], ?_⟩
      intro y hy
      rcases List.mem_append.mp hy with hy | hy
      · exact h4 y hy
      · exact hall y hy
    · right
      rw [heq]
      refine ⟨rfl, hsuf, ⟨pre, x, by simp [h3, h2], hx⟩, ?_⟩
      rw [dropWhile_append_all c h4, hc]
      simp [h3, h2]
  · have hne : s.dropWhile isSpace ≠ [] := by
      rw [h4, h3]
      simp
    rcases convertChunk_processed st c h1 with ⟨hall, heq⟩ | ⟨pre, x, suf, hc, hx, hsuf, heq⟩
    · right
      rw [heq]
      refine ⟨rfl, ?_, ⟨pre0, x0, by simp [h3], hx0⟩, ?_⟩
      · intro y hy
        rcases List.mem_append.mp hy with hy | hy
        · exact h2 y hy
        · exact hall y hy
      · rw [dropWhile_append_ne_nil c hne, h4]
        simp
    · right
      rw [heq]
      refine ⟨rfl, hsuf, ⟨acc ++ st.undecidedSpaces ++ pre, x, by simp, hx⟩, ?_⟩
      rw [dropWhile_append_ne_nil c hne, h4, hc]
      simp

theorem trimInv_trimBoth {s acc : List Nat} {st : TrimSpaces} (h : trimInv s acc st) :
    trimBoth s = acc := by
  unfold trimBoth
  rcases h with ⟨_, _, h3, h4⟩ | ⟨_, h2, ⟨pre0, x0, h3, hx0⟩, h4⟩
  · rw [dropWhile_all h4, h3]
    rfl
  · rw [h4, h3]
    exact rstrip_concat hx0 h2

theorem trimInv_feed {s acc : List Nat} {st : TrimSpaces} (frags : List (List Nat))
    (h : trimInv s acc st) :
    trimInv (s ++ frags.flatten) (acc ++ (st.feed frags).1) (st.feed frags).2 := by
  induction frags generalizing s acc st with
  | nil => simpa [TrimSpaces.feed] using h
  | cons f fs ih =>
    have := ih (trimInv_step f h)
    simpa [TrimSpaces.feed, List.append_assoc] using this

theorem trimInv_fresh : trimInv [] [] TrimSpaces.fresh := by
  left
  exact ⟨rfl, rfl, rfl, by simp⟩

theorem feed_fresh_eq (frags : List (List Nat)) :
    (TrimSpaces.fresh.feed frags).1 = trimBoth frags.flatten := by
  have := trimInv_trimBoth (trimInv_feed frags trimInv_fresh)
  simpa using this.symm

theorem trimInv_ends {s acc : List Nat} {st : TrimSpaces} (h : trimInv s acc st) :
    (∀ x, acc.head? = some x → isSpace x = false)
    ∧ (∀ x, acc.getLast? = some x → isSpace x = false) := by
  rcases h with ⟨_, _, h3, _⟩ | ⟨_, _, ⟨pre0, x0, h3, hx0⟩, h4⟩
  · subst h3
    simp
  · constructor
    · intro x hx
      cases hacc : acc with
      | nil => simp [hacc] at hx
      | cons a as =>
        rw [hacc] at hx h4
        simp only [List.head?_cons, Option.some.injEq] at hx
        subst hx
        exact dropWhile_head_false h4
    · intro x hx
      rw [h3] at hx
      simp at hx
      subst hx
      exact hx0

theorem convertChunk_trimmed (t : List Nat)
    (hhead : ∀ x, t.head? = some x → isSpace x = false)
    (hlast : ∀ x, t.getLast? = some x → isSpace x = false) :
    (TrimSpaces.fresh.ConvertChunk t).1 = t
    ∧ (TrimSpaces.fresh.ConvertChunk t).2.undecidedSpaces = [] := by
  cases ht : t with
  | nil => exact ⟨rfl, rfl⟩
  | cons a as =>
    have ha : isSpace a = false := hhead a (by simp [ht])
    have hdw : (a :: as).dropWhile isSpace = a :: as := by simp [List.dropWhile, ha]
    rcases convertChunk_leading TrimSpaces.fresh (a :: as) rfl with
      ⟨hall, _⟩ | ⟨pre, x, suf, hc, hx, hsuf, heq⟩
    · have := hall a (by simp)
      rw [ha] at this
      cases this
    · rw [hdw] at hc
      have hsufnil : suf = [] := by
        rcases List.eq_nil_or_concat suf with hn | ⟨ini, z, hz⟩
        · exact hn
        · exfalso
          have hz1 : isSpace z = true := hsuf z (by simp [hz])
          have hl : t.getLast? = some z := by
            rw [ht, hc, hz, List.concat_eq_append, ← List.append_assoc]
            exact List.getLast?_concat _
          rw [hlast z hl] at hz1
          cases hz1
      subst hsufnil
      rw [heq, hc]
      simp [TrimSpaces.fresh]

theorem selectConv_ok {convs R : List Converter} {c : List Char}
    (h : selectConv convs c = .ok R) :
    (¬ (Converter.upperCase ∈ convs ∧ Converter.lowerCase ∈ convs) →
        ¬ (Converter.upperCase ∈ R ∧ Converter.lowerCase ∈ R))
    ∧ (∀ x ∈ convs, x ∈ R)
    ∧ (c = "upper_case".toList → Converter.upperCase ∈ R)
    ∧ (c = "lower_case".toList → Converter.lowerCase ∈ R) := by
  unfold selectConv at h
  split_ifs at h with h1 h2 h3 h4 h5 h6 h7 <;> simp at h <;> subst h
  all_goals first
    | (subst h1; simp_all)
    | (subst h4; simp_all)
    | simp_all

theorem selectAll_ok {sel : List (List Char)} {convs R : List Converter}
    (h : selectAll convs sel = .ok R) :
    (¬ (Converter.upperCase ∈ convs ∧ Converter.lowerCase ∈ convs) →
        ¬ (Converter.upperCase ∈ R ∧ Converter.lowerCase ∈ R))
    ∧ (∀ x ∈ convs, x ∈ R)
    ∧ ("upper_case".toList ∈ sel → Converter.upperCase ∈ R)
    ∧ ("lower_case".toList ∈ sel → Converter.lowerCase ∈ R) := by
  induction sel generalizing convs with
  | nil =>
    simp only [selectAll, Except.ok.injEq] at h
    subst h
    simp
  | cons c rest ih =>
    simp only [selectAll] at h
    cases hc : selectConv convs c with
    | error e => simp [hc] at h
    | ok convs1 =>
      rw [hc] at h
      obtain ⟨a1, a2, a3, a4⟩ := selectConv_ok hc
      obtain ⟨b1, b2, b3, b4⟩ := ih h
      refine ⟨fun hn => b1 (a1 hn), fun x hx => b2 x (a2 x hx), ?_, ?_⟩
      · intro hm
        rcases List.mem_cons.mp hm with hm | hm
        · exact b2 _ (a3 hm.symm)
        · exact b3 hm
      · intro hm
        rcases List.mem_cons.mp hm with hm | hm
        · exact b2 _ (a4 hm.symm)
        · exact b4 hm

theorem parseConv_ok {occ : List (List Char)} {convs R : List Converter}
    (h : parseConv convs occ = .ok R) :
    (¬ (Converter.upperCase ∈ convs ∧ Converter.lowerCase ∈ convs) →
        ¬ (Converter.upperCase ∈ R ∧ Converter.lowerCase ∈ R))
    ∧ (∀ x ∈ convs, x ∈ R)
    ∧ ((∃ s ∈ occ, "upper_case".toList ∈ splitOn ',' (trimSpace s)) → Converter.upperCase ∈ R)
    ∧ ((∃ s ∈ occ, "lower_case".toList ∈ splitOn ',' (trimSpace s)) → Converter.lowerCase ∈ R) := by
  induction occ generalizing convs with
  | nil =>
    simp only [parseConv, Except.ok.injEq] at h
    subst h
    simp
  | cons s rest ih =>
    simp only [parseConv] at h
    cases hc : convHandler convs s with
    | error e => simp [hc] at h
    | ok convs1 =>
      rw [hc] at h
      obtain ⟨a1, a2, a3, a4⟩ := selectAll_ok hc
      obtain ⟨b1, b2, b3, b4⟩ := ih h
      refine ⟨fun hn => b1 (a1 hn), fun x hx => b2 x (a2 x hx), ?_, ?_⟩
      · rintro ⟨s1, hs1, hm⟩
        rcases List.mem_cons.mp hs1 with hs1 | hs1
        · subst hs1
          exact b2 _ (a3 hm)
        · exact b3 ⟨s1, hs1, hm⟩
      · rintro ⟨s1, hs1, hm⟩
        rcases List.mem_cons.mp hs1 with hs1 | hs1
        · subst hs1
          exact b2 _ (a4 hm)
        · exact b4 ⟨s1, hs1, hm⟩

theorem validRune_ascii {r : Nat} (h : r ≤ 0x7F) : validRune r = true := by
  unfold validRune surrogateMin
  simp
  omega

theorem writtenRune_writtenRune (r : Nat) : writtenRune (writtenRune r) = writtenRune r := by
  unfold writtenRune
  by_cases h1 : validRune r = true
  · simp [h1]
  · have h2 : validRune RuneError = true := by decide
    simp [h1, h2]

theorem upperRune_idem {T : CaseTables} (hU : upperFixed T) (r : Nat) :
    writtenRune (unicodeToUpper T (writtenRune (unicodeToUpper T r)))
      = writtenRune (unicodeToUpper T r) := by
  by_cases hr : r ≤ 0x7F
  · have h1 : unicodeToUpper T r ≤ 0x7F := by
      unfold unicodeToUpper
      simp only [hr, if_true]
      split_ifs <;> omega
    have h2 : writtenRune (unicodeToUpper T r) = unicodeToUpper T r := by
      unfold writtenRune
      rw [validRune_ascii h1]
      rfl
    have h3 : unicodeToUpper T (unicodeToUpper T r) = unicodeToUpper T r := by
      unfold unicodeToUpper
      simp only [hr, if_true]
      split_ifs <;> omega
    rw [h2, h3, h2]
  · have h1 : unicodeToUpper T r = T.toUpper r := by
      unfold unicodeToUpper
      simp [hr]
    rw [h1, hU r (by omega), writtenRune_writtenRune]

theorem lowerRune_idem {T : CaseTables} (hL : lowerFixed T) (r : Nat) :
    writtenRune (unicodeToLower T (writtenRune (unicodeToLower T r)))
      = writtenRune (unicodeToLower T r) := by
  by_cases hr : r ≤ 0x7F
  · have h1 : unicodeToLower T r ≤ 0x7F := by
      unfold unicodeToLower
      simp only [hr, if_true]
      split_ifs <;> omega
    have h2 : writtenRune (unicodeToLower T r) = unicodeToLower T r := by
      unfold writtenRune
      rw [validRune_ascii h1]
      rfl
    have h3 : unicodeToLower T (unicodeToLower T r) = unicodeToLower T r := by
      unfold unicodeToLower
      simp only [hr, if_true]
      split_ifs <;> omega
    rw [h2, h3, h2]
  · have h1 : unicodeToLower T r = T.toLower r := by
      unfold unicodeToLower
      simp [hr]
    rw [h1, hL r (by omega), writtenRune_writtenRune]

theorem stringsMap_idem {g : Nat → Nat}
    (h : ∀ r, writtenRune (g (writtenRune (g r))) = writtenRune (g r)) (s : List Nat) :
    stringsMap g (stringsMap g s) = stringsMap g s := by
  induction s with
  | nil => rfl
  | cons r rs ih => simp only [stringsMap, h, ih]

theorem latin1Tables_upperFixed : upperFixed latin1Tables := by
  intro r hr
  simp only [latin1Tables, unicodeToUpper, writtenRune, validRune, surrogateMin, surrogateMax,
    MaxRune, RuneError]
  split_ifs <;> simp_all <;> omega

theorem latin1Tables_lowerFixed : lowerFixed latin1Tables := by
  intro r hr
  simp only [latin1Tables, unicodeToLower, writtenRune, validRune, surrogateMin, surrogateMax,
    MaxRune, RuneError]
  split_ifs <;> simp_all <;> omega

theorem uint64Sub_eq {a b : Nat} (h : b ≤ a) (ha : a < 2 ^ 64) : uint64Sub a b = a - b := by
  unfold uint64Sub
  omega

theorem toNat_toByte (n : Nat) : (toByte n).toNat = n % 256 := by
  show n % 256 % 256 = n % 256
  omega

theorem fullSink_write (st p : List Byte) :
    fullSink.write st p = ((p.length, none), st ++ p) := rfl

theorem decodeRune_ascii (b : Byte) (rest : List Byte) (h : b.toNat < 0x80) :
    decodeRune (b :: rest) = (b.toNat, 1) := by
  have hf : first b.toNat = 0xF0 := by
    unfold first
    simp [h]
  simp [decodeRune, hf]

theorem toByte_toNat (b : Byte) : toByte b.toNat = b := by
  unfold toByte
  apply UInt8.ext
  have := UInt8.toNat_lt_size b
  simp only [UInt8.size] at this
  rw [Nat.mod_eq_of_lt this]
  show b.toNat % 256 = b.toNat
  exact Nat.mod_eq_of_lt this

theorem appendRune_ascii (b : Byte) (h : b.toNat < 0x80) : appendRune b.toNat = [b] := by
  unfold appendRune rune1Max
  have : b.toNat ≤ 0x7F := by omega
  simp [this, toByte_toNat]

theorem appendRune_ne_nil (r : Nat) : appendRune r ≠ [] := by
  unfold appendRune
  split_ifs <;> simp

theorem encodeString_eq_nil {s : List Nat} : (encodeString s).length = 0 ↔ s = [] := by
  cases s with
  | nil => simp [encodeString]
  | cons r rs =>
    have := appendRune_ne_nil r
    simp [encodeString, this]

theorem encodeString_append (s t : List Nat) :
    encodeString (s ++ t) = encodeString s ++ encodeString t := by
  induction s with
  | nil => rfl
  | cons r rs ih => simp [encodeString, ih]

theorem encodeString_ascii (l : List Byte) (h : ∀ b ∈ l, b.toNat < 0x80) :
    encodeString (l.map (fun b => b.toNat)) = l := by
  induction l with
  | nil => rfl
  | cons b bs ih =>
    simp only [List.map, encodeString]
    rw [appendRune_ascii b (h b (by simp)), ih (fun c hc => h c (by simp [hc]))]
    rfl

theorem scanChunk_ascii (w : List Byte) (rest : List Byte) (fuel : Nat) (decoded : List Nat)
    (hf : rest.length ≤ fuel) (h : ∀ b ∈ rest, b.toNat < 0x80) :
    scanChunk fullSink fuel rest decoded [] w
      = .done (decoded ++ rest.map (fun b => b.toNat)) [] w := by
  induction rest generalizing fuel decoded with
  | nil =>
    cases fuel <;> simp [scanChunk]
  | cons b bs ih =>
    cases fuel with
    | zero => simp at hf
    | succ fuel =>
      have hb : b.toNat < 0x80 := h b (by simp)
      have hne : b.toNat ≠ RuneError := by
        unfold RuneError
        omega
      simp only [scanChunk, decodeRune_ascii b bs hb, hne, if_false, fullSink_write, List.length_nil,
        Nat.lt_irrefl, List.drop_nil, List.append_nil, List.drop_succ_cons, List.drop_zero]
      rw [ih fuel (decoded ++ [b.toNat]) (by simpa using hf) (fun c hc => h c (by simp [hc]))]
      simp

theorem processAndWrite_ascii (T : CaseTables) (w : List Byte) (convs : List Converter)
    (chunk : List Byte) (isLastChunk : Bool) (hne : chunk ≠ [])
    (h : ∀ b ∈ chunk, b.toNat < 0x80) :
    processAndWrite fullSink T { sink := w, conversions := convs } chunk isLastChunk
      = (([], none),
          { sink := w ++ encodeString (convertAll T convs (chunk.map (fun b => b.toNat))).1,
            conversions := (convertAll T convs (chunk.map (fun b => b.toNat))).2 }) := by
  unfold processAndWrite
  rw [scanChunk_ascii w chunk chunk.length [] (le_refl _) h]
  have h0 : ¬ (encodeString (chunk.map (fun b => b.toNat))).length = 0 := by
    rw [encodeString_eq_nil]
    simpa using hne
  simp [h0, fullSink_write]

theorem processAndWrite_nil_last (T : CaseTables) (w : List Byte) (convs : List Converter) :
    processAndWrite fullSink T { sink := w, conversions := convs } [] true
      = (([], none), { sink := w, conversions := convs }) := by
  simp [processAndWrite, scanChunk, encodeString, fullSink_write]

theorem runRead_stop {σ κ : Type} (R : Reader σ)
    (cb : κ → List Byte → Bool → (List Byte × Option Err) × κ) (blockSize fuel : Nat)
    (src : σ) (k : κ) :
    runRead R cb blockSize fuel src 0 [] k = some (none, src, k) := by
  cases fuel <;> simp [runRead]

theorem runRead_file_step {κ : Type} (cb : κ → List Byte → Bool → (List Byte × Option Err) × κ)
    (blockSize fuel : Nat) (rest : List Byte) (btr : Nat) (tail : List Byte) (k : κ)
    (hbs : 1 ≤ blockSize) (hb : 0 < btr) (hbtr : btr < 2 ^ 64) (hne : rest ≠ []) :
    runRead fileReader cb blockSize (fuel + 1) rest btr tail k
      = match (cb k (tail ++ rest.take (min blockSize btr))
            (decide (btr - (rest.take (min blockSize btr)).length = 0))).1.2 with
        | some err => some (some err, rest.drop (min blockSize btr),
            (cb k (tail ++ rest.take (min blockSize btr))
              (decide (btr - (rest.take (min blockSize btr)).length = 0))).2)
        | none => runRead fileReader cb blockSize fuel (rest.drop (min blockSize btr))
            (btr - (rest.take (min blockSize btr)).length)
            (cb k (tail ++ rest.take (min blockSize btr))
              (decide (btr - (rest.take (min blockSize btr)).length = 0))).1.1
            (cb k (tail ++ rest.take (min blockSize btr))
              (decide (btr - (rest.take (min blockSize btr)).length = 0))).2 := by
  have hn : min blockSize btr ≠ 0 := by omega
  have hlen : (rest.take (min blockSize btr)).length ≤ btr := by
    rw [List.length_take]
    omega
  rw [runRead]
  simp only [hb, true_or, if_true, fileReader, hn, if_false, hne, uint64Sub_eq hlen hbtr]
  simp

theorem runRead_file_eof {κ : Type} (cb : κ → List Byte → Bool → (List Byte × Option Err) × κ)
    (blockSize fuel : Nat) (btr : Nat) (tail : List Byte) (k : κ)
    (hbs : 1 ≤ blockSize) (hb : 0 < btr) :
    runRead fileReader cb blockSize (fuel + 1) [] btr tail k
      = match (cb k tail true).1.2 with
        | some err => some (some err, [], (cb k tail true).2)
        | none => runRead fileReader cb blockSize fuel [] 0 (cb k tail true).1.1
            (cb k tail true).2 := by
  have hn : min blockSize btr ≠ 0 := by omega
  rw [runRead]
  simp [hb, fileReader, hn]

theorem runRead_drain {σ κ : Type} (R : Reader σ)
    (cb : κ → List Byte → Bool → (List Byte × Option Err) × κ)
    (blockSize fuel : Nat) (src : σ) (tail : List Byte) (k : κ) (hne : tail ≠ []) :
    runRead R cb blockSize (fuel + 1) src 0 tail k
      = match (cb k tail true).1.2 with
        | some err => some (some err, src, (cb k tail true).2)
        | none => runRead R cb blockSize fuel src 0 (cb k tail true).1.1 (cb k tail true).2 := by
  have : 0 < tail.length := List.length_pos.mpr hne
  rw [runRead]
  simp [this]

theorem runRead_ascii (T : CaseTables) (blockSize : Nat) (hbs : 1 ≤ blockSize) :
    ∀ (fuel : Nat) (rest : List Byte) (btr : Nat) (w : List Byte) (convs : List Converter),
      (∀ b ∈ rest, b.toNat < 0x80) → rest.length ≤ btr → btr < 2 ^ 64 →
      rest.length + 1 ≤ fuel →
      ∃ frags : List (List Nat), frags.flatten = rest.map (fun b => b.toNat) ∧
        runRead fileReader (processAndWrite fullSink T) blockSize fuel rest btr []
            { sink := w, conversions := convs }
          = some (none, [],
              { sink := w ++ encodeString (convertFrags T convs frags).1,
                conversions := (convertFrags T convs frags).2 }) := by
  intro fuel
  induction fuel with
  | zero =>
    intro rest btr w convs _ _ _ hf
    omega
  | succ fuel ih =>
    intro rest btr w convs hascii hlen hbtr hfuel
    by_cases h0 : btr = 0
    · subst h0
      have hr : rest = [] := List.length_eq_zero.mp (by omega)
      subst hr
      refine ⟨[], rfl, ?_⟩
      rw [runRead_stop]
      simp [convertFrags, encodeString]
    · have hpos : 0 < btr := by omega
      cases rest with
      | nil =>
        refine ⟨[], rfl, ?_⟩
        rw [runRead_file_eof _ _ _ _ _ _ hbs hpos]
        simp [processAndWrite_nil_last, runRead_stop, convertFrags, encodeString]
      | cons b bs =>
        have hne : (b :: bs) ≠ [] := by simp
        have hn : min blockSize btr ≠ 0 := by omega
        have hdne : (b :: bs).take (min blockSize btr) ≠ [] := by
          cases hm : min blockSize btr with
          | zero => exact absurd hm hn
          | succ m => simp
        have hdascii : ∀ c ∈ (b :: bs).take (min blockSize btr), c.toNat < 0x80 :=
          fun c hc => hascii c (List.mem_of_mem_take hc)
        have hdlen : ((b :: bs).take (min blockSize btr)).length = min (min blockSize btr) (bs.length + 1) := by
          simp [List.length_take]
        have hrlen : ((b :: bs).drop (min blockSize btr)).length
            = bs.length + 1 - min blockSize btr := by
          simp [List.length_drop]
        simp only [List.length_cons] at hlen hfuel
        obtain ⟨frags, hfl, hrun⟩ := ih ((b :: bs).drop (min blockSize btr))
          (btr - ((b :: bs).take (min blockSize btr)).length)
          (w ++ encodeString (convertAll T convs
            (((b :: bs).take (min blockSize btr)).map (fun b => b.toNat))).1)
          (convertAll T convs (((b :: bs).take (min blockSize btr)).map (fun b => b.toNat))).2
          (fun c hc => hascii c (List.mem_of_mem_drop hc))
          (by rw [hrlen, hdlen]; omega) (by omega) (by rw [hrlen]; omega)
        refine ⟨((b :: bs).take (min blockSize btr)).map (fun b => b.toNat) :: frags, ?_, ?_⟩
        · rw [List.flatten_cons, hfl, ← List.map_append, List.take_append_drop]
        · rw [runRead_file_step _ _ _ _ _ _ _ hbs hpos hbtr hne]
          simp only [List.nil_append]
          rw [processAndWrite_ascii T w convs _ _ hdne hdascii]
          simp only [hrun, convertFrags, encodeString_append, List.append_assoc]

theorem or_eq_add (a b i : Nat) (hb : b < 2 ^ i) (ha : a % 2 ^ i = 0) : a ||| b = a + b := by
  obtain ⟨k, hk⟩ : 2 ^ i ∣ a := Nat.dvd_of_mod_eq_zero ha
  subst hk
  exact (Nat.mul_add_lt_is_or hb k).symm

theorem and_3F (x : Nat) : x &&& 0x3F = x % 64 := Nat.and_pow_two_sub_one_eq_mod x 6

theorem and_1F (x : Nat) : x &&& 0x1F = x % 32 := Nat.and_pow_two_sub_one_eq_mod x 5

theorem and_0F (x : Nat) : x &&& 0x0F = x % 16 := Nat.and_pow_two_sub_one_eq_mod x 4

theorem and_07 (x : Nat) : x &&& 0x07 = x % 8 := Nat.and_pow_two_sub_one_eq_mod x 3

theorem decodeRune_width_pos (b : Byte) (bs : List Byte) : 1 ≤ (decodeRune (b :: bs)).2 := by
  unfold decodeRune
  simp only
  split_ifs <;> (try simp) <;> (repeat' split) <;> (try simp)

theorem val2 (a b : Nat) :
    ((a &&& 0x1F) <<< 6) ||| (b &&& 0x3F) = (a % 32) * 64 + b % 64 := by
  rw [and_1F, and_3F, Nat.shiftLeft_eq, or_eq_add _ _ 6 (by omega) (by omega)]

theorem val3 (a b c : Nat) :
    ((a &&& 0x0F) <<< 12) ||| ((b &&& 0x3F) <<< 6) ||| (c &&& 0x3F)
      = (a % 16) * 4096 + (b % 64) * 64 + c % 64 := by
  rw [and_0F, and_3F, and_3F, Nat.shiftLeft_eq, Nat.shiftLeft_eq]
  have h1 : a % 16 * 2 ^ 12 ||| b % 64 * 2 ^ 6 = a % 16 * 2 ^ 12 + b % 64 * 2 ^ 6 :=
    or_eq_add _ _ 12 (by omega) (by omega)
  rw [h1, or_eq_add _ _ 6 (by omega) (by omega)]
  omega

theorem val4 (a b c d : Nat) :
    ((a &&& 0x07) <<< 18) ||| ((b &&& 0x3F) <<< 12) ||| ((c &&& 0x3F) <<< 6) ||| (d &&& 0x3F)
      = (a % 8) * 262144 + (b % 64) * 4096 + (c % 64) * 64 + d % 64 := by
  rw [and_07, and_3F, and_3F, and_3F, Nat.shiftLeft_eq, Nat.shiftLeft_eq, Nat.shiftLeft_eq]
  have h1 : a % 8 * 2 ^ 18 ||| b % 64 * 2 ^ 12 = a % 8 * 2 ^ 18 + b % 64 * 2 ^ 12 :=
    or_eq_add _ _ 18 (by omega) (by omega)
  have h2 : a % 8 * 2 ^ 18 + b % 64 * 2 ^ 12 ||| c % 64 * 2 ^ 6
      = a % 8 * 2 ^ 18 + b % 64 * 2 ^ 12 + c % 64 * 2 ^ 6 :=
    or_eq_add _ _ 12 (by omega) (by omega)
  rw [h1, h2, or_eq_add _ _ 6 (by omega) (by omega)]
  omega

theorem first_two {n : Nat} (h : 0xC2 ≤ n ∧ n ≤ 0xDF) : first n = 0x02 := by
  unfold first
  split_ifs <;> omega

theorem first_three {n : Nat} (h : 0xE0 ≤ n ∧ n ≤ 0xEF) :
    first n = (if n = 0xE0 then 0x13 else if n = 0xED then 0x23 else 0x03) := by
  unfold first
  split_ifs <;> omega

theorem first_four {n : Nat} (h : 0xF0 ≤ n ∧ n ≤ 0xF4) :
    first n = (if n = 0xF0 then 0x34 else if n = 0xF4 then 0x44 else 0x04) := by
  unfold first
  split_ifs <;> omega

theorem first_cont {n : Nat} (h : 0x80 ≤ n ∧ n ≤ 0xBF) : first n = 0xF1 := by
  unfold first
  split_ifs <;> omega

theorem decodeRune_two (b0 b1 : Byte) (rest : List Byte)
    (h0 : 0xC2 ≤ b0.toNat ∧ b0.toNat ≤ 0xDF) (h1 : 0x80 ≤ b1.toNat ∧ b1.toNat ≤ 0xBF) :
    decodeRune (b0 :: b1 :: rest) = ((b0.toNat % 32) * 64 + b1.toNat % 64, 2) := by
  have hn1 : ¬ (b1.toNat < 0x80 ∨ 0xBF < b1.toNat) := by omega
  have h27 : (2 : Nat) &&& 7 = 2 := rfl
  simp only [decodeRune, first_two h0, acceptRanges, locb, hicb, val2, h27, hn1]
  simp

theorem decodeRune_three (b0 b1 b2 : Byte) (rest : List Byte)
    (h0 : 0xE0 ≤ b0.toNat ∧ b0.toNat ≤ 0xEF) (h1 : 0x80 ≤ b1.toNat ∧ b1.toNat ≤ 0xBF)
    (h2 : 0x80 ≤ b2.toNat ∧ b2.toNat ≤ 0xBF) (hlo : b0.toNat = 0xE0 → 0xA0 ≤ b1.toNat)
    (hhi : b0.toNat = 0xED → b1.toNat ≤ 0x9F) :
    decodeRune (b0 :: b1 :: b2 :: rest)
      = ((b0.toNat % 16) * 4096 + (b1.toNat % 64) * 64 + b2.toNat % 64, 3) := by
  have hn2 : ¬ (b2.toNat < 0x80 ∨ 0xBF < b2.toNat) := by omega
  have e1 : (0x13 : Nat) &&& 7 = 3 := rfl
  have e2 : (0x23 : Nat) &&& 7 = 3 := rfl
  have e3 : (0x03 : Nat) &&& 7 = 3 := rfl
  by_cases hE0 : b0.toNat = 0xE0
  · have hn1 : ¬ (b1.toNat < 0xA0 ∨ 0xBF < b1.toNat) := by
      have := hlo hE0
      omega
    have hf : first b0.toNat = 0x13 := by
      rw [first_three h0]
      simp [hE0]
    simp only [decodeRune, hf, acceptRanges, locb, hicb, val3, e1, hn1, hn2]
    simp
  · by_cases hED : b0.toNat = 0xED
    · have hn1 : ¬ (b1.toNat < 0x80 ∨ 0x9F < b1.toNat) := by
        have := hhi hED
        omega
      have hf : first b0.toNat = 0x23 := by
        rw [first_three h0]
        simp [hED]
      simp only [decodeRune, hf, acceptRanges, locb, hicb, val3, e2, hn1, hn2]
      simp
    · have hn1 : ¬ (b1.toNat < 0x80 ∨ 0xBF < b1.toNat) := by omega
      have hf : first b0.toNat = 0x03 := by
        rw [first_three h0]
        simp [hE0, hED]
      simp only [decodeRune, hf, acceptRanges, locb, hicb, val3, e3, hn1, hn2]
      simp

theorem decodeRune_four (b0 b1 b2 b3 : Byte) (rest : List Byte)
    (h0 : 0xF0 ≤ b0.toNat ∧ b0.toNat ≤ 0xF4) (h1 : 0x80 ≤ b1.toNat ∧ b1.toNat ≤ 0xBF)
    (h2 : 0x80 ≤ b2.toNat ∧ b2.toNat ≤ 0xBF) (h3 : 0x80 ≤ b3.toNat ∧ b3.toNat ≤ 0xBF)
    (hlo : b0.toNat = 0xF0 → 0x90 ≤ b1.toNat) (hhi : b0.toNat = 0xF4 → b1.toNat ≤ 0x8F) :
    decodeRune (b0 :: b1 :: b2 :: b3 :: rest)
      = ((b0.toNat % 8) * 262144 + (b1.toNat % 64) * 4096 + (b2.toNat % 64) * 64
          + b3.toNat % 64, 4) := by
  have hn2 : ¬ (b2.toNat < 0x80 ∨ 0xBF < b2.toNat) := by omega
  have hn3 : ¬ (b3.toNat < 0x80 ∨ 0xBF < b3.toNat) := by omega
  have e1 : (0x34 : Nat) &&& 7 = 4 := rfl
  have e2 : (0x44 : Nat) &&& 7 = 4 := rfl
  have e3 : (0x04 : Nat) &&& 7 = 4 := rfl
  by_cases hF0 : b0.toNat = 0xF0
  · have hn1 : ¬ (b1.toNat < 0x90 ∨ 0xBF < b1.toNat) := by
      have := hlo hF0
      omega
    have hf : first b0.toNat = 0x34 := by
      rw [first_four h0]
      simp [hF0]
    simp only [decodeRune, hf, acceptRanges, locb, hicb, val4, e1, hn1, hn2, hn3]
    simp
  · by_cases hF4 : b0.toNat = 0xF4
    · have hn1 : ¬ (b1.toNat < 0x80 ∨ 0x8F < b1.toNat) := by
        have := hhi hF4
        omega
      have hf : first b0.toNat = 0x44 := by
        rw [first_four h0]
        simp [hF4]
      simp only [decodeRune, hf, acceptRanges, locb, hicb, val4, e2, hn1, hn2, hn3]
      simp
    · have hn1 : ¬ (b1.toNat < 0x80 ∨ 0xBF < b1.toNat) := by omega
      have hf : first b0.toNat = 0x04 := by
        rw [first_four h0]
        simp [hF0, hF4]
      simp only [decodeRune, hf, acceptRanges, locb, hicb, val4, e3, hn1, hn2, hn3]
      simp

theorem decodeRune_cont (b : Byte) (rest : List Byte) (h : 0x80 ≤ b.toNat ∧ b.toNat ≤ 0xBF) :
    decodeRune (b :: rest) = (RuneError, 1) := by
  have e1 : (0xF1 : Nat) &&& 1 = 1 := rfl
  simp only [decodeRune, first_cont h, e1]
  simp

theorem first_lead {n : Nat} (h : 0xC2 ≤ n ∧ n ≤ 0xF4) :
    first n < 0xF0 ∧ first n &&& 7
      = (if n ≤ 0xDF then 2 else if n ≤ 0xEF then 3 else 4) := by
  unfold first
  split_ifs <;> first | omega | (constructor <;> first | omega | rfl)

theorem decodeRune_short (b0 : Byte) (cs : List Byte) (h : 0xC2 ≤ b0.toNat ∧ b0.toNat ≤ 0xF4)
    (hlen : cs.length + 1 < (if b0.toNat ≤ 0xDF then 2 else if b0.toNat ≤ 0xEF then 3 else 4)) :
    decodeRune (b0 :: cs) = (RuneError, 1) := by
  obtain ⟨hf1, hf2⟩ := first_lead h
  have hx : ¬ (first b0.toNat ≥ 0xF0) := by omega
  simp only [decodeRune, hx, if_false, hf2, List.length_cons, hlen, if_true]

theorem or_C0 (x : Nat) (h : x < 64) : 0xC0 ||| x = 0xC0 + x :=
  or_eq_add _ _ 6 (by omega) (by omega)

theorem or_80 (x : Nat) (h : x < 64) : 0x80 ||| x = 0x80 + x :=
  or_eq_add _ _ 6 (by omega) (by omega)

theorem or_E0 (x : Nat) (h : x < 32) : 0xE0 ||| x = 0xE0 + x :=
  or_eq_add _ _ 5 (by omega) (by omega)

theorem or_F0 (x : Nat) (h : x < 16) : 0xF0 ||| x = 0xF0 + x :=
  or_eq_add _ _ 4 (by omega) (by omega)

theorem appendRune_two (r : Nat) (h : 0x80 ≤ r ∧ r ≤ 0x7FF) :
    appendRune r = [toByte (0xC0 + r / 64), toByte (0x80 + r % 64)] := by
  have h1 : ¬ r ≤ 0x7F := by omega
  have h2 : r ≤ 0x7FF := h.2
  have e0 : 0xC0 ||| (r >>> 6) % 256 = 0xC0 + r / 64 := by
    rw [Nat.shiftRight_eq_div_pow, or_C0 _ (by omega)]
    omega
  have e1 : 0x80 ||| (r % 256 &&& 0x3F) = 0x80 + r % 64 := by
    rw [and_3F, or_80 _ (by omega)]
    omega
  simp only [appendRune, rune1Max, rune2Max, h1, h2, if_false, if_true, e0, e1]

theorem appendRune_three (r : Nat) (h : 0x800 ≤ r ∧ r ≤ 0xFFFF)
    (hs : r < 0xD800 ∨ 0xDFFF < r) :
    appendRune r
      = [toByte (0xE0 + r / 4096), toByte (0x80 + r / 64 % 64), toByte (0x80 + r % 64)] := by
  have h1 : ¬ r ≤ 0x7F := by omega
  have h2 : ¬ r ≤ 0x7FF := by omega
  have h3 : ¬ (r > 0x10FFFF ∨ (0xD800 ≤ r ∧ r ≤ 0xDFFF)) := by omega
  have h4 : (r > 0x10FFFF ∨ (0xD800 ≤ r ∧ r ≤ 0xDFFF) ∨ r ≤ 0xFFFF) := by omega
  have e0 : 0xE0 ||| (r >>> 12) % 256 = 0xE0 + r / 4096 := by
    rw [Nat.shiftRight_eq_div_pow, or_E0 _ (by omega)]
    omega
  have e1 : 0x80 ||| ((r >>> 6) % 256 &&& 0x3F) = 0x80 + r / 64 % 64 := by
    rw [Nat.shiftRight_eq_div_pow, and_3F, or_80 _ (by omega)]
    omega
  have e2 : 0x80 ||| (r % 256 &&& 0x3F) = 0x80 + r % 64 := by
    rw [and_3F, or_80 _ (by omega)]
    omega
  simp only [appendRune, rune1Max, rune2Max, rune3Max, MaxRune, surrogateMin, surrogateMax,
    h1, h2, h3, h4, if_false, if_true, e0, e1, e2]

theorem appendRune_four (r : Nat) (h : 0x10000 ≤ r ∧ r ≤ 0x10FFFF) :
    appendRune r
      = [toByte (0xF0 + r / 262144), toByte (0x80 + r / 4096 % 64),
          toByte (0x80 + r / 64 % 64), toByte (0x80 + r % 64)] := by
  have h1 : ¬ r ≤ 0x7F := by omega
  have h2 : ¬ r ≤ 0x7FF := by omega
  have h4 : ¬ (r > 0x10FFFF ∨ (0xD800 ≤ r ∧ r ≤ 0xDFFF) ∨ r ≤ 0xFFFF) := by omega
  have e0 : 0xF0 ||| (r >>> 18) % 256 = 0xF0 + r / 262144 := by
    rw [Nat.shiftRight_eq_div_pow, or_F0 _ (by omega)]
    omega
  have e1 : 0x80 ||| ((r >>> 12) % 256 &&& 0x3F) = 0x80 + r / 4096 % 64 := by
    rw [Nat.shiftRight_eq_div_pow, and_3F, or_80 _ (by omega)]
    omega
  have e2 : 0x80 ||| ((r >>> 6) % 256 &&& 0x3F) = 0x80 + r / 64 % 64 := by
    rw [Nat.shiftRight_eq_div_pow, and_3F, or_80 _ (by omega)]
    omega
  have e3 : 0x80 ||| (r % 256 &&& 0x3F) = 0x80 + r % 64 := by
    rw [and_3F, or_80 _ (by omega)]
    omega
  simp only [appendRune, rune1Max, rune2Max, rune3Max, MaxRune, surrogateMin, surrogateMax,
    h1, h2, h4, if_false, e0, e1, e2, e3]

theorem appendRune_one (r : Nat) (h : r ≤ 0x7F) : appendRune r = [toByte r] := by
  simp only [appendRune, rune1Max, h, if_true]

theorem validRune_iff (r : Nat) :
    validRune r = true ↔ (r < 0xD800 ∨ (0xDFFF < r ∧ r ≤ 0x10FFFF)) := by
  simp [validRune, surrogateMin, surrogateMax, MaxRune]

theorem decodeRune_appendRune (r : Nat) (hv : validRune r = true) (rest : List Byte) :
    decodeRune (appendRune r ++ rest) = (r, (appendRune r).length) := by
  rw [validRune_iff] at hv
  by_cases h1 : r ≤ 0x7F
  · have hb : (toByte r).toNat = r := by
      rw [toNat_toByte]
      omega
    rw [appendRune_one r h1]
    simp only [List.singleton_append, List.length_singleton]
    rw [decodeRune_ascii _ _ (by omega), hb]
  · by_cases h2 : r ≤ 0x7FF
    · have hb0 : (toByte (0xC0 + r / 64)).toNat = 0xC0 + r / 64 := by
        rw [toNat_toByte]
        omega
      have hb1 : (toByte (0x80 + r % 64)).toNat = 0x80 + r % 64 := by
        rw [toNat_toByte]
        omega
      rw [appendRune_two r (by omega)]
      simp only [List.cons_append, List.nil_append, List.length_cons, List.length_nil]
      rw [decodeRune_two _ _ _ (by omega) (by omega), hb0, hb1]
      congr 1
      omega
    · by_cases h3 : r ≤ 0xFFFF
      · have hb0 : (toByte (0xE0 + r / 4096)).toNat = 0xE0 + r / 4096 := by
          rw [toNat_toByte]
          omega
        have hb1 : (toByte (0x80 + r / 64 % 64)).toNat = 0x80 + r / 64 % 64 := by
          rw [toNat_toByte]
          omega
        have hb2 : (toByte (0x80 + r % 64)).toNat = 0x80 + r % 64 := by
          rw [toNat_toByte]
          omega
        rw [appendRune_three r (by omega) (by omega)]
        simp only [List.cons_append, List.nil_append, List.length_cons, List.length_nil]
        rw [decodeRune_three _ _ _ _ (by omega) (by omega) (by omega) (by omega) (by omega),
          hb0, hb1, hb2]
        congr 1
        omega
      · have hb0 : (toByte (0xF0 + r / 262144)).toNat = 0xF0 + r / 262144 := by
          rw [toNat_toByte]
          omega
        have hb1 : (toByte (0x80 + r / 4096 % 64)).toNat = 0x80 + r / 4096 % 64 := by
          rw [toNat_toByte]
          omega
        have hb2 : (toByte (0x80 + r / 64 % 64)).toNat = 0x80 + r / 64 % 64 := by
          rw [toNat_toByte]
          omega
        have hb3 : (toByte (0x80 + r % 64)).toNat = 0x80 + r % 64 := by
          rw [toNat_toByte]
          omega
        rw [appendRune_four r (by omega)]
        simp only [List.cons_append, List.nil_append, List.length_cons, List.length_nil]
        rw [decodeRune_four _ _ _ _ _ (by omega) (by omega) (by omega) (by omega) (by omega)
          (by omega), hb0, hb1, hb2, hb3]
        congr 1
        omega

/-- The shape of an encoding of more than one byte: a lead byte that announces the
length, followed by continuation bytes. -/
theorem appendRune_shape (r : Nat) (hv : validRune r = true) (h1 : ¬ r ≤ 0x7F) :
    ∃ (b0 : Byte) (cs : List Byte), appendRune r = b0 :: cs
      ∧ (0xC2 ≤ b0.toNat ∧ b0.toNat ≤ 0xF4)
      ∧ cs.length + 1 = (if b0.toNat ≤ 0xDF then 2 else if b0.toNat ≤ 0xEF then 3 else 4)
      ∧ ∀ c ∈ cs, 0x80 ≤ c.toNat ∧ c.toNat ≤ 0xBF := by
  rw [validRune_iff] at hv
  have hc : ∀ x, x < 64 → 0x80 ≤ (toByte (0x80 + x)).toNat ∧ (toByte (0x80 + x)).toNat ≤ 0xBF := by
    intro x hx
    rw [toNat_toByte]
    omega
  by_cases h2 : r ≤ 0x7FF
  · have hb0 : (toByte (0xC0 + r / 64)).toNat = 0xC0 + r / 64 := by
      rw [toNat_toByte]
      omega
    refine ⟨_, _, appendRune_two r (by omega), by omega, ?_, ?_⟩
    · have : (toByte (0xC0 + r / 64)).toNat ≤ 0xDF := by omega
      simp [this]
    · intro c hc1
      simp only [List.mem_singleton] at hc1
      subst hc1
      exact hc _ (by omega)
  · by_cases h3 : r ≤ 0xFFFF
    · have hb0 : (toByte (0xE0 + r / 4096)).toNat = 0xE0 + r / 4096 := by
        rw [toNat_toByte]
        omega
      refine ⟨_, _, appendRune_three r (by omega) (by omega), by omega, ?_, ?_⟩
      · have t1 : ¬ (toByte (0xE0 + r / 4096)).toNat ≤ 0xDF := by omega
        have t2 : (toByte (0xE0 + r / 4096)).toNat ≤ 0xEF := by omega
        simp [t1, t2]
      · intro c hc1
        simp only [List.mem_cons, List.mem_singleton, List.not_mem_nil, or_false] at hc1
        rcases hc1 with hc1 | hc1 <;> subst hc1 <;> exact hc _ (by omega)
    · have hb0 : (toByte (0xF0 + r / 262144)).toNat = 0xF0 + r / 262144 := by
        rw [toNat_toByte]
        omega
      refine ⟨_, _, appendRune_four r (by omega), by omega, ?_, ?_⟩
      · have t1 : ¬ (toByte (0xF0 + r / 262144)).toNat ≤ 0xDF := by omega
        have t2 : ¬ (toByte (0xF0 + r / 262144)).toNat ≤ 0xEF := by omega
        simp [t1, t2]
      · intro c hc1
        simp only [List.mem_cons, List.mem_singleton, List.not_mem_nil, or_false] at hc1
        rcases hc1 with hc1 | hc1 | hc1 <;> subst hc1 <;> exact hc _ (by omega)

theorem scanChunk_raw_step {ω : Type} (W : Writer ω) (fuel : Nat) (b : Byte) (bs : List Byte)
    (decoded : List Nat) (tail : List Byte) (w : ω) (wd : Nat)
    (h : decodeRune (b :: bs) = (RuneError, wd)) :
    scanChunk W (fuel + 1) (b :: bs) decoded tail w
      = scanChunk W fuel ((b :: bs).drop wd) decoded (tail ++ (b :: bs).take wd) w := by
  simp only [scanChunk, h, if_true]

theorem scanChunk_valid_step (fuel : Nat) (b : Byte) (bs : List Byte)
    (decoded : List Nat) (tail : List Byte) (w : List Byte) (r wd : Nat)
    (h : decodeRune (b :: bs) = (r, wd)) (hr : r ≠ RuneError) :
    scanChunk fullSink (fuel + 1) (b :: bs) decoded tail w
      = scanChunk fullSink fuel ((b :: bs).drop wd) (decoded ++ [r]) [] (w ++ tail) := by
  simp only [scanChunk, h, hr, if_false, fullSink_write, Nat.lt_irrefl, List.drop_length]

theorem scanChunk_nil {ω : Type} (W : Writer ω) (fuel : Nat) (decoded : List Nat)
    (tail : List Byte) (w : ω) :
    scanChunk W fuel [] decoded tail w = .done decoded tail w := by
  cases fuel <;> simp [scanChunk]

theorem scanChunk_conts {ω : Type} (W : Writer ω) (cs : List Byte) :
    ∀ (fuel : Nat) (decoded : List Nat) (tail : List Byte) (w : ω),
      (∀ c ∈ cs, 0x80 ≤ c.toNat ∧ c.toNat ≤ 0xBF) → cs.length ≤ fuel →
      scanChunk W fuel cs decoded tail w = .done decoded (tail ++ cs) w := by
  induction cs with
  | nil =>
    intro fuel decoded tail w _ _
    rw [scanChunk_nil]
    simp
  | cons c cs ih =>
    intro fuel decoded tail w hc hf
    cases fuel with
    | zero => simp at hf
    | succ fuel =>
      rw [scanChunk_raw_step W fuel c cs decoded tail w 1 (decodeRune_cont c cs (hc c (by simp)))]
      simp only [List.drop_succ_cons, List.drop_zero, List.take_succ_cons, List.take_zero]
      rw [ih fuel decoded (tail ++ [c]) w (fun x hx => hc x (by simp [hx]))
        (by simpa using hf)]
      simp

/-- A chunk that ends inside the encoding of a character: the bytes of the
unfinished character are all kept as raw bytes. -/
theorem scanChunk_proper {ω : Type} (W : Writer ω) (r : Nat) (hv : validRune r = true)
    (p q : List Byte) (hpq : p ++ q = appendRune r) (hq : q ≠ [])
    (fuel : Nat) (decoded : List Nat) (tail : List Byte) (w : ω) (hf : p.length ≤ fuel) :
    scanChunk W fuel p decoded tail w = .done decoded (tail ++ p) w := by
  cases p with
  | nil =>
    rw [scanChunk_nil]
    simp
  | cons b0 cs1 =>
    have h1 : ¬ r ≤ 0x7F := by
      intro h
      have := congrArg List.length hpq
      rw [appendRune_one r h] at this
      simp only [List.cons_append, List.length_cons, List.length_append,
        List.length_nil] at this
      have : q.length = 0 := by omega
      exact hq (List.length_eq_zero.mp this)
    obtain ⟨b0', cs, he, hb0, hlen, hcs⟩ := appendRune_shape r hv h1
    rw [he] at hpq
    simp only [List.cons_append, List.cons.injEq] at hpq
    obtain ⟨hb, hcs1⟩ := hpq
    subst hb
    have hqpos : 0 < q.length := List.length_pos.mpr hq
    have hlen1 : cs1.length + q.length = cs.length := by
      rw [← hcs1, List.length_append]
    cases fuel with
    | zero => simp at hf
    | succ fuel =>
      rw [scanChunk_raw_step W fuel b0 cs1 decoded tail w 1
        (decodeRune_short b0 cs1 hb0 (by rw [← hlen]; omega))]
      simp only [List.drop_succ_cons, List.drop_zero, List.take_succ_cons, List.take_zero]
      rw [scanChunk_conts W cs1 fuel decoded (tail ++ [b0]) w
        (fun c hc => hcs c (by rw [← hcs1]; simp [hc])) (by simpa using hf)]
      simp

theorem decodeRune_replacement (rest : List Byte) :
    decodeRune (0xEF :: 0xBF :: 0xBD :: rest) = (RuneError, 3) := by
  rfl

theorem encodeString_replicate_succ (k : Nat) :
    encodeString (List.replicate (k + 1) RuneError)
      = [0xEF, 0xBF, 0xBD] ++ encodeString (List.replicate k RuneError) := by
  rfl

/-- A run of encoded replacement characters is kept as raw bytes. -/
theorem scanChunk_replacement {ω : Type} (W : Writer ω) (k : Nat) :
    ∀ (fuel : Nat) (rest : List Byte) (decoded : List Nat) (tail : List Byte) (w : ω),
      (encodeString (List.replicate k RuneError) ++ rest).length ≤ fuel →
      ∃ fuel1, rest.length ≤ fuel1 ∧
        scanChunk W fuel (encodeString (List.replicate k RuneError) ++ rest) decoded tail w
          = scanChunk W fuel1 rest decoded
              (tail ++ encodeString (List.replicate k RuneError)) w := by
  induction k with
  | zero =>
    intro fuel rest decoded tail w hf
    exact ⟨fuel, by simpa [encodeString] using hf, by simp [encodeString]⟩
  | succ k ih =>
    intro fuel rest decoded tail w hf
    rw [encodeString_replicate_succ] at hf ⊢
    cases fuel with
    | zero => simp at hf
    | succ fuel =>
      simp only [List.cons_append, List.nil_append, List.length_cons, List.length_append] at hf
      obtain ⟨fuel1, h1, h2⟩ := ih fuel rest decoded (tail ++ [0xEF, 0xBF, 0xBD]) w
        (by simp only [List.length_append]; omega)
      refine ⟨fuel1, h1, ?_⟩
      simp only [List.cons_append, List.nil_append]
      rw [scanChunk_raw_step W fuel _ _ decoded tail w 3 (decodeRune_replacement _)]
      simp only [List.drop_succ_cons, List.drop_zero, List.take_succ_cons, List.take_zero]
      rw [h2]
      simp

/-- A chunk made of encoded replacement characters followed by the beginning of
the encoding of a character is scanned as raw bytes only. -/
theorem scanChunk_pending {ω : Type} (W : Writer ω) (k r : Nat) (hv : validRune r = true)
    (p q : List Byte) (hpq : p ++ q = appendRune r) (hq : q ≠ []) (w : ω) :
    scanChunk W (encodeString (List.replicate k RuneError) ++ p).length
        (encodeString (List.replicate k RuneError) ++ p) [] [] w
      = .done [] (encodeString (List.replicate k RuneError) ++ p) w := by
  obtain ⟨fuel1, h1, h2⟩ := scanChunk_replacement W k _ p [] [] w (le_refl _)
  rw [h2, scanChunk_proper W r hv p q hpq hq fuel1 [] _ w h1]
  simp

theorem scanChunk_complete (k r : Nat) (hv : validRune r = true) (hr : r ≠ RuneError)
    (w : List Byte) :
    scanChunk fullSink (encodeString (List.replicate k RuneError) ++ appendRune r).length
        (encodeString (List.replicate k RuneError) ++ appendRune r) [] [] w
      = .done [r] [] (w ++ encodeString (List.replicate k RuneError)) := by
  obtain ⟨fuel1, h1, h2⟩ := scanChunk_replacement fullSink k _ (appendRune r) [] [] w (le_refl _)
  rw [h2]
  have hd := decodeRune_appendRune r hv []
  rw [List.append_nil] at hd
  cases he : appendRune r with
  | nil => exact absurd he (appendRune_ne_nil r)
  | cons b bs =>
    rw [he] at hd h1
    cases fuel1 with
    | zero => simp at h1
    | succ fuel1 =>
      rw [scanChunk_valid_step fuel1 b bs [] _ w r _ hd hr, List.drop_length, scanChunk_nil]
      simp

theorem processAndWrite_pending (T : CaseTables) (k r : Nat) (hv : validRune r = true)
    (p q : List Byte) (hpq : p ++ q = appendRune r) (hq : q ≠ []) (w : List Byte) :
    processAndWrite fullSink T { sink := w, conversions := [Converter.upperCase] }
        (encodeString (List.replicate k RuneError) ++ p) false
      = ((encodeString (List.replicate k RuneError) ++ p, none),
          { sink := w, conversions := [Converter.upperCase] }) := by
  unfold processAndWrite
  rw [scanChunk_pending fullSink k r hv p q hpq hq w]
  simp [convertAll, Converter.ConvertChunk, UpperCase.ConvertChunk, stringsToUpper, stringsMap,
    encodeString, fullSink_write]

theorem processAndWrite_pending_last (T : CaseTables) (k : Nat) (w : List Byte)
    (convs : List Converter) :
    processAndWrite fullSink T { sink := w, conversions := convs }
        (encodeString (List.replicate k RuneError)) true
      = (([], none),
          { sink := w ++ encodeString (List.replicate k RuneError), conversions := convs }) := by
  have h := scanChunk_pending fullSink k 0 (by decide) [] (appendRune 0) rfl (by decide) w
  rw [List.append_nil] at h
  unfold processAndWrite
  rw [h]
  simp [encodeString, fullSink_write]

theorem processAndWrite_complete (T : CaseTables) (k r : Nat) (hv : validRune r = true)
    (hr : r ≠ RuneError) (w : List Byte) (isLastChunk : Bool) :
    processAndWrite fullSink T { sink := w, conversions := [Converter.upperCase] }
        (encodeString (List.replicate k RuneError) ++ appendRune r) isLastChunk
      = (([], none),
          { sink := w ++ encodeString (List.replicate k RuneError)
              ++ appendRune (writtenRune (unicodeToUpper T r)),
            conversions := [Converter.upperCase] }) := by
  unfold processAndWrite
  rw [scanChunk_complete k r hv hr w]
  simp [appendRune_ne_nil, convertAll, Converter.ConvertChunk, UpperCase.ConvertChunk,
    stringsToUpper, stringsMap, encodeString, fullSink_write]

theorem encodeString_replicate_append (k : Nat) :
    encodeString (List.replicate k RuneError) ++ appendRune RuneError
      = encodeString (List.replicate (k + 1) RuneError) := by
  have h : appendRune RuneError = encodeString [RuneError] := by simp [encodeString]
  rw [h, ← encodeString_append, ← List.replicate_succ']

/-- With block size 1 the bytes of one character are read one by one: nothing is
written before the last byte; then a replacement character joins the carry-over,
and any other character is written upper-cased after the carry-over. -/
theorem runRead_rune (T : CaseTables) (r : Nat) (hv : validRune r = true) (R : List Byte)
    (k : Nat) (w : List Byte) :
    ∀ (q p : List Byte), p ++ q = appendRune r → q ≠ [] →
      ∀ (fuel btr : Nat), q.length + R.length < btr → btr < 2 ^ 64 →
        runRead fileReader (processAndWrite fullSink T) 1 (fuel + q.length) (q ++ R) btr
            (encodeString (List.replicate k RuneError) ++ p)
            { sink := w, conversions := [Converter.upperCase] }
          = if r = RuneError then
              runRead fileReader (processAndWrite fullSink T) 1 fuel R (btr - q.length)
                (encodeString (List.replicate (k + 1) RuneError))
                { sink := w, conversions := [Converter.upperCase] }
            else
              runRead fileReader (processAndWrite fullSink T) 1 fuel R (btr - q.length) []
                { sink := w ++ encodeString (List.replicate k RuneError)
                    ++ appendRune (writtenRune (unicodeToUpper T r)),
                  conversions := [Converter.upperCase] } := by
  intro q
  induction q with
  | nil => intro p _ hq; exact absurd rfl hq
  | cons c q ih =>
    intro p hpq _ fuel btr hbtr hbtr64
    simp only [List.length_cons] at hbtr
    have hmin : min 1 btr = 1 := by omega
    have hlast : decide (btr - 1 = 0) = false := by
      simp only [decide_eq_false_iff_not]
      omega
    have hstep := runRead_file_step (processAndWrite fullSink T) 1 (fuel + q.length)
      (c :: q ++ R) btr (encodeString (List.replicate k RuneError) ++ p)
      { sink := w, conversions := [Converter.upperCase] } (le_refl 1) (by omega) hbtr64
      (by simp)
    simp only [hmin, List.cons_append, List.take_succ_cons, List.take_zero,
      List.drop_succ_cons, List.drop_zero, List.length_singleton, hlast] at hstep
    have hfuel : fuel + (c :: q).length = fuel + q.length + 1 := by
      simp only [List.length_cons]
      omega
    rw [hfuel, List.cons_append, hstep]
    have hassoc : encodeString (List.replicate k RuneError) ++ p ++ [c]
        = encodeString (List.replicate k RuneError) ++ (p ++ [c]) := List.append_assoc _ _ _
    have hpc : (p ++ [c]) ++ q = appendRune r := by
      rw [← hpq]
      simp
    by_cases hq : q = []
    · subst hq
      simp only [List.append_nil] at hpc
      simp only [List.length_nil, Nat.add_zero, List.nil_append, List.length_singleton]
      by_cases hr : r = RuneError
      · subst hr
        rw [hassoc, hpc, encodeString_replicate_append]
        have := processAndWrite_pending T (k + 1) 0 (by decide) [] (appendRune 0) rfl
          (by decide) w
        rw [List.append_nil] at this
        simp only [this, if_true]
      · rw [hassoc, hpc, processAndWrite_complete T k r hv hr w false]
        simp only [hr, if_false]
    · rw [hassoc, processAndWrite_pending T k r hv (p ++ [c]) q hpc hq w]
      simp only
      rw [ih (p ++ [c]) hpc hq fuel (btr - 1) (by omega) (by omega)]
      simp only [List.length_cons]
      have : btr - 1 - q.length = btr - (q.length + 1) := by omega
      rw [this]

theorem runRead_text (T : CaseTables) (hT : unicodeToUpper T RuneError = RuneError) :
    ∀ (rs : List Nat), (∀ r ∈ rs, validRune r = true) →
      ∀ (fuel btr k : Nat) (w : List Byte), (encodeString rs).length < btr → btr < 2 ^ 64 →
        (encodeString rs).length + 1 ≤ fuel →
        runRead fileReader (processAndWrite fullSink T) 1 fuel (encodeString rs) btr
            (encodeString (List.replicate k RuneError))
            { sink := w, conversions := [Converter.upperCase] }
          = some (none, [],
              { sink := w ++ encodeString (List.replicate k RuneError)
                  ++ encodeString (stringsToUpper T rs),
                conversions := [Converter.upperCase] }) := by
  intro rs
  induction rs with
  | nil =>
    intro _ fuel btr k w hbtr _ hfuel
    cases fuel with
    | zero => omega
    | succ fuel =>
      simp only [encodeString]
      rw [runRead_file_eof _ _ _ _ _ _ (le_refl 1) (by omega),
        processAndWrite_pending_last T k w]
      simp [runRead_stop, stringsToUpper, stringsMap, encodeString]
  | cons r rs ih =>
    intro hv fuel btr k w hbtr hbtr64 hfuel
    have hvr : validRune r = true := hv r (by simp)
    have hvrs : ∀ x ∈ rs, validRune x = true := fun x hx => hv x (by simp [hx])
    simp only [encodeString, List.length_append] at hbtr hfuel ⊢
    obtain ⟨fuel1, hf1⟩ : ∃ fuel1, fuel = fuel1 + (appendRune r).length :=
      ⟨fuel - (appendRune r).length, by omega⟩
    subst hf1
    have hrune := runRead_rune T r hvr (encodeString rs) k w (appendRune r) [] rfl
      (appendRune_ne_nil r) fuel1 btr hbtr hbtr64
    rw [List.append_nil] at hrune
    rw [hrune]
    by_cases hr : r = RuneError
    · subst hr
      simp only [if_true]
      rw [ih hvrs fuel1 _ (k + 1) w (by omega) (by omega) (by omega)]
      have hw : writtenRune RuneError = RuneError := by decide
      have hcomm : appendRune RuneError ++ encodeString (List.replicate k RuneError)
          = encodeString (List.replicate k RuneError) ++ appendRune RuneError := by
        rw [encodeString_replicate_append]
        rfl
      simp only [stringsToUpper, stringsMap, hT, hw, encodeString]
      rw [hcomm]
      simp
    · simp only [hr, if_false]
      have := ih hvrs fuel1 (btr - (appendRune r).length) 0
        (w ++ encodeString (List.replicate k RuneError)
          ++ appendRune (writtenRune (unicodeToUpper T r))) (by omega) (by omega) (by omega)
      simp only [List.replicate_zero, encodeString, List.append_nil] at this
      rw [this]
      simp [stringsToUpper, stringsMap, encodeString]

theorem convertFrags_trim (T : CaseTables) (frags : List (List Nat)) :
    ∀ st : TrimSpaces, convertFrags T [Converter.trimSpaces st] frags
      = ((st.feed frags).1, [Converter.trimSpaces (st.feed frags).2]) := by
  induction frags with
  | nil => intro st; rfl
  | cons f fs ih =>
    intro st
    simp only [convertFrags, convertAll, Converter.ConvertChunk, TrimSpaces.feed, ih]

theorem trimBoth_map (l : List Byte) :
    trimBoth (l.map (fun b => b.toNat)) = (trimBytes l).map (fun b => b.toNat) := by
  unfold trimBoth trimBytes
  rw [List.dropWhile_map, ← List.map_reverse, List.dropWhile_map, ← List.map_reverse]
  rfl

theorem mem_trimBytes {l : List Byte} {b : Byte} (h : b ∈ trimBytes l) : b ∈ l := by
  unfold trimBytes at h
  rw [List.mem_reverse] at h
  have h1 := (List.dropWhile_sublist _).subset h
  rw [List.mem_reverse] at h1
  exact (List.dropWhile_sublist _).subset h1

theorem runRead_zero_fuel {σ κ : Type} (R : Reader σ)
    (cb : κ → List Byte → Bool → (List Byte × Option Err) × κ) (blockSize : Nat)
    (src : σ) (btr : Nat) (tail : List Byte) (k : κ) (h : 0 < btr ∨ tail ≠ []) :
    runRead R cb blockSize 0 src btr tail k = none := by
  have : btr > 0 ∨ tail.length > 0 := by
    rcases h with h | h
    · exact Or.inl h
    · exact Or.inr (List.length_pos.mpr h)
  rw [runRead]
  simp [this]

/-- The loop of `runRead` never takes more than `bytesToRead` bytes from a file:
whatever the callback does, when the loop ends (with or without an error) the
source stands at most `bytesToRead` bytes further. -/
theorem runRead_file_limit {κ : Type} (cb : κ → List Byte → Bool → (List Byte × Option Err) × κ)
    (blockSize : Nat) (hbs : 1 ≤ blockSize) :
    ∀ (fuel : Nat) (rest : List Byte) (btr : Nat) (tail : List Byte) (k : κ)
      (err : Option Err) (rest1 : List Byte) (k1 : κ), btr < 2 ^ 64 →
      runRead fileReader cb blockSize fuel rest btr tail k = some (err, rest1, k1) →
      ∃ n, n ≤ btr ∧ rest1 = rest.drop n := by
  intro fuel
  induction fuel with
  | zero =>
    intro rest btr tail k err rest1 k1 _ h
    by_cases hc : 0 < btr ∨ tail ≠ []
    · rw [runRead_zero_fuel _ _ _ _ _ _ _ hc] at h
      cases h
    · have hb : btr = 0 := by omega
      have ht : tail = [] := by
        by_contra hne
        exact hc (Or.inr hne)
      subst hb
      subst ht
      rw [runRead_stop] at h
      simp only [Option.some.injEq, Prod.mk.injEq] at h
      exact ⟨0, Nat.le_refl _, by simp [h.2.1]⟩
  | succ fuel ih =>
    intro rest btr tail k err rest1 k1 hbtr h
    by_cases hb : btr = 0
    · subst hb
      by_cases ht : tail = []
      · subst ht
        rw [runRead_stop] at h
        simp only [Option.some.injEq, Prod.mk.injEq] at h
        exact ⟨0, Nat.le_refl _, by simp [h.2.1]⟩
      · rw [runRead_drain _ _ _ _ _ _ _ ht] at h
        split at h
        · simp only [Option.some.injEq, Prod.mk.injEq] at h
          exact ⟨0, Nat.le_refl _, by simp [h.2.1]⟩
        · exact ih _ _ _ _ _ _ _ hbtr h
    · have hpos : 0 < btr := by omega
      by_cases hr : rest = []
      · subst hr
        rw [runRead_file_eof _ _ _ _ _ _ hbs hpos] at h
        split at h
        · simp only [Option.some.injEq, Prod.mk.injEq] at h
          exact ⟨0, Nat.zero_le _, by simp [h.2.1]⟩
        · obtain ⟨n, _, hn2⟩ := ih _ _ _ _ _ _ _ (by omega) h
          exact ⟨0, Nat.zero_le _, by simp [hn2]⟩
      · rw [runRead_file_step _ _ _ _ _ _ _ hbs hpos hbtr hr] at h
        have hlen : (rest.take (min blockSize btr)).length ≤ min blockSize btr := by
          rw [List.length_take]
          exact Nat.min_le_left _ _
        split at h
        · simp only [Option.some.injEq, Prod.mk.injEq] at h
          exact ⟨min blockSize btr, Nat.min_le_right _ _, h.2.1.symm⟩
        · obtain ⟨n, hn1, hn2⟩ := ih _ _ _ _ _ _ _ (by omega) h
          by_cases hfull : (rest.take (min blockSize btr)).length = min blockSize btr
          · refine ⟨min blockSize btr + n, ?_, ?_⟩
            · have := Nat.min_le_right blockSize btr
              omega
            · rw [hn2, List.drop_drop]
          · -- the file ended inside the block: nothing is left
            have hshort : rest.length < min blockSize btr := by
              rw [List.length_take] at hfull
              omega
            have hnil : rest.drop (min blockSize btr) = [] :=
              List.drop_eq_nil_of_le (by omega)
            refine ⟨min blockSize btr, Nat.min_le_right _ _, ?_⟩
            rw [hn2, hnil]
            simp

/-! ## Lemmas on the stream, the run and the converters -/

theorem seekLoop_error_of_read {σ : Type} (R : Reader σ) :
    ∀ (fuel : Nat) (st : σ) (pos offset pos1 : Int) (e : Err) (st1 : σ),
      seekLoop R fuel st pos offset = some ((pos1, some e), st1) →
      ∃ s n, (R.read s n).1.2 = some e := by
  intro fuel
  induction fuel with
  | zero =>
    intro st pos offset pos1 e st1 h
    rw [seekLoop] at h
    split_ifs at h
    simp at h
  | succ fuel ih =>
    intro st pos offset pos1 e st1 h
    rw [seekLoop] at h
    split_ifs at h with hlt
    · simp only at h
      split at h
      · rename_i err herr
        simp only [Option.some.injEq, Prod.mk.injEq] at h
        exact ⟨st, (offset - pos).toNat, by rw [herr, h.1.2]⟩
      · exact ih _ _ _ _ _ _ h
    · simp at h

theorem seekLoop_logged {σ : Type} (R : Reader σ) (hR : readsWithinBuffer R) :
    ∀ (fuel : Nat) (st : σ) (log : List Byte) (pos offset pos1 : Int) (st1 : σ)
      (log1 : List Byte), pos ≤ offset →
      seekLoop (loggedReader R) fuel (st, log) pos offset = some ((pos1, none), (st1, log1)) →
      pos1 = offset ∧ ∃ d : List Byte, log1 = log ++ d ∧ (d.length : Int) = offset - pos := by
  intro fuel
  induction fuel with
  | zero =>
    intro st log pos offset pos1 st1 log1 hle h
    rw [seekLoop] at h
    split_ifs at h with hlt
    simp only [Option.some.injEq, Prod.mk.injEq] at h
    obtain ⟨⟨h1, _⟩, _, h3⟩ := h
    exact ⟨by omega, [], by simp [h3], by simp; omega⟩
  | succ fuel ih =>
    intro st log pos offset pos1 st1 log1 hle h
    rw [seekLoop] at h
    split_ifs at h with hlt
    · simp only at h
      split at h
      · simp at h
      · have hlen := hR st (offset - pos).toNat
        simp only [loggedReader] at h
        obtain ⟨h1, d, h2, h3⟩ := ih _ _ _ _ _ _ _ (by omega) h
        refine ⟨h1, (R.read st (offset - pos).toNat).1.1 ++ d, by simp [h2], ?_⟩
        simp only [List.length_append, Nat.cast_add]
        omega
    · simp only [Option.some.injEq, Prod.mk.injEq] at h
      obtain ⟨⟨h1, _⟩, _, h3⟩ := h
      exact ⟨by omega, [], by simp [h3], by simp; omega⟩

/-- `BetterStream.Seek` on a stream that delivers what is asked for while bytes
remain: two iterations are enough. -/
theorem seek_fileReader (fuel : Nat) (rest : List Byte) (offset : Int) (h0 : 0 ≤ offset)
    (hf : 2 ≤ fuel) :
    BetterStream.Seek fileReader fuel rest offset 1
      = if offset.toNat ≤ rest.length then some ((offset, none), rest.drop offset.toNat)
        else some (((rest.length : Int), some Err.EOF), []) := by
  obtain ⟨f, rfl⟩ : ∃ f, fuel = f + 2 := ⟨fuel - 2, by omega⟩
  have hn : ¬ offset < 0 := by omega
  simp only [BetterStream.Seek, hn, if_false, ne_eq, not_true_eq_false]
  by_cases hz : offset = 0
  · subst hz
    rw [seekLoop]
    simp
  · have hpos : (0 : Int) < offset := by omega
    have hnz : offset.toNat ≠ 0 := by omega
    rw [seekLoop]
    simp only [hpos, if_true, Int.sub_zero, fileReader, hnz, if_false]
    by_cases hr : rest = []
    · subst hr
      simp [hnz]
    · simp only [hr, if_false, List.length_take, Int.zero_add]
      by_cases hle : offset.toNat ≤ rest.length
      · have hmin : min offset.toNat rest.length = offset.toNat := by omega
        rw [seekLoop]
        have : ¬ ((min offset.toNat rest.length : Nat) : Int) < offset := by omega
        simp only [this, if_false, hle, if_true]
        congr 3
        omega
      · have hmin : min offset.toNat rest.length = rest.length := by omega
        have hdrop : rest.drop offset.toNat = [] := List.drop_eq_nil_of_le (by omega)
        rw [seekLoop]
        have hlt : (rest.length : Int) < offset := by omega
        have hnz2 : (offset - (rest.length : Int)).toNat ≠ 0 := by omega
        simp only [hmin, hlt, if_true, hdrop, hnz2, if_false, hle]

theorem fileReader_within : readsWithinBuffer fileReader := by
  intro st n
  simp only [fileReader]
  split_ifs <;> simp [List.length_take]

theorem byteReader_within : readsWithinBuffer byteReader := by
  intro st n
  have := fileReader_within st (min n 1)
  simp only [byteReader]
  omega

theorem trimStateOK_fresh : trimStateOK TrimSpaces.fresh := by
  constructor
  · intro x hx
    simp [TrimSpaces.fresh] at hx
  · intro _
    rfl

theorem trimStateOK_of_trimInv {s acc : List Nat} {st : TrimSpaces} (h : trimInv s acc st) :
    trimStateOK st ∧ (st.leadingSpacesProcessed = false → acc = []) := by
  rcases h with ⟨h1, h2, h3, _⟩ | ⟨h1, h2, _, _⟩
  · refine ⟨⟨?_, fun _ => h2⟩, fun _ => h3⟩
    intro x hx
    rw [h2] at hx
    simp at hx
  · refine ⟨⟨h2, ?_⟩, ?_⟩ <;> intro hf <;> rw [h1] at hf <;> cases hf

theorem stringsMap_eq_map (g : Nat → Nat) (s : List Nat) :
    stringsMap g s = s.map (fun r => writtenRune (g r)) := by
  induction s with
  | nil => rfl
  | cons r rs ih => simp [stringsMap, ih]

theorem map_fixed {g : Nat → Nat} {l : List Nat} (h : ∀ y ∈ l, g y = y) : l.map g = l := by
  induction l with
  | nil => rfl
  | cons a as ih =>
    simp only [List.map_cons, h a (by simp), ih (fun y hy => h y (by simp [hy]))]

/-- The decomposition of a text into what precedes its last non-space character,
that character and the trailing whitespace is unique. -/
theorem trailing_decomposition_unique {pre pre2 suf suf2 : List Nat} {x x2 : Nat}
    (h : (pre ++ [x]) ++ suf = (pre2 ++ [x2]) ++ suf2)
    (hx : isSpace x = false) (hx2 : isSpace x2 = false)
    (hs : ∀ y ∈ suf, isSpace y = true) (hs2 : ∀ y ∈ suf2, isSpace y = true) :
    pre ++ [x] = pre2 ++ [x2] ∧ suf = suf2 := by
  have h1 := rstrip_concat (a := pre) hx hs
  have h2 := rstrip_concat (a := pre2) hx2 hs2
  rw [h] at h1
  have h3 : pre ++ [x] = pre2 ++ [x2] := h1.symm.trans h2
  refine ⟨h3, ?_⟩
  rw [h3] at h
  exact List.append_cancel_left h

theorem convertChunk_processed_eq (st : TrimSpaces) (pre suf : List Nat) (x : Nat)
    (h : st.leadingSpacesProcessed = true) (hx : isSpace x = false)
    (hs : ∀ y ∈ suf, isSpace y = true) :
    st.ConvertChunk ((pre ++ [x]) ++ suf)
      = (st.undecidedSpaces ++ (pre ++ [x]),
          { leadingSpacesProcessed := true, undecidedSpaces := suf }) := by
  rcases convertChunk_processed st ((pre ++ [x]) ++ suf) h with
    ⟨hall, _⟩ | ⟨pre2, x2, suf2, hc, hx2, hs2, heq⟩
  · have := hall x (by simp)
    rw [hx] at this
    cases this
  · obtain ⟨e1, e2⟩ := trailing_decomposition_unique hc hx hx2 hs hs2
    rw [heq, ← e1, ← e2]

theorem convertChunk_leading_eq (st : TrimSpaces) (c pre suf : List Nat) (x : Nat)
    (h : st.leadingSpacesProcessed = false) (hc : c.dropWhile isSpace = (pre ++ [x]) ++ suf)
    (hx : isSpace x = false) (hs : ∀ y ∈ suf, isSpace y = true) :
    st.ConvertChunk c
      = (st.undecidedSpaces ++ (pre ++ [x]),
          { leadingSpacesProcessed := true, undecidedSpaces := suf }) := by
  rcases convertChunk_leading st c h with ⟨hall, _⟩ | ⟨pre2, x2, suf2, hc2, hx2, hs2, heq⟩
  · rw [dropWhile_all hall] at hc
    simp at hc
  · rw [hc] at hc2
    obtain ⟨e1, e2⟩ := trailing_decomposition_unique hc2 hx hx2 hs hs2
    rw [heq, ← e1, ← e2]

theorem dropWhile_map_space {g : Nat → Nat} (hg : ∀ r, isSpace (g r) = isSpace r)
    (c : List Nat) : (c.map g).dropWhile isSpace = (c.dropWhile isSpace).map g := by
  induction c with
  | nil => rfl
  | cons a as ih =>
    simp only [List.map_cons, List.dropWhile, hg a]
    cases isSpace a
    · simp
    · simpa using ih

/-- A map on characters that leaves whitespace as it is and sends no other
character to whitespace commutes with `TrimSpaces.ConvertChunk`, and the state of
the converter is the same whether the map is applied before or not. -/
theorem convertChunk_map (g : Nat → Nat) (hg1 : ∀ r, isSpace r = true → g r = r)
    (hg2 : ∀ r, isSpace r = false → isSpace (g r) = false) (st : TrimSpaces) (c : List Nat)
    (hst : ∀ y ∈ st.undecidedSpaces, isSpace y = true) :
    st.ConvertChunk (c.map g) = ((st.ConvertChunk c).1.map g, (st.ConvertChunk c).2) := by
  have hg : ∀ r, isSpace (g r) = isSpace r := by
    intro r
    cases hr : isSpace r
    · exact hg2 r hr
    · rw [hg1 r hr, hr]
  have hund : st.undecidedSpaces.map g = st.undecidedSpaces :=
    map_fixed (fun y hy => hg1 y (hst y hy))
  cases hl : st.leadingSpacesProcessed with
  | true =>
    rcases convertChunk_processed st c hl with ⟨hall, heq⟩ | ⟨pre, x, suf, hc, hx, hs, heq⟩
    · rw [map_fixed (fun y hy => hg1 y (hall y hy)), heq]
      rfl
    · have hsuf : suf.map g = suf := map_fixed (fun y hy => hg1 y (hs y hy))
      have hmap : c.map g = (pre.map g ++ [g x]) ++ suf := by
        rw [hc]
        simp [hsuf]
      rw [hmap, convertChunk_processed_eq st _ suf (g x) hl (hg2 x hx) hs, heq]
      simp [hund]
  | false =>
    rcases convertChunk_leading st c hl with ⟨hall, heq⟩ | ⟨pre, x, suf, hc, hx, hs, heq⟩
    · rw [map_fixed (fun y hy => hg1 y (hall y hy)), heq]
      rfl
    · have hsuf : suf.map g = suf := map_fixed (fun y hy => hg1 y (hs y hy))
      have hmap : (c.map g).dropWhile isSpace = (pre.map g ++ [g x]) ++ suf := by
        rw [dropWhile_map_space hg, hc]
        simp [hsuf]
      rw [convertChunk_leading_eq st _ _ suf (g x) hl hmap (hg2 x hx) hs, heq]
      simp [hund]

theorem convertChunk_spaces (st : TrimSpaces) (c : List Nat)
    (hst : ∀ y ∈ st.undecidedSpaces, isSpace y = true) :
    ∀ y ∈ (st.ConvertChunk c).2.undecidedSpaces, isSpace y = true := by
  cases hl : st.leadingSpacesProcessed with
  | true =>
    rcases convertChunk_processed st c hl with ⟨hall, heq⟩ | ⟨pre, x, suf, _, _, hs, heq⟩
    · rw [heq]
      intro y hy
      rcases List.mem_append.mp hy with hy | hy
      · exact hst y hy
      · exact hall y hy
    · rw [heq]
      exact hs
  | false =>
    rcases convertChunk_leading st c hl with ⟨_, heq⟩ | ⟨pre, x, suf, _, _, hs, heq⟩
    · rw [heq]
      exact hst
    · rw [heq]
      exact hs

theorem isSpace_iff (r : Nat) :
    isSpace r = true ↔ (r = 0x09 ∨ r = 0x0A ∨ r = 0x0B ∨ r = 0x0C ∨ r = 0x0D ∨ r = 0x20
      ∨ r = 0x85 ∨ r = 0xA0 ∨ r = 0x1680 ∨ (0x2000 ≤ r ∧ r ≤ 0x200A) ∨ r = 0x2028
      ∨ r = 0x2029 ∨ r = 0x202F ∨ r = 0x205F ∨ r = 0x3000) := by
  unfold isSpace
  split_ifs with h
  · simp only [decide_eq_true_eq]
    omega
  · simp only [decide_eq_true_eq]
    omega

theorem isSpace_false_iff (r : Nat) :
    isSpace r = false ↔ ¬ (r = 0x09 ∨ r = 0x0A ∨ r = 0x0B ∨ r = 0x0C ∨ r = 0x0D ∨ r = 0x20
      ∨ r = 0x85 ∨ r = 0xA0 ∨ r = 0x1680 ∨ (0x2000 ≤ r ∧ r ≤ 0x200A) ∨ r = 0x2028
      ∨ r = 0x2029 ∨ r = 0x202F ∨ r = 0x205F ∨ r = 0x3000) := by
  rw [← isSpace_iff]
  simp

theorem writtenRune_ascii {r : Nat} (h : r ≤ 0x7F) : writtenRune r = r := by
  unfold writtenRune
  rw [validRune_ascii h]
  rfl

theorem upper_keeps_space {T : CaseTables} (hT : foldKeepsSpace T) (r : Nat) :
    (isSpace r = true → writtenRune (unicodeToUpper T r) = r)
    ∧ (isSpace r = false → isSpace (writtenRune (unicodeToUpper T r)) = false) := by
  by_cases h : r ≤ 0x7F
  · have hu : unicodeToUpper T r = if 0x61 ≤ r ∧ r ≤ 0x7A then r - 32 else r := by
      simp [unicodeToUpper, h]
    have hle : unicodeToUpper T r ≤ 0x7F := by
      rw [hu]
      split_ifs <;> omega
    rw [writtenRune_ascii hle, hu]
    constructor
    · intro hs
      rw [isSpace_iff] at hs
      have : ¬ (0x61 ≤ r ∧ r ≤ 0x7A) := by omega
      simp [this]
    · intro hs
      rw [isSpace_false_iff] at hs ⊢
      split_ifs <;> omega
  · have hu : unicodeToUpper T r = T.toUpper r := by simp [unicodeToUpper, h]
    rw [hu]
    exact ⟨fun hs => ((hT r (by omega)).1 hs).1, fun hs => ((hT r (by omega)).2 hs).1⟩

theorem lower_keeps_space {T : CaseTables} (hT : foldKeepsSpace T) (r : Nat) :
    (isSpace r = true → writtenRune (unicodeToLower T r) = r)
    ∧ (isSpace r = false → isSpace (writtenRune (unicodeToLower T r)) = false) := by
  by_cases h : r ≤ 0x7F
  · have hu : unicodeToLower T r = if 0x41 ≤ r ∧ r ≤ 0x5A then r + 32 else r := by
      simp [unicodeToLower, h]
    have hle : unicodeToLower T r ≤ 0x7F := by
      rw [hu]
      split_ifs <;> omega
    rw [writtenRune_ascii hle, hu]
    constructor
    · intro hs
      rw [isSpace_iff] at hs
      have : ¬ (0x41 ≤ r ∧ r ≤ 0x5A) := by omega
      simp [this]
    · intro hs
      rw [isSpace_false_iff] at hs ⊢
      split_ifs <;> omega
  · have hu : unicodeToLower T r = T.toLower r := by simp [unicodeToLower, h]
    rw [hu]
    exact ⟨fun hs => ((hT r (by omega)).1 hs).2, fun hs => ((hT r (by omega)).2 hs).2⟩

/-- With one case folding and one `TrimSpaces` in the map, the two iteration orders
give the same fragment and leave the converters in the same state. -/
theorem convertOrdered_fold_trim {T : CaseTables} (hT : foldKeepsSpace T) (fold : Converter)
    (hfold : fold = Converter.upperCase ∨ fold = Converter.lowerCase) (st : TrimSpaces)
    (hst : ∀ y ∈ st.undecidedSpaces, isSpace y = true) (s : List Nat) (reversed : Bool) :
    convertOrdered T reversed [fold, Converter.trimSpaces st] s
      = (((fold.ConvertChunk T (st.ConvertChunk s).1).1),
          [fold, Converter.trimSpaces (st.ConvertChunk s).2]) := by
  rcases hfold with hf | hf <;> subst hf
  · have hc := convertChunk_map (fun r => writtenRune (unicodeToUpper T r))
      (fun r hr => (upper_keeps_space hT r).1 hr) (fun r hr => (upper_keeps_space hT r).2 hr)
      st s hst
    cases reversed
    · simp only [convertOrdered, Bool.false_eq_true, if_false, convertAll,
        Converter.ConvertChunk, UpperCase.ConvertChunk, stringsToUpper, stringsMap_eq_map, hc]
    · simp only [convertOrdered, if_true, convertAll, List.reverse_cons, List.reverse_nil,
        List.nil_append, List.singleton_append, Converter.ConvertChunk, UpperCase.ConvertChunk,
        stringsToUpper, stringsMap_eq_map]
  · have hc := convertChunk_map (fun r => writtenRune (unicodeToLower T r))
      (fun r hr => (lower_keeps_space hT r).1 hr) (fun r hr => (lower_keeps_space hT r).2 hr)
      st s hst
    cases reversed
    · simp only [convertOrdered, Bool.false_eq_true, if_false, convertAll,
        Converter.ConvertChunk, LowerCase.ConvertChunk, stringsToLower, stringsMap_eq_map, hc]
    · simp only [convertOrdered, if_true, convertAll, List.reverse_cons, List.reverse_nil,
        List.nil_append, List.singleton_append, Converter.ConvertChunk, LowerCase.ConvertChunk,
        stringsToLower, stringsMap_eq_map]

theorem convertFragsOrdered_fold_trim {T : CaseTables} (hT : foldKeepsSpace T)
    (fold : Converter) (hfold : fold = Converter.upperCase ∨ fold = Converter.lowerCase)
    (frags : List (List Nat)) :
    ∀ (st : TrimSpaces), (∀ y ∈ st.undecidedSpaces, isSpace y = true) →
      ∀ orders1 orders2 : List Bool,
        convertFragsOrdered T orders1 [fold, Converter.trimSpaces st] frags
          = convertFragsOrdered T orders2 [fold, Converter.trimSpaces st] frags := by
  induction frags with
  | nil => intro st _ _ _; rfl
  | cons f fs ih =>
    intro st hst orders1 orders2
    simp only [convertFragsOrdered, convertOrdered_fold_trim hT fold hfold st hst]
    rw [ih _ (convertChunk_spaces st f hst) orders1.tail orders2.tail]

theorem latin1Tables_foldKeepsSpace : foldKeepsSpace latin1Tables := by
  intro r hr
  have hv : ∀ x, x < 0xD800 → writtenRune x = x := by
    intro x hx
    have : validRune x = true := by
      rw [validRune_iff]
      omega
    simp [writtenRune, this]
  constructor
  · intro hs
    rw [isSpace_iff] at hs
    have h1 : latin1Tables.toUpper r = r := by
      simp only [latin1Tables]
      split_ifs <;> omega
    have h2 : latin1Tables.toLower r = r := by
      simp only [latin1Tables]
      split_ifs <;> omega
    rw [h1, h2, hv r (by omega)]
    exact ⟨rfl, rfl⟩
  · intro hs
    rw [isSpace_false_iff] at hs
    by_cases hbig : r < 0x200
    · have h1 : latin1Tables.toUpper r < 0xD800 := by
        simp only [latin1Tables]
        split_ifs <;> omega
      have h2 : latin1Tables.toLower r < 0xD800 := by
        simp only [latin1Tables]
        split_ifs <;> omega
      rw [hv _ h1, hv _ h2, isSpace_false_iff, isSpace_false_iff]
      simp only [latin1Tables]
      constructor <;> split_ifs <;> omega
    · have h1 : latin1Tables.toUpper r = r := by
        simp only [latin1Tables]
        split_ifs <;> omega
      have h2 : latin1Tables.toLower r = r := by
        simp only [latin1Tables]
        split_ifs <;> omega
      have hw : isSpace (writtenRune r) = false := by
        unfold writtenRune
        split_ifs
        · rw [isSpace_false_iff]
          exact hs
        · decide
      rw [h1, h2]
      exact ⟨hw, hw⟩

theorem first_invalid {n : Nat} (h : (0x80 ≤ n ∧ n < 0xC2) ∨ 0xF4 < n) : first n = 0xF1 := by
  unfold first
  split_ifs <;> omega

theorem decodeRune_bad_lead (b : Byte) (rest : List Byte)
    (h : (0x80 ≤ b.toNat ∧ b.toNat < 0xC2) ∨ 0xF4 < b.toNat) :
    decodeRune (b :: rest) = (RuneError, 1) := by
  have e1 : (0xF1 : Nat) &&& 1 = 1 := rfl
  simp only [decodeRune, first_invalid h, e1]
  simp

theorem decodeRune_unfold2 (b0 b1 : Byte) (rest : List Byte)
    (h0 : 0xC2 ≤ b0.toNat ∧ b0.toNat ≤ 0xDF) :
    decodeRune (b0 :: b1 :: rest)
      = if b1.toNat < 0x80 ∨ 0xBF < b1.toNat then (RuneError, 1)
        else ((b0.toNat % 32) * 64 + b1.toNat % 64, 2) := by
  have h27 : (2 : Nat) &&& 7 = 2 := rfl
  simp only [decodeRune, first_two h0, acceptRanges, locb, hicb, val2, h27]
  simp

theorem decodeRune_unfold3 (b0 b1 b2 : Byte) (rest : List Byte)
    (h0 : 0xE0 ≤ b0.toNat ∧ b0.toNat ≤ 0xEF) :
    decodeRune (b0 :: b1 :: b2 :: rest)
      = if b1.toNat < (if b0.toNat = 0xE0 then 0xA0 else 0x80)
            ∨ (if b0.toNat = 0xED then 0x9F else 0xBF) < b1.toNat then (RuneError, 1)
        else if b2.toNat < 0x80 ∨ 0xBF < b2.toNat then (RuneError, 1)
        else ((b0.toNat % 16) * 4096 + (b1.toNat % 64) * 64 + b2.toNat % 64, 3) := by
  have e1 : (0x13 : Nat) &&& 7 = 3 := rfl
  have e2 : (0x23 : Nat) &&& 7 = 3 := rfl
  have e3 : (0x03 : Nat) &&& 7 = 3 := rfl
  by_cases hE0 : b0.toNat = 0xE0
  · have hf : first b0.toNat = 0x13 := by
      rw [first_three h0]
      simp [hE0]
    have hED : ¬ b0.toNat = 0xED := by omega
    simp only [decodeRune, hf, acceptRanges, locb, hicb, val3, e1]
    simp [hE0]
  · by_cases hED : b0.toNat = 0xED
    · have hf : first b0.toNat = 0x23 := by
        rw [first_three h0]
        simp [hED]
      simp only [decodeRune, hf, acceptRanges, locb, hicb, val3, e2]
      simp [hED]
    · have hf : first b0.toNat = 0x03 := by
        rw [first_three h0]
        simp [hE0, hED]
      simp only [decodeRune, hf, acceptRanges, locb, hicb, val3, e3]
      simp [hE0, hED]

theorem decodeRune_unfold4 (b0 b1 b2 b3 : Byte) (rest : List Byte)
    (h0 : 0xF0 ≤ b0.toNat ∧ b0.toNat ≤ 0xF4) :
    decodeRune (b0 :: b1 :: b2 :: b3 :: rest)
      = if b1.toNat < (if b0.toNat = 0xF0 then 0x90 else 0x80)
            ∨ (if b0.toNat = 0xF4 then 0x8F else 0xBF) < b1.toNat then (RuneError, 1)
        else if b2.toNat < 0x80 ∨ 0xBF < b2.toNat then (RuneError, 1)
        else if b3.toNat < 0x80 ∨ 0xBF < b3.toNat then (RuneError, 1)
        else ((b0.toNat % 8) * 262144 + (b1.toNat % 64) * 4096 + (b2.toNat % 64) * 64
          + b3.toNat % 64, 4) := by
  have e1 : (0x34 : Nat) &&& 7 = 4 := rfl
  have e2 : (0x44 : Nat) &&& 7 = 4 := rfl
  have e3 : (0x04 : Nat) &&& 7 = 4 := rfl
  by_cases hF0 : b0.toNat = 0xF0
  · have hf : first b0.toNat = 0x34 := by
      rw [first_four h0]
      simp [hF0]
    simp only [decodeRune, hf, acceptRanges, locb, hicb, val4, e1]
    simp [hF0]
  · by_cases hF4 : b0.toNat = 0xF4
    · have hf : first b0.toNat = 0x44 := by
        rw [first_four h0]
        simp [hF4]
      simp only [decodeRune, hf, acceptRanges, locb, hicb, val4, e2]
      simp [hF4]
    · have hf : first b0.toNat = 0x04 := by
        rw [first_four h0]
        simp [hF0, hF4]
      simp only [decodeRune, hf, acceptRanges, locb, hicb, val4, e3]
      simp [hF0, hF4]

theorem toByte_eq {n : Nat} {b : Byte} (h : n = b.toNat) : toByte n = b := by
  rw [h, toByte_toNat]

/-- A character that `decodeRune` accepts is encoded by `appendRune` with the very
bytes it was decoded from. -/
theorem appendRune_decodeRune (b : Byte) (bs : List Byte) (r w : Nat)
    (h : decodeRune (b :: bs) = (r, w)) (hr : r ≠ RuneError) :
    appendRune r = (b :: bs).take w := by
  have hb := UInt8.toNat_lt_size b
  simp only [UInt8.size] at hb
  by_cases h1 : b.toNat < 0x80
  · rw [decodeRune_ascii b bs h1] at h
    simp only [Prod.mk.injEq] at h
    rw [← h.1, ← h.2, appendRune_ascii b h1]
    rfl
  · by_cases h2 : b.toNat < 0xC2 ∨ 0xF4 < b.toNat
    · rw [decodeRune_bad_lead b bs (by omega)] at h
      simp only [Prod.mk.injEq] at h
      exact absurd h.1.symm hr
    · by_cases h3 : b.toNat ≤ 0xDF
      · -- two bytes
        cases bs with
        | nil =>
          rw [decodeRune_short b [] (by omega) (by simp [h3])] at h
          simp only [Prod.mk.injEq] at h
          exact absurd h.1.symm hr
        | cons b1 rest1 =>
          rw [decodeRune_unfold2 b b1 rest1 (by omega)] at h
          split_ifs at h with hc
          · simp only [Prod.mk.injEq] at h
            exact absurd h.1.symm hr
          · simp only [Prod.mk.injEq] at h
            obtain ⟨hr1, hw⟩ := h
            have hb1 := UInt8.toNat_lt_size b1
            simp only [UInt8.size] at hb1
            rw [← hw, appendRune_two r (by omega)]
            simp only [List.take_succ_cons, List.take_zero]
            rw [toByte_eq (b := b) (by omega), toByte_eq (b := b1) (by omega)]
      · by_cases h4 : b.toNat ≤ 0xEF
        · -- three bytes
          have hsz : (if b.toNat ≤ 0xDF then 2 else if b.toNat ≤ 0xEF then 3 else 4) = 3 := by
            simp [h3, h4]
          cases bs with
          | nil =>
            rw [decodeRune_short b [] (by omega) (by rw [hsz]; simp)] at h
            simp only [Prod.mk.injEq] at h
            exact absurd h.1.symm hr
          | cons b1 rest1 =>
            cases rest1 with
            | nil =>
              rw [decodeRune_short b [b1] (by omega) (by rw [hsz]; simp)] at h
              simp only [Prod.mk.injEq] at h
              exact absurd h.1.symm hr
            | cons b2 rest2 =>
              rw [decodeRune_unfold3 b b1 b2 rest2 (by omega)] at h
              by_cases hc1 : b1.toNat < (if b.toNat = 0xE0 then 0xA0 else 0x80)
                  ∨ (if b.toNat = 0xED then 0x9F else 0xBF) < b1.toNat
              · rw [if_pos hc1] at h
                simp only [Prod.mk.injEq] at h
                exact absurd h.1.symm hr
              · rw [if_neg hc1] at h
                by_cases hc2 : b2.toNat < 0x80 ∨ 0xBF < b2.toNat
                · rw [if_pos hc2] at h
                  simp only [Prod.mk.injEq] at h
                  exact absurd h.1.symm hr
                · rw [if_neg hc2] at h
                  simp only [Prod.mk.injEq] at h
                  obtain ⟨hr1, hw⟩ := h
                  have hb1 := UInt8.toNat_lt_size b1
                  have hb2 := UInt8.toNat_lt_size b2
                  simp only [UInt8.size] at hb1 hb2
                  have hfacts : (0x80 ≤ b1.toNat ∧ b1.toNat ≤ 0xBF)
                      ∧ (b.toNat = 0xE0 → 0xA0 ≤ b1.toNat)
                      ∧ (b.toNat = 0xED → b1.toNat ≤ 0x9F) := by
                    split_ifs at hc1 <;> omega
                  obtain ⟨hc1', hlo, hhi⟩ := hfacts
                  rw [← hw, appendRune_three r (by omega) (by omega)]
                  simp only [List.take_succ_cons, List.take_zero]
                  rw [toByte_eq (b := b) (by omega), toByte_eq (b := b1) (by omega),
                    toByte_eq (b := b2) (by omega)]
        · -- four bytes
          have hsz : (if b.toNat ≤ 0xDF then 2 else if b.toNat ≤ 0xEF then 3 else 4) = 4 := by
            simp [h3, h4]
          cases bs with
          | nil =>
            rw [decodeRune_short b [] (by omega) (by rw [hsz]; simp)] at h
            simp only [Prod.mk.injEq] at h
            exact absurd h.1.symm hr
          | cons b1 rest1 =>
            cases rest1 with
            | nil =>
              rw [decodeRune_short b [b1] (by omega) (by rw [hsz]; simp)] at h
              simp only [Prod.mk.injEq] at h
              exact absurd h.1.symm hr
            | cons b2 rest2 =>
              cases rest2 with
              | nil =>
                rw [decodeRune_short b [b1, b2] (by omega) (by rw [hsz]; simp)] at h
                simp only [Prod.mk.injEq] at h
                exact absurd h.1.symm hr
              | cons b3 rest3 =>
                rw [decodeRune_unfold4 b b1 b2 b3 rest3 (by omega)] at h
                by_cases hc1 : b1.toNat < (if b.toNat = 0xF0 then 0x90 else 0x80)
                    ∨ (if b.toNat = 0xF4 then 0x8F else 0xBF) < b1.toNat
                · rw [if_pos hc1] at h
                  simp only [Prod.mk.injEq] at h
                  exact absurd h.1.symm hr
                · rw [if_neg hc1] at h
                  by_cases hc2 : b2.toNat < 0x80 ∨ 0xBF < b2.toNat
                  · rw [if_pos hc2] at h
                    simp only [Prod.mk.injEq] at h
                    exact absurd h.1.symm hr
                  · rw [if_neg hc2] at h
                    by_cases hc3 : b3.toNat < 0x80 ∨ 0xBF < b3.toNat
                    · rw [if_pos hc3] at h
                      simp only [Prod.mk.injEq] at h
                      exact absurd h.1.symm hr
                    · rw [if_neg hc3] at h
                      simp only [Prod.mk.injEq] at h
                      obtain ⟨hr1, hw⟩ := h
                      have hb1 := UInt8.toNat_lt_size b1
                      have hb2 := UInt8.toNat_lt_size b2
                      have hb3 := UInt8.toNat_lt_size b3
                      simp only [UInt8.size] at hb1 hb2 hb3
                      have hfacts : (0x80 ≤ b1.toNat ∧ b1.toNat ≤ 0xBF)
                          ∧ (b.toNat = 0xF0 → 0x90 ≤ b1.toNat)
                          ∧ (b.toNat = 0xF4 → b1.toNat ≤ 0x8F) := by
                        split_ifs at hc1 <;> omega
                      obtain ⟨hc1', hlo, hhi⟩ := hfacts
                      rw [← hw, appendRune_four r (by omega)]
                      simp only [List.take_succ_cons, List.take_zero]
                      rw [toByte_eq (b := b) (by omega), toByte_eq (b := b1) (by omega),
                        toByte_eq (b := b2) (by omega), toByte_eq (b := b3) (by omega)]

theorem allRaw_nil : allRaw [] := by
  intro ω W fuel decoded tail w _
  rw [scanChunk_nil]
  simp

theorem allRaw_step (b : Byte) (bs : List Byte) (h : (decodeRune (b :: bs)).1 = RuneError)
    (hrest : allRaw ((b :: bs).drop (decodeRune (b :: bs)).2)) : allRaw (b :: bs) := by
  intro ω W fuel decoded tail w hf
  cases fuel with
  | zero => simp at hf
  | succ fuel =>
    have hw := decodeRune_width_pos b bs
    have hd : decodeRune (b :: bs) = (RuneError, (decodeRune (b :: bs)).2) := by
      rw [← h]
    rw [scanChunk_raw_step W fuel b bs decoded tail w _ hd,
      hrest ω W fuel decoded _ w (by
        simp only [List.length_drop, List.length_cons] at hf ⊢
        omega)]
    simp

/-- The decoding loop with a sink that accepts every write: it always reaches the
end of the chunk; the raw bytes left are a run without a valid character at the end
of what was scanned; and the bytes written, the bytes of the decoded text and the
raw bytes left are, together, the bytes that came in. -/
theorem scanChunk_full :
    ∀ (fuel : Nat) (rest : List Byte) (decoded : List Nat) (tail w : List Byte),
      rest.length ≤ fuel →
      ∃ (decoded1 : List Nat) (raw out : List Byte),
        scanChunk fullSink fuel rest decoded tail w = .done decoded1 raw (w ++ out)
        ∧ ((raw = tail ++ rest ∧ allRaw rest ∧ decoded1 = decoded ∧ out = [])
            ∨ (allRaw raw ∧ ∃ (pre : List Byte) (r : Nat), r ≠ RuneError
                ∧ (decodeRune (appendRune r ++ raw)).1 = r ∧ rest = pre ++ appendRune r ++ raw))
        ∧ (out ++ encodeString decoded1 ++ raw).Perm (encodeString decoded ++ tail ++ rest) := by
  intro fuel
  induction fuel with
  | zero =>
    intro rest decoded tail w hf
    have : rest = [] := List.length_eq_zero.mp (by omega)
    subst this
    refine ⟨decoded, tail, [], by simp [scanChunk], Or.inl ⟨by simp, allRaw_nil, rfl, rfl⟩, ?_⟩
    simp
  | succ fuel ih =>
    intro rest decoded tail w hf
    cases rest with
    | nil =>
      refine ⟨decoded, tail, [], by simp [scanChunk], Or.inl ⟨by simp, allRaw_nil, rfl, rfl⟩, ?_⟩
      simp
    | cons b bs =>
      have hw := decodeRune_width_pos b bs
      have hlen : ((b :: bs).drop (decodeRune (b :: bs)).2).length ≤ fuel := by
        simp only [List.length_drop, List.length_cons] at hf ⊢
        omega
      have htd : (b :: bs).take (decodeRune (b :: bs)).2 ++ (b :: bs).drop (decodeRune (b :: bs)).2
          = b :: bs := List.take_append_drop _ _
      by_cases hr : (decodeRune (b :: bs)).1 = RuneError
      · have hd : decodeRune (b :: bs) = (RuneError, (decodeRune (b :: bs)).2) := by
          rw [← hr]
        obtain ⟨d1, raw, out, h1, h2, h3⟩ := ih ((b :: bs).drop (decodeRune (b :: bs)).2) decoded
          (tail ++ (b :: bs).take (decodeRune (b :: bs)).2) w hlen
        refine ⟨d1, raw, out, ?_, ?_, ?_⟩
        · rw [scanChunk_raw_step fullSink fuel b bs decoded tail w _ hd, h1]
        · rcases h2 with ⟨e1, e2, e3, e4⟩ | ⟨e1, pre, r, hr1, hr2, e2⟩
          · left
            refine ⟨?_, allRaw_step b bs hr e2, e3, e4⟩
            rw [e1, List.append_assoc, htd]
          · right
            refine ⟨e1, (b :: bs).take (decodeRune (b :: bs)).2 ++ pre, r, hr1, hr2, ?_⟩
            conv_lhs => rw [← htd, e2]
            simp only [List.append_assoc]
        · have e : encodeString decoded ++ (tail ++ (b :: bs).take (decodeRune (b :: bs)).2)
              ++ (b :: bs).drop (decodeRune (b :: bs)).2
              = encodeString decoded ++ tail ++ (b :: bs) := by
            simp only [List.append_assoc, htd]
          rw [e] at h3
          exact h3
      · have hd : decodeRune (b :: bs) = ((decodeRune (b :: bs)).1, (decodeRune (b :: bs)).2) := rfl
        have henc := appendRune_decodeRune b bs _ _ hd hr
        obtain ⟨d1, raw, out, h1, h2, h3⟩ := ih ((b :: bs).drop (decodeRune (b :: bs)).2)
          (decoded ++ [(decodeRune (b :: bs)).1]) [] (w ++ tail) hlen
        refine ⟨d1, raw, tail ++ out, ?_, ?_, ?_⟩
        · rw [scanChunk_valid_step fuel b bs decoded tail w _ _ hd hr, h1]
          simp
        · right
          rcases h2 with ⟨e1, e2, _, _⟩ | ⟨e1, pre, r, hr1, hr2, e2⟩
          · refine ⟨?_, [], (decodeRune (b :: bs)).1, hr, ?_, ?_⟩
            · rw [e1]
              simpa using e2
            · rw [e1, henc, List.nil_append, htd]
            · rw [e1, henc, List.nil_append, List.nil_append, htd]
          · refine ⟨e1, (b :: bs).take (decodeRune (b :: bs)).2 ++ pre, r, hr1, hr2, ?_⟩
            conv_lhs => rw [← htd, e2]
            simp only [List.append_assoc]
        · have h4 : (out ++ encodeString d1 ++ raw).Perm (encodeString decoded ++ (b :: bs)) := by
            have : encodeString (decoded ++ [(decodeRune (b :: bs)).1]) ++ []
                ++ (b :: bs).drop (decodeRune (b :: bs)).2 = encodeString decoded ++ (b :: bs) := by
              rw [encodeString_append]
              simp only [encodeString, List.append_nil, List.append_assoc, henc, htd]
            rw [this] at h3
            exact h3
          have h5 : (tail ++ out ++ encodeString d1 ++ raw)
              = tail ++ (out ++ encodeString d1 ++ raw) := by simp
          rw [h5]
          refine (List.Perm.append_left tail h4).trans ?_
          rw [← List.append_assoc]
          exact List.Perm.append_right _ List.perm_append_comm

/-- One call of `processAndWrite` with a sink that accepts every write: no error;
the carry-over is a run without a valid character at the end of the chunk; and with
no conversion the bytes written and the carry-over are, together, the bytes of the
chunk. -/
theorem processAndWrite_full (T : CaseTables) (w : List Byte) (convs : List Converter)
    (chunk : List Byte) (isLastChunk : Bool) :
    ∃ (carry out : List Byte) (convs1 : List Converter),
      processAndWrite fullSink T { sink := w, conversions := convs } chunk isLastChunk
        = ((carry, none), { sink := w ++ out, conversions := convs1 })
      ∧ allRaw carry
      ∧ (carry = [] ∨ carry = chunk ∨ ∃ (pre : List Byte) (r : Nat), r ≠ RuneError
          ∧ (decodeRune (appendRune r ++ carry)).1 = r ∧ chunk = pre ++ appendRune r ++ carry)
      ∧ (convs = [] → convs1 = [] ∧ (out ++ carry).Perm chunk) := by
  obtain ⟨d1, raw, out, h1, h2, h3⟩ := scanChunk_full chunk.length chunk [] [] w (le_refl _)
  have hraw : allRaw raw ∧ (raw = [] ∨ raw = chunk ∨ ∃ (pre : List Byte) (r : Nat),
      r ≠ RuneError ∧ (decodeRune (appendRune r ++ raw)).1 = r
        ∧ chunk = pre ++ appendRune r ++ raw) := by
    rcases h2 with ⟨e1, e2, _, _⟩ | ⟨e1, e2⟩
    · rw [e1]
      exact ⟨by simpa using e2, Or.inr (Or.inl (by simp))⟩
    · exact ⟨e1, Or.inr (Or.inr e2)⟩
  simp only [encodeString, List.nil_append] at h3
  unfold processAndWrite
  simp only [h1]
  by_cases hc : (encodeString d1).length = 0 ∧ isLastChunk = true
  · have hd1 : encodeString d1 = [] := List.length_eq_zero.mp hc.1
    refine ⟨[], out ++ raw, convs, ?_, allRaw_nil, Or.inl rfl, ?_⟩
    · simp only [hc, and_self, if_true, fullSink_write, List.drop_length, List.append_assoc]
    · intro _
      refine ⟨by assumption, ?_⟩
      rw [hd1] at h3
      simpa using h3
  · refine ⟨raw, out ++ encodeString (convertAll T convs d1).1, (convertAll T convs d1).2, ?_,
      hraw.1, hraw.2, ?_⟩
    · simp only [hc, if_false, fullSink_write, Nat.lt_irrefl, List.append_assoc]
    · intro hnil
      subst hnil
      refine ⟨rfl, ?_⟩
      simpa [convertAll] using h3

theorem processAndWrite_allRaw_last (T : CaseTables) (w : List Byte) (convs : List Converter)
    (c : List Byte) (hc : allRaw c) :
    processAndWrite fullSink T { sink := w, conversions := convs } c true
      = (([], none), { sink := w ++ c, conversions := convs }) := by
  have h := hc (List Byte) fullSink c.length [] [] w (le_refl _)
  unfold processAndWrite
  rw [h]
  simp [encodeString, fullSink_write]

/-- With the counter at zero and a carry-over without a valid character, one more
iteration ends the loop of `runRead`: the carry-over is flushed. -/
theorem runRead_flush {σ : Type} (R : Reader σ) (T : CaseTables) (blockSize fuel : Nat)
    (src : σ) (w : List Byte) (convs : List Converter) (c : List Byte) (hc : allRaw c)
    (hf : 1 ≤ fuel) :
    runRead R (processAndWrite fullSink T) blockSize fuel src 0 c
        { sink := w, conversions := convs }
      = some (none, src, { sink := w ++ c, conversions := convs }) := by
  by_cases hnil : c = []
  · subst hnil
    rw [runRead_stop]
    simp
  · obtain ⟨f, rfl⟩ : ∃ f, fuel = f + 1 := ⟨fuel - 1, by omega⟩
    rw [runRead_drain _ _ _ _ _ _ _ hnil, processAndWrite_allRaw_last T w convs c hc]
    simp [runRead_stop]

/-- One iteration of the loop of `runRead` with a read that does not fail and a
callback that does not fail. -/
theorem runRead_step_ok {σ κ : Type} (R : Reader σ)
    (cb : κ → List Byte → Bool → (List Byte × Option Err) × κ) (blockSize fuel : Nat)
    (src src1 : σ) (btr : Nat) (tail bytes carry : List Byte) (rerr : Option Err) (k k1 : κ)
    (hb : 0 < btr)
    (hrd : R.read src (min blockSize btr) = ((bytes, rerr), src1))
    (hre : rerr = none ∨ rerr = some Err.EOF)
    (hcb : cb k (tail ++ bytes)
        (decide ((if rerr = some Err.EOF then 0 else uint64Sub btr bytes.length) = 0))
        = ((carry, none), k1)) :
    runRead R cb blockSize (fuel + 1) src btr tail k
      = runRead R cb blockSize fuel src1
          (if rerr = some Err.EOF then 0 else uint64Sub btr bytes.length) carry k1 := by
  rw [runRead]
  rcases hre with rfl | rfl
  · simp only [reduceCtorEq, if_false] at hcb
    simp [hb, hrd, hcb]
  · simp only [if_true, decide_True] at hcb
    simp [hb, hrd, hcb]

theorem runRead_ends {σ : Type} (R : Reader σ) (T : CaseTables) (blockSize : Nat)
    (hR : readsProgress R) (hbs : 1 ≤ blockSize) :
    ∀ (fuel : Nat) (src : σ) (btr : Nat) (tail w : List Byte) (convs : List Converter),
      btr < 2 ^ 64 → btr + 2 ≤ fuel →
      ∃ src1 e1, runRead R (processAndWrite fullSink T) blockSize fuel src btr tail
          { sink := w, conversions := convs } = some (none, src1, e1) := by
  intro fuel
  induction fuel with
  | zero =>
    intro src btr tail w convs _ hf
    omega
  | succ fuel ih =>
    intro src btr tail w convs hlt hf
    by_cases hb : btr = 0
    · subst hb
      by_cases ht : tail = []
      · subst ht
        exact ⟨src, _, runRead_stop _ _ _ _ _ _⟩
      · obtain ⟨carry, out, convs1, h1, h2, _, _⟩ := processAndWrite_full T w convs tail true
        rw [runRead_drain _ _ _ _ _ _ _ ht, h1]
        exact ⟨src, _, runRead_flush R T blockSize fuel src _ _ carry h2 (by omega)⟩
    · have hpos : 0 < btr := Nat.pos_of_ne_zero hb
      have hn : 1 ≤ min blockSize btr := by omega
      rcases hR src (min blockSize btr) hn with ⟨he, hl1, hl2⟩ | he
      · obtain ⟨carry, out, convs1, h1, h2, _, _⟩ := processAndWrite_full T w convs
          (tail ++ (R.read src (min blockSize btr)).1.1)
          (decide ((if (none : Option Err) = some Err.EOF then 0
            else uint64Sub btr (R.read src (min blockSize btr)).1.1.length) = 0))
        have hrd : R.read src (min blockSize btr)
            = (((R.read src (min blockSize btr)).1.1, none), (R.read src (min blockSize btr)).2) := by
          rw [← he]
        rw [runRead_step_ok R _ blockSize fuel src _ btr tail _ carry none _ _ hpos hrd
          (Or.inl rfl) h1]
        have hle : (R.read src (min blockSize btr)).1.1.length ≤ btr := by omega
        simp only [reduceCtorEq, if_false, uint64Sub_eq hle hlt]
        exact ih _ _ _ _ _ (by omega) (by omega)
      · obtain ⟨carry, out, convs1, h1, h2, _, _⟩ := processAndWrite_full T w convs
          (tail ++ (R.read src (min blockSize btr)).1.1)
          (decide ((if some Err.EOF = some Err.EOF then 0
            else uint64Sub btr (R.read src (min blockSize btr)).1.1.length) = 0))
        have hrd : R.read src (min blockSize btr)
            = (((R.read src (min blockSize btr)).1.1, some Err.EOF),
                (R.read src (min blockSize btr)).2) := by
          rw [← he]
        rw [runRead_step_ok R _ blockSize fuel src _ btr tail _ carry (some Err.EOF) _ _ hpos hrd
          (Or.inr rfl) h1]
        simp only [if_true]
        exact ⟨_, _, runRead_flush R T blockSize fuel _ _ _ carry h2 (by omega)⟩

theorem fileReader_progress : readsProgress fileReader := by
  intro st n hn
  have hn0 : n ≠ 0 := by omega
  by_cases hst : st = []
  · right
    simp [fileReader, hn0, hst]
  · left
    have hl : 0 < st.length := List.length_pos.mpr hst
    simp only [fileReader, hn0, hst, if_false, List.length_take]
    refine ⟨trivial, ?_, ?_⟩ <;> omega

theorem byteReader_progress : readsProgress byteReader := by
  intro st n hn
  have h := fileReader_progress st (min n 1) (by omega)
  rcases h with ⟨h1, h2, h3⟩ | h
  · left
    exact ⟨h1, h2, by
      have : (fileReader.read st (min n 1)).1.1.length ≤ min n 1 := h3
      exact le_trans this (Nat.min_le_left _ _)⟩
  · right
    exact h

/-- The loop of `runRead` on a file with no conversion and an accepting sink: it
ends, and what it writes is a permutation of the carry-over it started with and of
the bytes of the file within the counter. -/
theorem runRead_file_perm (T : CaseTables) (blockSize : Nat) (hbs : 1 ≤ blockSize) :
    ∀ (fuel : Nat) (rest : List Byte) (btr : Nat) (tail w : List Byte),
      btr < 2 ^ 64 → min rest.length btr + 2 ≤ fuel →
      ∃ (src1 out : List Byte),
        runRead fileReader (processAndWrite fullSink T) blockSize fuel rest btr tail
            { sink := w, conversions := [] }
          = some (none, src1, { sink := w ++ out, conversions := [] })
        ∧ out.Perm (tail ++ rest.take btr) := by
  intro fuel
  induction fuel with
  | zero =>
    intro rest btr tail w _ hf
    omega
  | succ fuel ih =>
    intro rest btr tail w hlt hf
    have hflush : ∀ (src : List Byte) (chunk : List Byte) (f : Nat), 1 ≤ f →
        ∀ (carry out : List Byte) (convs1 : List Converter),
        processAndWrite fullSink T { sink := w, conversions := [] } chunk true
          = ((carry, none), { sink := w ++ out, conversions := convs1 }) →
        allRaw carry → (([] : List Converter) = [] → convs1 = [] ∧ (out ++ carry).Perm chunk) →
        ∃ (src1 out1 : List Byte),
          runRead fileReader (processAndWrite fullSink T) blockSize f src 0 carry
              { sink := w ++ out, conversions := convs1 }
            = some (none, src1, { sink := w ++ out1, conversions := [] })
          ∧ out1.Perm chunk := by
      intro src chunk f hf1 carry out convs1 _ h2 h4
      obtain ⟨hc, hp⟩ := h4 rfl
      subst hc
      refine ⟨src, out ++ carry, ?_, hp⟩
      rw [runRead_flush fileReader T blockSize f src _ _ carry h2 hf1, List.append_assoc]
    by_cases hb : btr = 0
    · subst hb
      by_cases ht : tail = []
      · subst ht
        exact ⟨rest, [], by rw [runRead_stop]; simp, by simp⟩
      · obtain ⟨carry, out, convs1, h1, h2, _, h4⟩ := processAndWrite_full T w [] tail true
        rw [runRead_drain _ _ _ _ _ _ _ ht, h1]
        obtain ⟨src1, out1, e1, e2⟩ := hflush rest tail fuel (by omega) carry out convs1 h1 h2 h4
        exact ⟨src1, out1, e1, by simpa using e2⟩
    · have hpos : 0 < btr := Nat.pos_of_ne_zero hb
      have hn : min blockSize btr ≠ 0 := by omega
      by_cases hre : rest = []
      · subst hre
        obtain ⟨carry, out, convs1, h1, h2, _, h4⟩ := processAndWrite_full T w [] tail true
        have hrd : fileReader.read ([] : List Byte) (min blockSize btr)
            = (([], some Err.EOF), []) := by
          simp [fileReader, hn]
        rw [runRead_step_ok fileReader _ blockSize fuel [] [] btr tail [] carry (some Err.EOF)
          _ _ hpos hrd (Or.inr rfl) (by simpa using h1)]
        simp only [if_true]
        obtain ⟨src1, out1, e1, e2⟩ := hflush [] tail fuel (by omega) carry out convs1 h1 h2 h4
        exact ⟨src1, out1, e1, by simpa using e2⟩
      · have hl : 0 < rest.length := List.length_pos.mpr hre
        have hrd : fileReader.read rest (min blockSize btr)
            = ((rest.take (min blockSize btr), none), rest.drop (min blockSize btr)) := by
          simp [fileReader, hn, hre]
        have hle : (rest.take (min blockSize btr)).length ≤ btr := by
          rw [List.length_take]
          omega
        obtain ⟨carry, out, convs1, h1, h2, _, h4⟩ := processAndWrite_full T w []
          (tail ++ rest.take (min blockSize btr))
          (decide ((if (none : Option Err) = some Err.EOF then 0
            else uint64Sub btr (rest.take (min blockSize btr)).length) = 0))
        obtain ⟨hc, hp⟩ := h4 rfl
        subst hc
        rw [runRead_step_ok fileReader _ blockSize fuel rest _ btr tail _ carry none
          _ _ hpos hrd (Or.inl rfl) h1]
        simp only [reduceCtorEq, if_false, uint64Sub_eq hle hlt]
        obtain ⟨src1, out1, e1, e2⟩ := ih (rest.drop (min blockSize btr))
          (btr - (rest.take (min blockSize btr)).length) carry (w ++ out) (by omega) (by
            simp only [List.length_drop, List.length_take]
            omega)
        refine ⟨src1, out ++ out1, ?_, ?_⟩
        · rw [e1, List.append_assoc]
        · have hsplit : rest.take btr = rest.take (min blockSize btr)
              ++ (rest.drop (min blockSize btr)).take (btr - (rest.take (min blockSize btr)).length) := by
            by_cases hshort : rest.length ≤ min blockSize btr
            · rw [List.drop_eq_nil_of_le hshort, List.take_nil, List.append_nil,
                List.take_of_length_le hshort, List.take_of_length_le (by omega)]
            · have hlen : (rest.take (min blockSize btr)).length = min blockSize btr := by
                rw [List.length_take]
                omega
              rw [hlen]
              have hsum : btr = min blockSize btr + (btr - min blockSize btr) := by omega
              conv_lhs => rw [hsum, List.take_add]
          rw [hsplit]
          have p1 : (out ++ out1).Perm (out ++ (carry ++ (rest.drop (min blockSize btr)).take
              (btr - (rest.take (min blockSize btr)).length))) := List.Perm.append_left out e2
          refine p1.trans ?_
          rw [← List.append_assoc, ← List.append_assoc]
          exact List.Perm.append_right _ hp

/-! ## Lemmas on short writes and on the case tables -/

theorem shortSink_write (s : ShortSink) (p : List Byte) :
    ∃ (n : Nat) (caps1 : List Nat), n ≤ p.length
      ∧ shortSink.write s p = ((n, none), { written := s.written ++ p.take n, caps := caps1 }) := by
  cases hc : s.caps with
  | nil =>
    refine ⟨p.length, [], le_refl _, ?_⟩
    simp [shortSink, hc]
  | cons c cs =>
    refine ⟨min c p.length, cs, Nat.min_le_right _ _, ?_⟩
    simp only [shortSink, hc]
    have ht : List.take (min c p.length) p = List.take c p := by
      rw [List.take_eq_take]
      simp
    rw [ht]

theorem scanChunk_valid_early {ω : Type} (W : Writer ω) (fuel : Nat) (b : Byte) (bs : List Byte)
    (decoded : List Nat) (tail : List Byte) (w w1 : ω) (r wd n : Nat) (err : Option Err)
    (h : decodeRune (b :: bs) = (r, wd)) (hr : r ≠ RuneError)
    (hw : W.write w tail = ((n, err), w1)) (hn : n < tail.length) :
    scanChunk W (fuel + 1) (b :: bs) decoded tail w = .early (tail.drop n) err w1 := by
  simp only [scanChunk, h, hr, if_false, hw, hn, if_true]

theorem scanChunk_valid_go {ω : Type} (W : Writer ω) (fuel : Nat) (b : Byte) (bs : List Byte)
    (decoded : List Nat) (tail : List Byte) (w w1 : ω) (r wd n : Nat) (err : Option Err)
    (h : decodeRune (b :: bs) = (r, wd)) (hr : r ≠ RuneError)
    (hw : W.write w tail = ((n, err), w1)) (hn : ¬ n < tail.length) :
    scanChunk W (fuel + 1) (b :: bs) decoded tail w
      = scanChunk W fuel ((b :: bs).drop wd) (decoded ++ [r]) (tail.drop n) w1 := by
  simp only [scanChunk, h, hr, if_false, hw, hn]

/-- The decoding loop with a sink that may accept only the beginning of a write,
without an error.  Either it reaches the end of the chunk, and the bytes written,
the bytes of the decoded text and the raw bytes left are, together, the bytes that
came in; or it returns at a short write of raw bytes, and then the bytes written and
the bytes returned are fewer than the raw bytes held and the bytes to scan. -/
theorem scanChunk_short :
    ∀ (fuel : Nat) (rest : List Byte) (decoded : List Nat) (tail : List Byte) (s : ShortSink),
      rest.length ≤ fuel →
      (∃ (d1 : List Nat) (raw out : List Byte) (caps1 : List Nat),
        scanChunk shortSink fuel rest decoded tail s
          = .done d1 raw { written := s.written ++ out, caps := caps1 }
        ∧ (out ++ encodeString d1 ++ raw).Perm (encodeString decoded ++ tail ++ rest))
      ∨ (∃ (carry out : List Byte) (caps1 : List Nat),
        scanChunk shortSink fuel rest decoded tail s
          = .early carry none { written := s.written ++ out, caps := caps1 }
        ∧ out.length + carry.length < tail.length + rest.length) := by
  intro fuel
  induction fuel with
  | zero =>
    intro rest decoded tail s hf
    have : rest = [] := List.length_eq_zero.mp (by omega)
    subst this
    left
    exact ⟨decoded, tail, [], s.caps, by simp [scanChunk], by simp⟩
  | succ fuel ih =>
    intro rest decoded tail s hf
    cases rest with
    | nil =>
      left
      exact ⟨decoded, tail, [], s.caps, by simp [scanChunk], by simp⟩
    | cons b bs =>
      have hw := decodeRune_width_pos b bs
      have hlen : ((b :: bs).drop (decodeRune (b :: bs)).2).length ≤ fuel := by
        simp only [List.length_drop, List.length_cons] at hf ⊢
        omega
      have htd : (b :: bs).take (decodeRune (b :: bs)).2 ++ (b :: bs).drop (decodeRune (b :: bs)).2
          = b :: bs := List.take_append_drop _ _
      have htl : ((b :: bs).take (decodeRune (b :: bs)).2).length
          + ((b :: bs).drop (decodeRune (b :: bs)).2).length = (b :: bs).length := by
        rw [← List.length_append, htd]
      by_cases hr : (decodeRune (b :: bs)).1 = RuneError
      · have hd : decodeRune (b :: bs) = (RuneError, (decodeRune (b :: bs)).2) := by
          rw [← hr]
        rw [scanChunk_raw_step shortSink fuel b bs decoded tail s _ hd]
        rcases ih ((b :: bs).drop (decodeRune (b :: bs)).2) decoded
          (tail ++ (b :: bs).take (decodeRune (b :: bs)).2) s hlen with
          ⟨d1, raw, out, caps1, h1, h3⟩ | ⟨carry, out, caps1, h1, h3⟩
        · left
          refine ⟨d1, raw, out, caps1, h1, ?_⟩
          have e : encodeString decoded ++ (tail ++ (b :: bs).take (decodeRune (b :: bs)).2)
              ++ (b :: bs).drop (decodeRune (b :: bs)).2
              = encodeString decoded ++ tail ++ (b :: bs) := by
            simp only [List.append_assoc, htd]
          rw [e] at h3
          exact h3
        · right
          refine ⟨carry, out, caps1, h1, ?_⟩
          rw [List.length_append] at h3
          omega
      · have hd : decodeRune (b :: bs) = ((decodeRune (b :: bs)).1, (decodeRune (b :: bs)).2) := rfl
        have henc := appendRune_decodeRune b bs _ _ hd hr
        obtain ⟨n, caps0, hn, hwr⟩ := shortSink_write s tail
        by_cases hshort : n < tail.length
        · right
          refine ⟨tail.drop n, tail.take n, caps0, ?_, ?_⟩
          · rw [scanChunk_valid_early shortSink fuel b bs decoded tail s _ _ _ n none hd hr hwr hshort]
          · rw [List.length_take, List.length_drop, List.length_cons]
            omega
        · have hnl : n = tail.length := by omega
          subst hnl
          rw [scanChunk_valid_go shortSink fuel b bs decoded tail s _ _ _ _ none hd hr hwr hshort]
          simp only [List.drop_length, List.take_length]
          rcases ih ((b :: bs).drop (decodeRune (b :: bs)).2)
            (decoded ++ [(decodeRune (b :: bs)).1]) []
            { written := s.written ++ tail, caps := caps0 } hlen with
            ⟨d1, raw, out, caps1, h1, h3⟩ | ⟨carry, out, caps1, h1, h3⟩
          · left
            refine ⟨d1, raw, tail ++ out, caps1, ?_, ?_⟩
            · rw [h1]
              simp
            · have h4 : (out ++ encodeString d1 ++ raw).Perm (encodeString decoded ++ (b :: bs)) := by
                have : encodeString (decoded ++ [(decodeRune (b :: bs)).1]) ++ []
                    ++ (b :: bs).drop (decodeRune (b :: bs)).2
                    = encodeString decoded ++ (b :: bs) := by
                  rw [encodeString_append]
                  simp only [encodeString, List.append_nil, List.append_assoc, henc, htd]
                rw [this] at h3
                exact h3
              have h5 : (tail ++ out ++ encodeString d1 ++ raw)
                  = tail ++ (out ++ encodeString d1 ++ raw) := by simp
              rw [h5]
              refine (List.Perm.append_left tail h4).trans ?_
              rw [← List.append_assoc]
              exact List.Perm.append_right _ List.perm_append_comm
          · right
            refine ⟨carry, tail ++ out, caps1, ?_, ?_⟩
            · rw [h1]
              simp
            · simp only [List.length_nil, Nat.zero_add, List.length_append] at h3 ⊢
              omega

/-- One call of `processAndWrite` with no conversions and a sink that may accept
only the beginning of a write, without an error. -/
theorem processAndWrite_short (T : CaseTables) (s : ShortSink) (chunk : List Byte)
    (isLastChunk : Bool) :
    ∃ (carry out : List Byte) (caps1 : List Nat),
      processAndWrite shortSink T { sink := s, conversions := [] } chunk isLastChunk
        = ((carry, none),
            { sink := { written := s.written ++ out, caps := caps1 }, conversions := [] })
      ∧ (scanCompletes shortSink s chunk = true → (out ++ carry).Perm chunk)
      ∧ (scanCompletes shortSink s chunk = false →
          scanChunk shortSink chunk.length chunk [] [] s
            = .early carry none { written := s.written ++ out, caps := caps1 }
          ∧ out.length + carry.length < chunk.length) := by
  rcases scanChunk_short chunk.length chunk [] [] s (le_refl _) with
    ⟨d1, raw, out, caps1, h1, h3⟩ | ⟨carry, out, caps1, h1, h3⟩
  · simp only [encodeString, List.nil_append] at h3
    have hsc : scanCompletes shortSink s chunk = true := by
      simp only [scanCompletes, h1]
    by_cases hc : (encodeString d1).length = 0 ∧ isLastChunk = true
    · have hd1 : encodeString d1 = [] := List.length_eq_zero.mp hc.1
      obtain ⟨n, caps2, hn, hwr⟩ := shortSink_write { written := s.written ++ out, caps := caps1 } raw
      refine ⟨raw.drop n, out ++ raw.take n, caps2, ?_, ?_, ?_⟩
      · unfold processAndWrite
        simp only [h1, hc, and_self, if_true, hwr, List.append_assoc]
      · intro _
        rw [hd1] at h3
        simpa using h3
      · intro h
        rw [hsc] at h
        cases h
    · obtain ⟨n, caps2, hn, hwr⟩ := shortSink_write { written := s.written ++ out, caps := caps1 }
        (encodeString d1)
      by_cases hshort : n < (encodeString d1).length
      · refine ⟨(encodeString d1).drop n ++ raw, out ++ (encodeString d1).take n, caps2, ?_, ?_, ?_⟩
        · unfold processAndWrite
          simp only [h1, hc, if_false, convertAll, hwr, hshort, if_true, List.append_assoc]
        · intro _
          have e : out ++ (encodeString d1).take n ++ ((encodeString d1).drop n ++ raw)
              = out ++ encodeString d1 ++ raw := by
            simp only [List.append_assoc]
            rw [← List.append_assoc ((encodeString d1).take n), List.take_append_drop]
          rw [e]
          exact h3
        · intro h
          rw [hsc] at h
          cases h
      · have hnl : n = (encodeString d1).length := by omega
        subst hnl
        refine ⟨raw, out ++ encodeString d1, caps2, ?_, ?_, ?_⟩
        · unfold processAndWrite
          simp only [h1, hc, if_false, convertAll, hwr, hshort, List.take_length,
            List.append_assoc]
        · intro _
          exact h3
        · intro h
          rw [hsc] at h
          cases h
  · have hsc : scanCompletes shortSink s chunk = false := by
      simp only [scanCompletes, h1]
    refine ⟨carry, out, caps1, ?_, ?_, ?_⟩
    · unfold processAndWrite
      simp only [h1]
    · intro h
      rw [hsc] at h
      cases h
    · intro _
      exact ⟨h1, by simpa using h3⟩

/-- The binary search of `unicode.to` returns `r` unchanged unless a range of the
table holds `r`. -/
theorem caseSearch_cases (_case r : Nat) (caseRange : List CaseRange) :
    ∀ (fuel lo hi : Nat),
      (caseSearch _case r caseRange fuel lo hi).1 = r
      ∨ ∃ cr ∈ caseRange, cr.Lo ≤ r ∧ r ≤ cr.Hi := by
  intro fuel
  induction fuel with
  | zero =>
    intro lo hi
    left
    rfl
  | succ fuel ih =>
    intro lo hi
    unfold caseSearch
    by_cases hlt : lo < hi
    · simp only [hlt, if_true]
      cases hm : caseRange[(lo + hi) / 2]? with
      | none =>
        left
        rfl
      | some cr =>
        by_cases hin : cr.Lo ≤ r ∧ r ≤ cr.Hi
        · right
          have hmem : cr ∈ caseRange := List.mem_iff_getElem?.mpr ⟨_, hm⟩
          exact ⟨cr, hmem, hin⟩
        · simp only [hin, if_false]
          split_ifs
          · exact ih lo ((lo + hi) / 2)
          · exact ih ((lo + hi) / 2 + 1) hi
    · left
      simp [hlt]

/-- The fuel given to the binary search is enough: with at least `hi - lo`
iterations the search ends by itself, so its result does not depend on the fuel. -/
theorem caseSearch_fuel (_case r : Nat) (caseRange : List CaseRange) :
    ∀ (fuel1 fuel2 lo hi : Nat), hi - lo ≤ fuel1 → hi - lo ≤ fuel2 →
      caseSearch _case r caseRange fuel1 lo hi = caseSearch _case r caseRange fuel2 lo hi := by
  intro fuel1
  induction fuel1 with
  | zero =>
    intro fuel2 lo hi h1 _
    have hn : ¬ lo < hi := by omega
    cases fuel2 with
    | zero => rfl
    | succ f2 =>
      unfold caseSearch
      simp [hn]
  | succ fuel1 ih =>
    intro fuel2 lo hi h1 h2
    by_cases hlt : lo < hi
    · cases fuel2 with
      | zero => omega
      | succ f2 =>
        have hm1 : lo ≤ (lo + hi) / 2 := by omega
        have hm2 : (lo + hi) / 2 < hi := by omega
        rw [caseSearch, caseSearch]
        simp only [hlt, if_true]
        cases hm : caseRange[(lo + hi) / 2]? with
        | none => rfl
        | some cr =>
          simp only
          rw [ih f2 lo ((lo + hi) / 2) (by omega) (by omega),
            ih f2 ((lo + hi) / 2 + 1) hi (by omega) (by omega)]
    · cases fuel2 with
      | zero =>
        unfold caseSearch
        simp [hlt]
      | succ f2 =>
        rw [caseSearch, caseSearch]
        simp [hlt]

theorem unicodeTo_cases (_case r : Nat) (hc : _case < unicodeMaxCase) :
    unicodeTo _case r = r ∨ ∃ cr ∈ CaseRanges, cr.Lo ≤ r ∧ r ≤ cr.Hi := by
  unfold unicodeTo unicodeToIn
  simp only [Nat.not_le.mpr hc, if_false]
  exact caseSearch_cases _case r CaseRanges CaseRanges.length 0 CaseRanges.length

theorem unicodeCaseTables_toUpper (r : Nat) :
    unicodeCaseTables.toUpper r = unicodeTo unicodeUpperCase r := by
  simp only [unicodeCaseTables]

theorem unicodeCaseTables_toLower (r : Nat) :
    unicodeCaseTables.toLower r = unicodeTo unicodeLowerCase r := by
  simp only [unicodeCaseTables]

theorem foldFixedOn_apply {f : Nat → Nat} {cr : CaseRange} (h : foldFixedOn f cr = true)
    {r : Nat} (h1 : cr.Lo ≤ r) (h2 : r ≤ cr.Hi) :
    f (writtenRune (f r)) = writtenRune (f r) := by
  unfold foldFixedOn at h
  rw [List.all_eq_true] at h
  have hmem : r ∈ List.range' cr.Lo (cr.Hi + 1 - cr.Lo) := by
    rw [List.mem_range'_1]
    omega
  exact beq_iff_eq.mp (h r hmem)

theorem all_drop_step {α : Type} (l : List α) (g : α → Bool) (k n m : Nat) (hm : k + n = m)
    (h1 : ((l.drop k).take n).all g = true) (h2 : (l.drop m).all g = true) :
    (l.drop k).all g = true := by
  subst hm
  have e : l.drop k = (l.drop k).take n ++ l.drop (k + n) := by
    rw [← List.drop_drop, List.take_append_drop]
  rw [e, List.all_append, h1, h2]
  rfl

theorem caseRanges_length : CaseRanges.length = 328 := by
  decide!

/-- The upper case mapping of Go's `unicode` package, applied to what `strings.Map`
stored for a code point of one of the ranges of `unicode.CaseRanges`, gives that
code point again: checked by evaluation, twenty ranges at a time. -/
theorem caseRanges_upper_0 :
    ((CaseRanges.drop 0).take 20).all (foldFixedOn (unicodeToUpper unicodeCaseTables)) = true := by
  decide!

theorem caseRanges_upper_1 :
    ((CaseRanges.drop 20).take 20).all (foldFixedOn (unicodeToUpper unicodeCaseTables)) = true := by
  decide!

theorem caseRanges_upper_2 :
    ((CaseRanges.drop 40).take 20).all (foldFixedOn (unicodeToUpper unicodeCaseTables)) = true := by
  decide!

theorem caseRanges_upper_3 :
    ((CaseRanges.drop 60).take 20).all (foldFixedOn (unicodeToUpper unicodeCaseTables)) = true := by
  decide!

theorem caseRanges_upper_4 :
    ((CaseRanges.drop 80).take 20).all (foldFixedOn (unicodeToUpper unicodeCaseTables)) = true := by
  decide!

theorem caseRanges_upper_5 :
    ((CaseRanges.drop 100).take 20).all (foldFixedOn (unicodeToUpper unicodeCaseTables)) = true := by
  decide!

theorem caseRanges_upper_6 :
    ((CaseRanges.drop 120).take 20).all (foldFixedOn (unicodeToUpper unicodeCaseTables)) = true := by
  decide!

theorem caseRanges_upper_7 :
    ((CaseRanges.drop 140).take 20).all (foldFixedOn (unicodeToUpper unicodeCaseTables)) = true := by
  decide!

theorem caseRanges_upper_8 :
    ((CaseRanges.drop 160).take 20).all (foldFixedOn (unicodeToUpper unicodeCaseTables)) = true := by
  decide!

theorem caseRanges_upper_9 :
    ((CaseRanges.drop 180).take 20).all (foldFixedOn (unicodeToUpper unicodeCaseTables)) = true := by
  decide!

theorem caseRanges_upper_10 :
    ((CaseRanges.drop 200).take 20).all (foldFixedOn (unicodeToUpper unicodeCaseTables)) = true := by
  decide!

theorem caseRanges_upper_11 :
    ((CaseRanges.drop 220).take 20).all (foldFixedOn (unicodeToUpper unicodeCaseTables)) = true := by
  decide!

theorem caseRanges_upper_12 :
    ((CaseRanges.drop 240).take 20).all (foldFixedOn (unicodeToUpper unicodeCaseTables)) = true := by
  decide!

theorem caseRanges_upper_13 :
    ((CaseRanges.drop 260).take 20).all (foldFixedOn (unicodeToUpper unicodeCaseTables)) = true := by
  decide!

theorem caseRanges_upper_14 :
    ((CaseRanges.drop 280).take 20).all (foldFixedOn (unicodeToUpper unicodeCaseTables)) = true := by
  decide!

theorem caseRanges_upper_15 :
    ((CaseRanges.drop 300).take 20).all (foldFixedOn (unicodeToUpper unicodeCaseTables)) = true := by
  decide!

theorem caseRanges_upper_16 :
    ((CaseRanges.drop 320).take 20).all (foldFixedOn (unicodeToUpper unicodeCaseTables)) = true := by
  decide!

theorem caseRanges_upper_checked :
    CaseRanges.all (foldFixedOn (unicodeToUpper unicodeCaseTables)) = true := by
  have hnil : (CaseRanges.drop 340).all (foldFixedOn (unicodeToUpper unicodeCaseTables)) = true := by
    rw [List.drop_eq_nil_of_le (by rw [caseRanges_length]; decide)]
    rfl
  have h := (all_drop_step _ _ 0 20 20 rfl caseRanges_upper_0
      (all_drop_step _ _ 20 20 40 rfl caseRanges_upper_1
      (all_drop_step _ _ 40 20 60 rfl caseRanges_upper_2
      (all_drop_step _ _ 60 20 80 rfl caseRanges_upper_3
      (all_drop_step _ _ 80 20 100 rfl caseRanges_upper_4
      (all_drop_step _ _ 100 20 120 rfl caseRanges_upper_5
      (all_drop_step _ _ 120 20 140 rfl caseRanges_upper_6
      (all_drop_step _ _ 140 20 160 rfl caseRanges_upper_7
      (all_drop_step _ _ 160 20 180 rfl caseRanges_upper_8
      (all_drop_step _ _ 180 20 200 rfl caseRanges_upper_9
      (all_drop_step _ _ 200 20 220 rfl caseRanges_upper_10
      (all_drop_step _ _ 220 20 240 rfl caseRanges_upper_11
      (all_drop_step _ _ 240 20 260 rfl caseRanges_upper_12
      (all_drop_step _ _ 260 20 280 rfl caseRanges_upper_13
      (all_drop_step _ _ 280 20 300 rfl caseRanges_upper_14
      (all_drop_step _ _ 300 20 320 rfl caseRanges_upper_15
      (all_drop_step _ _ 320 20 340 rfl caseRanges_upper_16
      hnil)))))))))))))))))
  rw [List.drop_zero] at h
  exact h

/-- The lower case mapping of Go's `unicode` package, applied to what `strings.Map`
stored for a code point of one of the ranges of `unicode.CaseRanges`, gives that
code point again: checked by evaluation, twenty ranges at a time. -/
theorem caseRanges_lower_0 :
    ((CaseRanges.drop 0).take 20).all (foldFixedOn (unicodeToLower unicodeCaseTables)) = true := by
  decide!

theorem caseRanges_lower_1 :
    ((CaseRanges.drop 20).take 20).all (foldFixedOn (unicodeToLower unicodeCaseTables)) = true := by
  decide!

theorem caseRanges_lower_2 :
    ((CaseRanges.drop 40).take 20).all (foldFixedOn (unicodeToLower unicodeCaseTables)) = true := by
  decide!

theorem caseRanges_lower_3 :
    ((CaseRanges.drop 60).take 20).all (foldFixedOn (unicodeToLower unicodeCaseTables)) = true := by
  decide!

theorem caseRanges_lower_4 :
    ((CaseRanges.drop 80).take 20).all (foldFixedOn (unicodeToLower unicodeCaseTables)) = true := by
  decide!

theorem caseRanges_lower_5 :
    ((CaseRanges.drop 100).take 20).all (foldFixedOn (unicodeToLower unicodeCaseTables)) = true := by
  decide!

theorem caseRanges_lower_6 :
    ((CaseRanges.drop 120).take 20).all (foldFixedOn (unicodeToLower unicodeCaseTables)) = true := by
  decide!

theorem caseRanges_lower_7 :
    ((CaseRanges.drop 140).take 20).all (foldFixedOn (unicodeToLower unicodeCaseTables)) = true := by
  decide!

theorem caseRanges_lower_8 :
    ((CaseRanges.drop 160).take 20).all (foldFixedOn (unicodeToLower unicodeCaseTables)) = true := by
  decide!

theorem caseRanges_lower_9 :
    ((CaseRanges.drop 180).take 20).all (foldFixedOn (unicodeToLower unicodeCaseTables)) = true := by
  decide!

theorem caseRanges_lower_10 :
    ((CaseRanges.drop 200).take 20).all (foldFixedOn (unicodeToLower unicodeCaseTables)) = true := by
  decide!

theorem caseRanges_lower_11 :
    ((CaseRanges.drop 220).take 20).all (foldFixedOn (unicodeToLower unicodeCaseTables)) = true := by
  decide!

theorem caseRanges_lower_12 :
    ((CaseRanges.drop 240).take 20).all (foldFixedOn (unicodeToLower unicodeCaseTables)) = true := by
  decide!

theorem caseRanges_lower_13 :
    ((CaseRanges.drop 260).take 20).all (foldFixedOn (unicodeToLower unicodeCaseTables)) = true := by
  decide!

theorem caseRanges_lower_14 :
    ((CaseRanges.drop 280).take 20).all (foldFixedOn (unicodeToLower unicodeCaseTables)) = true := by
  decide!

theorem caseRanges_lower_15 :
    ((CaseRanges.drop 300).take 20).all (foldFixedOn (unicodeToLower unicodeCaseTables)) = true := by
  decide!

theorem caseRanges_lower_16 :
    ((CaseRanges.drop 320).take 20).all (foldFixedOn (unicodeToLower unicodeCaseTables)) = true := by
  decide!

theorem caseRanges_lower_checked :
    CaseRanges.all (foldFixedOn (unicodeToLower unicodeCaseTables)) = true := by
  have hnil : (CaseRanges.drop 340).all (foldFixedOn (unicodeToLower unicodeCaseTables)) = true := by
    rw [List.drop_eq_nil_of_le (by rw [caseRanges_length]; decide)]
    rfl
  have h := (all_drop_step _ _ 0 20 20 rfl caseRanges_lower_0
      (all_drop_step _ _ 20 20 40 rfl caseRanges_lower_1
      (all_drop_step _ _ 40 20 60 rfl caseRanges_lower_2
      (all_drop_step _ _ 60 20 80 rfl caseRanges_lower_3
      (all_drop_step _ _ 80 20 100 rfl caseRanges_lower_4
      (all_drop_step _ _ 100 20 120 rfl caseRanges_lower_5
      (all_drop_step _ _ 120 20 140 rfl caseRanges_lower_6
      (all_drop_step _ _ 140 20 160 rfl caseRanges_lower_7
      (all_drop_step _ _ 160 20 180 rfl caseRanges_lower_8
      (all_drop_step _ _ 180 20 200 rfl caseRanges_lower_9
      (all_drop_step _ _ 200 20 220 rfl caseRanges_lower_10
      (all_drop_step _ _ 220 20 240 rfl caseRanges_lower_11
      (all_drop_step _ _ 240 20 260 rfl caseRanges_lower_12
      (all_drop_step _ _ 260 20 280 rfl caseRanges_lower_13
      (all_drop_step _ _ 280 20 300 rfl caseRanges_lower_14
      (all_drop_step _ _ 300 20 320 rfl caseRanges_lower_15
      (all_drop_step _ _ 320 20 340 rfl caseRanges_lower_16
      hnil)))))))))))))))))
  rw [List.drop_zero] at h
  exact h

theorem unicodeToUpper_replacement : unicodeToUpper unicodeCaseTables RuneError = RuneError := by
  decide!

theorem unicodeToLower_replacement : unicodeToLower unicodeCaseTables RuneError = RuneError := by
  decide!

theorem unicodeCaseTables_upperFixed : upperFixed unicodeCaseTables := by
  intro r hr
  have hf : unicodeToUpper unicodeCaseTables r = unicodeCaseTables.toUpper r := by
    unfold unicodeToUpper
    simp [Nat.not_le.mpr hr]
  have hsame : unicodeCaseTables.toUpper r = r →
      unicodeToUpper unicodeCaseTables (writtenRune (unicodeCaseTables.toUpper r))
        = writtenRune (unicodeCaseTables.toUpper r) := by
    intro h
    rw [h]
    by_cases hv : validRune r = true
    · have hw : writtenRune r = r := by simp [writtenRune, hv]
      rw [hw, hf, h]
    · have hw : writtenRune r = RuneError := by simp [writtenRune, hv]
      rw [hw]
      exact unicodeToUpper_replacement
  have hcases := unicodeTo_cases unicodeUpperCase r (by decide)
  rw [← unicodeCaseTables_toUpper] at hcases
  rcases hcases with h | ⟨cr, hmem, h1, h2⟩
  · exact hsame h
  · have hall := caseRanges_upper_checked
    rw [List.all_eq_true] at hall
    have := foldFixedOn_apply (hall cr hmem) h1 h2
    rw [hf] at this
    exact this

theorem unicodeCaseTables_lowerFixed : lowerFixed unicodeCaseTables := by
  intro r hr
  have hf : unicodeToLower unicodeCaseTables r = unicodeCaseTables.toLower r := by
    unfold unicodeToLower
    simp [Nat.not_le.mpr hr]
  have hsame : unicodeCaseTables.toLower r = r →
      unicodeToLower unicodeCaseTables (writtenRune (unicodeCaseTables.toLower r))
        = writtenRune (unicodeCaseTables.toLower r) := by
    intro h
    rw [h]
    by_cases hv : validRune r = true
    · have hw : writtenRune r = r := by simp [writtenRune, hv]
      rw [hw, hf, h]
    · have hw : writtenRune r = RuneError := by simp [writtenRune, hv]
      rw [hw]
      exact unicodeToLower_replacement
  have hcases := unicodeTo_cases unicodeLowerCase r (by decide)
  rw [← unicodeCaseTables_toLower] at hcases
  rcases hcases with h | ⟨cr, hmem, h1, h2⟩
  · exact hsame h
  · have hall := caseRanges_lower_checked
    rw [List.all_eq_true] at hall
    have := foldFixedOn_apply (hall cr hmem) h1 h2
    rw [hf] at this
    exact this

/-! ## The claims -/

/-- C1 (the code departs from the claim).  The input `a`, U+FFFD, `b` is valid
UTF-8; copied with no conversion, offset 0, no limit and one block, the run ends
and writes the three bytes of U+FFFD first and `ab` after them, not the input. -/
theorem copy_valid_input_reordered (T : CaseTables) :
    (∀ r ∈ [0x61, 0xFFFD, 0x62], validRune r = true)
    ∧ encodeString [0x61, 0xFFFD, 0x62] = [0x61, 0xEF, 0xBF, 0xBD, 0x62]
    ∧ runOutput T 3 [0x61, 0xEF, 0xBF, 0xBD, 0x62] 0 (2 ^ 64 - 1) 1024 []
        = some [0xEF, 0xBF, 0xBD, 0x61, 0x62] := by
  refine ⟨by decide, rfl, rfl⟩

/-- C2.  The fragments returned by one fresh `TrimSpaces` for a sequence of
fragments, put together, are the concatenation of the fragments without its
leading and trailing whitespace: they begin and end with a non-space character,
and depend only on the concatenation, not on the fragment boundaries. -/
theorem trimSpaces_stream (frags : List (List Nat)) :
    (TrimSpaces.fresh.feed frags).1 = trimBoth frags.flatten
    ∧ (∀ x, (TrimSpaces.fresh.feed frags).1.head? = some x → isSpace x = false)
    ∧ (∀ x, (TrimSpaces.fresh.feed frags).1.getLast? = some x → isSpace x = false)
    ∧ (∀ frags2 : List (List Nat), frags2.flatten = frags.flatten →
        (TrimSpaces.fresh.feed frags2).1 = (TrimSpaces.fresh.feed frags).1) := by
  have hinv := trimInv_feed frags trimInv_fresh
  simp only [List.nil_append] at hinv
  refine ⟨feed_fresh_eq frags, (trimInv_ends hinv).1, (trimInv_ends hinv).2, ?_⟩
  intro frags2 h
  rw [feed_fresh_eq, feed_fresh_eq, h]

/-- C3 (the code departs from the claim).  On the chunk `a`, 0xFF, `b`, with no
conversion and an accepting sink, one call of `processAndWrite` returns an empty
carry-over and has written 0xFF before `ab`: the undecodable byte comes out
before the valid text that preceded it. -/
theorem engine_reorders_raw_run (T : CaseTables) (isLastChunk : Bool) :
    (processAndWrite fullSink T { sink := [], conversions := [] } [0x61, 0xFF, 0x62]
        isLastChunk).1 = ([], none)
    ∧ (processAndWrite fullSink T { sink := [], conversions := [] } [0x61, 0xFF, 0x62]
        isLastChunk).2.sink = [0xFF, 0x61, 0x62] := by
  cases isLastChunk <;> exact ⟨rfl, rfl⟩

/-- C4 (the claim as stated fails).  The chunk 0xFF, 0xFE, `a` and a sink that
accepts one byte of the first write and reports no error: one call of
`processAndWrite` has written 0xFF and returns the carry-over 0xFE, so the bytes
accepted and the carry-over are two bytes of a chunk of three. -/
theorem short_raw_flush_drops_bytes :
    (processAndWrite shortSink latin1Tables
        { sink := { written := [], caps := [1] }, conversions := [] }
        [0xFF, 0xFE, 0x61] false).1 = ([0xFE], none)
    ∧ (processAndWrite shortSink latin1Tables
        { sink := { written := [], caps := [1] }, conversions := [] }
        [0xFF, 0xFE, 0x61] false).2.sink.written = [0xFF]
    ∧ (processAndWrite shortSink latin1Tables
          { sink := { written := [], caps := [1] }, conversions := [] }
          [0xFF, 0xFE, 0x61] false).2.sink.written.length
        + (processAndWrite shortSink latin1Tables
          { sink := { written := [], caps := [1] }, conversions := [] }
          [0xFF, 0xFE, 0x61] false).1.1.length
      ≠ ([0xFF, 0xFE, 0x61] : List Byte).length := by
  refine ⟨rfl, rfl, ?_⟩
  decide

/-- C4, amended.  One call of `processAndWrite` with no conversions and a sink that
may accept only the beginning of any write without an error.  The call reports no
error.  When every write of raw bytes inside the decoding loop is accepted in full,
nothing is dropped or duplicated: the bytes accepted during the call followed by
the carry-over are a permutation of the chunk, so their lengths add up to the
length of the chunk, also when the write at the end of the call is short.  When a
write of raw bytes inside the loop is short, the call ends there: the carry-over is
the rest of that run of raw bytes, no further write is made, and the bytes accepted
and the carry-over are fewer than the bytes of the chunk. -/
theorem engine_short_write_accounting (T : CaseTables) (s : ShortSink) (chunk : List Byte)
    (isLastChunk : Bool) :
    ∃ (out : List Byte),
      (processAndWrite shortSink T { sink := s, conversions := [] } chunk isLastChunk).1.2 = none
      ∧ (processAndWrite shortSink T { sink := s, conversions := [] } chunk
          isLastChunk).2.sink.written = s.written ++ out
      ∧ (scanCompletes shortSink s chunk = true →
          (out ++ (processAndWrite shortSink T { sink := s, conversions := [] } chunk
            isLastChunk).1.1).Perm chunk
          ∧ out.length + (processAndWrite shortSink T { sink := s, conversions := [] } chunk
            isLastChunk).1.1.length = chunk.length)
      ∧ (scanCompletes shortSink s chunk = false →
          scanChunk shortSink chunk.length chunk [] [] s
            = .early (processAndWrite shortSink T { sink := s, conversions := [] } chunk
                isLastChunk).1.1 none
              (processAndWrite shortSink T { sink := s, conversions := [] } chunk
                isLastChunk).2.sink
          ∧ out.length + (processAndWrite shortSink T { sink := s, conversions := [] } chunk
            isLastChunk).1.1.length < chunk.length) := by
  obtain ⟨carry, out, caps1, h1, h2, h3⟩ := processAndWrite_short T s chunk isLastChunk
  rw [h1]
  refine ⟨out, rfl, rfl, ?_, ?_⟩
  · intro h
    have hp := h2 h
    refine ⟨hp, ?_⟩
    have hl := hp.length_eq
    rw [List.length_append] at hl
    exact hl
  · intro h
    exact h3 h

/-- The witness of the amended C4: the chunk `a`, 0xFF with a sink that accepts
nothing of the write of the text (the bytes accepted and the carry-over are the
chunk), and the chunk 0xFF, 0xFE, `a` with a sink that accepts one byte of the
write of the raw bytes (one byte accepted, one carried over, of three). -/
theorem engine_short_write_accounting_witness :
    scanCompletes shortSink { written := [], caps := [5, 0] } [0x61, 0xFF] = true
    ∧ processAndWrite shortSink latin1Tables
        { sink := { written := [], caps := [5, 0] }, conversions := [] } [0x61, 0xFF] true
      = (([0x61, 0xFF], none), { sink := { written := [], caps := [] }, conversions := [] })
    ∧ scanCompletes shortSink { written := [], caps := [1] } [0xFF, 0xFE, 0x61] = false
    ∧ ∃ (out : List Byte),
      (processAndWrite shortSink latin1Tables
        { sink := { written := [], caps := [5, 0] }, conversions := [] } [0x61, 0xFF] true).1.2
        = none
      ∧ (processAndWrite shortSink latin1Tables
          { sink := { written := [], caps := [5, 0] }, conversions := [] } [0x61, 0xFF]
          true).2.sink.written = [] ++ out :=
  ⟨rfl, rfl, rfl,
    (engine_short_write_accounting latin1Tables { written := [], caps := [5, 0] }
      [0x61, 0xFF] true).imp fun _ h => ⟨h.1, h.2.1⟩⟩

/-- C5.  For every text of valid runes, read from its UTF-8 encoding with block
size 1, offset 0 and a limit above its length, with `upper_case` as the only
conversion and an accepting sink, the run ends (with any fuel above the length)
and writes the encoding of the upper-cased text.  The case table is assumed to
leave U+FFFD as it is. -/
theorem upper_case_block_one (T : CaseTables) (hT : unicodeToUpper T RuneError = RuneError)
    (text : List Nat) (hvalid : ∀ r ∈ text, validRune r = true) (limit fuel : Nat)
    (hlim : (encodeString text).length < limit) (hlim64 : limit < 2 ^ 64)
    (hfuel : (encodeString text).length + 1 ≤ fuel) :
    runOutput T fuel (encodeString text) 0 limit 1 [Converter.upperCase]
      = some (encodeString (UpperCase.ConvertChunk T text)) := by
  have h := runRead_text T hT text hvalid fuel limit 0 [] hlim hlim64 hfuel
  simp only [List.replicate_zero, encodeString, List.append_nil, List.nil_append] at h
  simp only [runOutput, runMain, List.drop_zero, h, UpperCase.ConvertChunk]

/-- The witness of C5: the text `a`, U+20AC, `b`, whose middle character takes three
bytes. -/
theorem upper_case_block_one_witness :
    runOutput latin1Tables 6 (encodeString [0x61, 0x20AC, 0x62]) 0 (2 ^ 64 - 1) 1
        [Converter.upperCase]
      = some (encodeString (UpperCase.ConvertChunk latin1Tables [0x61, 0x20AC, 0x62]))
    ∧ encodeString (UpperCase.ConvertChunk latin1Tables [0x61, 0x20AC, 0x62])
      = [0x41, 0xE2, 0x82, 0xAC, 0x42] :=
  ⟨upper_case_block_one latin1Tables (by decide) [0x61, 0x20AC, 0x62] (by decide)
    (2 ^ 64 - 1) 6 (by decide) (by decide) (by decide), by decide⟩

/-- C6.  For every ASCII input and every block size of at least 1, read from offset
0 with a limit that covers the input, with `trim_spaces` as the only conversion and
an accepting sink, the run ends (with any fuel above the length) and writes the
input without its leading and trailing whitespace. -/
theorem trim_spaces_ascii_run (T : CaseTables) (input : List Byte)
    (hascii : ∀ b ∈ input, b.toNat < 0x80) (blockSize limit fuel : Nat)
    (hbs : 1 ≤ blockSize) (hlim : input.length ≤ limit) (hlim64 : limit < 2 ^ 64)
    (hfuel : input.length + 1 ≤ fuel) :
    runOutput T fuel input 0 limit blockSize [Converter.trimSpaces TrimSpaces.fresh]
      = some (trimBytes input) := by
  obtain ⟨frags, hfl, hrun⟩ := runRead_ascii T blockSize hbs fuel input limit []
    [Converter.trimSpaces TrimSpaces.fresh] hascii hlim hlim64 hfuel
  simp only [runOutput, runMain, List.drop_zero, hrun, convertFrags_trim, List.nil_append]
  rw [feed_fresh_eq, hfl, trimBoth_map,
    encodeString_ascii _ (fun b hb => hascii b (mem_trimBytes hb))]

/-- The witness of C6: two spaces, `hello world`, two spaces, with block size 4. -/
theorem trim_spaces_ascii_run_witness :
    runOutput latin1Tables 16
        [0x20, 0x20, 0x68, 0x65, 0x6C, 0x6C, 0x6F, 0x20, 0x77, 0x6F, 0x72, 0x6C, 0x64, 0x20, 0x20]
        0 (2 ^ 64 - 1) 4 [Converter.trimSpaces TrimSpaces.fresh]
      = some (trimBytes
        [0x20, 0x20, 0x68, 0x65, 0x6C, 0x6C, 0x6F, 0x20, 0x77, 0x6F, 0x72, 0x6C, 0x64, 0x20, 0x20])
    ∧ trimBytes
        [0x20, 0x20, 0x68, 0x65, 0x6C, 0x6C, 0x6F, 0x20, 0x77, 0x6F, 0x72, 0x6C, 0x64, 0x20, 0x20]
      = [0x68, 0x65, 0x6C, 0x6C, 0x6F, 0x20, 0x77, 0x6F, 0x72, 0x6C, 0x64] :=
  ⟨trim_spaces_ascii_run latin1Tables _ (by decide) 4 (2 ^ 64 - 1) 16 (by decide) (by decide)
    (by decide) (by decide), by decide⟩

/-- C7 (the code departs from the claim).  An input of 20 bytes that begins with
`a`, 0xFF, `b`, `c`, `d`, copied with limit 5, one block and no conversion: the run
ends having taken exactly 5 bytes from the source, but it writes 0xFF first, so the
output is not the first 5 input bytes. -/
theorem limit_output_reordered (T : CaseTables) :
    runMain fileReader fullSink T 3
        [0x61, 0xFF, 0x62, 0x63, 0x64, 0x65, 0x66, 0x67, 0x68, 0x69, 0x6A, 0x6B, 0x6C, 0x6D,
          0x6E, 0x6F, 0x70, 0x71, 0x72, 0x73]
        5 1024 { sink := [], conversions := [] }
      = some (none,
          [0x65, 0x66, 0x67, 0x68, 0x69, 0x6A, 0x6B, 0x6C, 0x6D, 0x6E, 0x6F, 0x70, 0x71, 0x72,
            0x73],
          { sink := [0xFF, 0x61, 0x62, 0x63, 0x64], conversions := [] })
    ∧ List.take 5
        [0x61, 0xFF, 0x62, 0x63, 0x64, 0x65, 0x66, 0x67, 0x68, 0x69, 0x6A, 0x6B, 0x6C, 0x6D,
          0x6E, 0x6F, 0x70, 0x71, 0x72, (0x73 : Byte)]
      = [0x61, 0xFF, 0x62, 0x63, 0x64] := by
  exact ⟨rfl, rfl⟩

/-- C8.  Case folding is idempotent: `UpperCase.ConvertChunk` and
`LowerCase.ConvertChunk` applied twice give what they give applied once, for every
text, with `strings.ToUpper` and `strings.ToLower` over the case tables of Go's
`unicode` package. -/
theorem case_folding_idempotent (s : List Nat) :
    UpperCase.ConvertChunk unicodeCaseTables (UpperCase.ConvertChunk unicodeCaseTables s)
      = UpperCase.ConvertChunk unicodeCaseTables s
    ∧ LowerCase.ConvertChunk unicodeCaseTables (LowerCase.ConvertChunk unicodeCaseTables s)
      = LowerCase.ConvertChunk unicodeCaseTables s := by
  constructor
  · exact stringsMap_idem (upperRune_idem unicodeCaseTables_upperFixed) s
  · exact stringsMap_idem (lowerRune_idem unicodeCaseTables_lowerFixed) s

/-- The witness of C8: the text `h`, U+00E9, U+00DF, U+01C6, U+0131, U+20AC, `Z`,
U+1E9E, whose upper case is `H`, U+00C9, U+00DF, U+01C4, `I`, U+20AC, `Z`, U+1E9E and
whose lower case is `h`, U+00E9, U+00DF, U+01C6, U+0131, U+20AC, `z`, U+00DF. -/
theorem case_folding_idempotent_witness :
    UpperCase.ConvertChunk unicodeCaseTables
        [0x68, 0xE9, 0xDF, 0x1C6, 0x131, 0x20AC, 0x5A, 0x1E9E]
      = [0x48, 0xC9, 0xDF, 0x1C4, 0x49, 0x20AC, 0x5A, 0x1E9E]
    ∧ LowerCase.ConvertChunk unicodeCaseTables
        [0x68, 0xE9, 0xDF, 0x1C6, 0x131, 0x20AC, 0x5A, 0x1E9E]
      = [0x68, 0xE9, 0xDF, 0x1C6, 0x131, 0x20AC, 0x7A, 0xDF]
    ∧ (UpperCase.ConvertChunk unicodeCaseTables
          (UpperCase.ConvertChunk unicodeCaseTables
            [0x68, 0xE9, 0xDF, 0x1C6, 0x131, 0x20AC, 0x5A, 0x1E9E])
        = UpperCase.ConvertChunk unicodeCaseTables
            [0x68, 0xE9, 0xDF, 0x1C6, 0x131, 0x20AC, 0x5A, 0x1E9E]
      ∧ LowerCase.ConvertChunk unicodeCaseTables
          (LowerCase.ConvertChunk unicodeCaseTables
            [0x68, 0xE9, 0xDF, 0x1C6, 0x131, 0x20AC, 0x5A, 0x1E9E])
        = LowerCase.ConvertChunk unicodeCaseTables
            [0x68, 0xE9, 0xDF, 0x1C6, 0x131, 0x20AC, 0x5A, 0x1E9E]) :=
  ⟨by decide!, by decide!,
    case_folding_idempotent [0x68, 0xE9, 0xDF, 0x1C6, 0x131, 0x20AC, 0x5A, 0x1E9E]⟩

/-- C9.  Passing to a fresh `TrimSpaces` all that another fresh `TrimSpaces`
returned for a sequence of fragments gives it back unchanged and leaves no
whitespace held back. -/
theorem trimSpaces_reapply (frags : List (List Nat)) :
    (TrimSpaces.fresh.ConvertChunk (TrimSpaces.fresh.feed frags).1).1
      = (TrimSpaces.fresh.feed frags).1
    ∧ (TrimSpaces.fresh.ConvertChunk (TrimSpaces.fresh.feed frags).1).2.undecidedSpaces = [] := by
  have hinv := trimInv_feed frags trimInv_fresh
  simp only [List.nil_append] at hinv
  exact convertChunk_trimmed _ (trimInv_ends hinv).1 (trimInv_ends hinv).2

/-- C10.  When the names selected by the occurrences of `conv` contain both
`upper_case` and `lower_case`, in any order and in any occurrences, parsing ends
with an error, so no configuration is produced; and no successful parsing ever
holds both `UpperCase` and `LowerCase`. -/
theorem conv_both_foldings_rejected (occurrences : List (List Char))
    (hu : ∃ s ∈ occurrences, "upper_case".toList ∈ splitOn ',' (trimSpace s))
    (hl : ∃ s ∈ occurrences, "lower_case".toList ∈ splitOn ',' (trimSpace s)) :
    (∃ e, parseConv [] occurrences = Except.error e)
    ∧ ∀ (occ : List (List Char)) (R : List Converter), parseConv [] occ = Except.ok R →
        ¬ (Converter.upperCase ∈ R ∧ Converter.lowerCase ∈ R) := by
  constructor
  · cases h : parseConv [] occurrences with
    | error e => exact ⟨e, rfl⟩
    | ok R =>
      obtain ⟨a1, _, a3, a4⟩ := parseConv_ok h
      exact absurd ⟨a3 hu, a4 hl⟩ (a1 (by simp))
  · intro occ R h
    exact (parseConv_ok h).1 (by simp)

/-- The witness of C10: `-conv upper_case,trim_spaces -conv lower_case`. -/
theorem conv_both_foldings_rejected_witness :
    ∃ e, parseConv [] ["upper_case,trim_spaces".toList, "lower_case".toList] = Except.error e :=
  (conv_both_foldings_rejected ["upper_case,trim_spaces".toList, "lower_case".toList]
    ⟨"upper_case,trim_spaces".toList, by decide, by decide⟩
    ⟨"lower_case".toList, by decide, by decide⟩).1

/-- C11.  `postValidateParams` calls `Size` and nothing else.  When `Size` reports a
size it returns an error exactly when `offset >= size`; when `Size` fails with
`invalidOperation` it returns no error, whatever the offset.  On a `BetterFile` the
file position is left where it was, and on a `BetterStream` the underlying file is
left untouched: no byte is read. -/
theorem postValidateParams_size_check {σ : Type} (S : SizedReadSeekCloser σ) (R : Reader σ)
    (fuel : Nat) (src : σ) (f : OsFile) (offset : Int) :
    (∀ sz, (S.size src).1 = (sz, none) →
        ((postValidateParams S src offset).1 ≠ none ↔ offset ≥ sz))
    ∧ (∀ x, (S.size src).1 = (x, some Err.invalidOperation) →
        (postValidateParams S src offset).1 = none)
    ∧ (postValidateParams S src offset).2 = (S.size src).2
    ∧ ((postValidateParams betterFile f offset).1 ≠ none ↔ offset ≥ (f.content.length : Int))
    ∧ (postValidateParams betterFile f offset).2 = f
    ∧ postValidateParams (betterStream R fuel) src offset = (none, src) := by
  refine ⟨?_, ?_, ?_, ?_, ?_, ?_⟩
  · intro sz h
    have h1 : (S.size src).1.2 = none := by rw [h]
    have h2 : (S.size src).1.1 = sz := by rw [h]
    simp only [postValidateParams, h1, h2]
    split_ifs with hc <;> simp [hc]
  · intro x h
    have h1 : (S.size src).1.2 = some Err.invalidOperation := by rw [h]
    simp [postValidateParams, h1]
  · simp only [postValidateParams]
    split <;> split_ifs <;> rfl
  · simp only [postValidateParams, betterFile, BetterFile.Size]
    split_ifs with hc <;> simp [hc]
  · simp only [postValidateParams, betterFile, BetterFile.Size]
    split_ifs <;> rfl
  · simp [postValidateParams, betterStream, BetterStream.Size]

/-- The witness of C11: a file of five bytes with offset 5 is refused, with offset 4
it is accepted; a stream accepts offset 5. -/
theorem postValidateParams_size_check_witness :
    (postValidateParams betterFile { content := [1, 2, 3, 4, 5], pos := 0 } 5).1
        = some Err.invalidOffset
    ∧ (postValidateParams betterFile { content := [1, 2, 3, 4, 5], pos := 0 } 4).1 = none
    ∧ postValidateParams (betterStream fileReader 8) [1, 2, 3] 5 = (none, [1, 2, 3]) :=
  ⟨by decide, by decide,
    (postValidateParams_size_check (betterStream fileReader 8) fileReader 8 [1, 2, 3]
      { content := [], pos := 0 } 5).2.2.2.2.2⟩

/-- C12.  On a `BetterStream`, `Seek` with a negative offset or with a `whence` other
than 1 fails with `invalidOperation` and leaves the underlying file untouched; with
`whence` 1 and an offset of at least 0, an error that `Seek` returns is an error that
a `Read` of the underlying file returned; `Size` always fails with
`invalidOperation`. -/
theorem betterStream_unsupported {σ : Type} (R : Reader σ) (fuel : Nat) (st : σ)
    (offset whence : Int) :
    ((offset < 0 ∨ whence ≠ 1) →
        BetterStream.Seek R fuel st offset whence = some ((0, some Err.invalidOperation), st))
    ∧ (0 ≤ offset → ∀ (pos : Int) (e : Err) (st1 : σ),
        BetterStream.Seek R fuel st offset 1 = some ((pos, some e), st1) →
        ∃ s n, (R.read s n).1.2 = some e)
    ∧ (BetterStream.Size st).1 = (-1, some Err.invalidOperation) := by
  refine ⟨?_, ?_, rfl⟩
  · intro h
    simp only [BetterStream.Seek]
    split_ifs with h1 h2
    · rfl
    · rfl
    · omega
  · intro h0 pos e st1 h
    have hn : ¬ offset < 0 := by omega
    simp only [BetterStream.Seek, hn, if_false, ne_eq, not_true_eq_false] at h
    exact seekLoop_error_of_read R fuel st 0 offset pos e st1 h

/-- The witness of C12: an absolute seek, a backward seek and a size query on a
stream of three bytes. -/
theorem betterStream_unsupported_witness :
    BetterStream.Seek fileReader 4 [1, 2, 3] 2 0 = some ((0, some Err.invalidOperation), [1, 2, 3])
    ∧ BetterStream.Seek fileReader 4 [1, 2, 3] (-1) 1
        = some ((0, some Err.invalidOperation), [1, 2, 3])
    ∧ (BetterStream.Size [1, 2, (3 : Byte)]).1 = (-1, some Err.invalidOperation) :=
  ⟨(betterStream_unsupported fileReader 4 [1, 2, 3] 2 0).1 (Or.inr (by decide)),
    (betterStream_unsupported fileReader 4 [1, 2, 3] (-1) 1).1 (Or.inl (by decide)),
    rfl⟩

/-- C13.  On a stream whose reads return at most as many bytes as the buffer holds,
a `BetterStream.Seek(offset, 1)` with `offset >= 0` that succeeds returns `offset`
and has taken exactly `offset` bytes from the stream, however the reads split
them; on a stream that delivers what is asked for, the seek succeeds whenever
`offset` bytes are there and leaves the stream at byte `offset`. -/
theorem betterStream_seek_discards {σ : Type} (R : Reader σ) (hR : readsWithinBuffer R)
    (fuel : Nat) (st : σ) (log : List Byte) (offset pos : Int) (st1 : σ) (log1 : List Byte)
    (h0 : 0 ≤ offset)
    (h : BetterStream.Seek (loggedReader R) fuel (st, log) offset 1
      = some ((pos, none), (st1, log1))) :
    pos = offset
    ∧ (∃ d : List Byte, log1 = log ++ d ∧ (d.length : Int) = offset)
    ∧ ∀ (rest : List Byte) (fuel2 : Nat), 2 ≤ fuel2 → offset.toNat ≤ rest.length →
        BetterStream.Seek fileReader fuel2 rest offset 1
          = some ((offset, none), rest.drop offset.toNat) := by
  have hn : ¬ offset < 0 := by omega
  simp only [BetterStream.Seek, hn, if_false, ne_eq, not_true_eq_false] at h
  obtain ⟨h1, d, h2, h3⟩ := seekLoop_logged R hR fuel st log 0 offset pos st1 log1 h0 h
  refine ⟨h1, ⟨d, h2, by omega⟩, ?_⟩
  intro rest fuel2 hf hle
  rw [seek_fileReader fuel2 rest offset h0 hf]
  simp [hle]

/-- The witness of C13: a seek of 3 on a stream of five bytes that delivers one
byte per read. -/
theorem betterStream_seek_discards_witness :
    BetterStream.Seek (loggedReader byteReader) 5 ([1, 2, 3, 4, 5], []) 3 1
        = some ((3, none), ([4, 5], [1, 2, 3]))
    ∧ ((3 : Int) = 3
      ∧ (∃ d : List Byte, [1, 2, 3] = [] ++ d ∧ (d.length : Int) = 3)
      ∧ ∀ (rest : List Byte) (fuel2 : Nat), 2 ≤ fuel2 → (3 : Int).toNat ≤ rest.length →
          BetterStream.Seek fileReader fuel2 rest 3 1
            = some ((3, none), rest.drop (3 : Int).toNat)) :=
  ⟨rfl, betterStream_seek_discards byteReader byteReader_within 5 [1, 2, 3, 4, 5] [] 3 3
    [4, 5] [1, 2, 3] (by decide) rfl⟩

/-- C14.  When a read returns an error other than the end of the input, `runRead`
returns that error at once: the callback is not called and its state (the sink and
the converters) is the one before the read.  When a read reports the end of the
input, `runRead` does not return: it calls the callback with the bytes read and the
flag of the last chunk, and goes on with the counter at zero. -/
theorem runRead_read_error {σ κ : Type} (R : Reader σ)
    (cb : κ → List Byte → Bool → (List Byte × Option Err) × κ) (blockSize fuel : Nat)
    (src : σ) (btr : Nat) (tail : List Byte) (k : κ) (hpos : 0 < btr) :
    (∀ e, (R.read src (min blockSize btr)).1.2 = some e → e ≠ Err.EOF →
        runRead R cb blockSize (fuel + 1) src btr tail k
          = some (some e, (R.read src (min blockSize btr)).2, k))
    ∧ ((R.read src (min blockSize btr)).1.2 = some Err.EOF →
        runRead R cb blockSize (fuel + 1) src btr tail k
          = match (cb k (tail ++ (R.read src (min blockSize btr)).1.1) true).1.2 with
            | some err => some (some err, (R.read src (min blockSize btr)).2,
                (cb k (tail ++ (R.read src (min blockSize btr)).1.1) true).2)
            | none => runRead R cb blockSize fuel (R.read src (min blockSize btr)).2 0
                (cb k (tail ++ (R.read src (min blockSize btr)).1.1) true).1.1
                (cb k (tail ++ (R.read src (min blockSize btr)).1.1) true).2) := by
  constructor
  · intro e he hne
    rw [runRead]
    simp [hpos, he, hne]
  · intro he
    rw [runRead]
    simp only [hpos, he, gt_iff_lt, true_or, if_true, ne_eq, reduceCtorEq, not_false_eq_true,
      not_true_eq_false, and_false, if_false, decide_True]

/-- The witness of C14: the source delivers `ab` and then fails; the run returns the
error with `ab` in the sink. -/
theorem runRead_read_error_witness :
    runRead scriptReader (processAndWrite fullSink latin1Tables) 2 (0 + 1)
        [([], some (Err.other 5))] 8 [] { sink := [0x61, 0x62], conversions := [] }
      = some (some (Err.other 5), [], { sink := [0x61, 0x62], conversions := [] })
    ∧ runMain scriptReader fullSink latin1Tables 5
        [([0x61, 0x62], none), ([], some (Err.other 5))] 10 2 { sink := [], conversions := [] }
      = some (some (Err.other 5), [], { sink := [0x61, 0x62], conversions := [] }) :=
  ⟨(runRead_read_error scriptReader (processAndWrite fullSink latin1Tables) 2 0
      [([], some (Err.other 5))] 8 [] { sink := [0x61, 0x62], conversions := [] }
      (by decide)).1 (Err.other 5) rfl (by decide), rfl⟩

/-- C15 (the code departs from the claim).  A file of five bytes with offset 5:
`postValidateParams` reports the validation failure and nothing is sought, read or
written, but `main` returns before `os.Exit(2)`, so the exit code is 0. -/
theorem validation_failure_exit_code (T : CaseTables) :
    (postValidateParams betterFile { content := [1, 2, 3, 4, 5], pos := 0 } 5).1
        = some Err.invalidOffset
    ∧ main betterFile fullSink T 4
        { From := { content := [1, 2, 3, 4, 5], pos := 0 }, To := [], Conversions := [],
          Offset := 5, Limit := 2 ^ 64 - 1, BlockSize := 1024 }
      = some (0, { content := [1, 2, 3, 4, 5], pos := 0 }, { sink := [], conversions := [] }) := by
  exact ⟨rfl, rfl⟩

/-- C20.  A call of `TrimSpaces.ConvertChunk` keeps the invariant of the state (only
whitespace is held back, and nothing before the first non-space character),
`leadingSpacesProcessed` stays true once it is true, the returned fragment is empty
while it is false, and a returned fragment that is not empty ends with a non-space
character.  So after any sequence of fragments passed to a fresh converter the
invariant holds, and all that was returned is empty while the flag is false. -/
theorem convertChunk_invariant (st : TrimSpaces) (c : List Nat) (h : trimStateOK st) :
    trimStateOK (st.ConvertChunk c).2
    ∧ (st.leadingSpacesProcessed = true → (st.ConvertChunk c).2.leadingSpacesProcessed = true)
    ∧ ((st.ConvertChunk c).2.leadingSpacesProcessed = false → (st.ConvertChunk c).1 = [])
    ∧ ((st.ConvertChunk c).1 ≠ [] →
        ∃ pre x, (st.ConvertChunk c).1 = pre ++ [x] ∧ isSpace x = false)
    ∧ ∀ frags : List (List Nat), trimStateOK (TrimSpaces.fresh.feed frags).2
        ∧ ((TrimSpaces.fresh.feed frags).2.leadingSpacesProcessed = false →
            (TrimSpaces.fresh.feed frags).1 = []) := by
  obtain ⟨hsp, hemp⟩ := h
  refine ⟨?_, ?_, ?_, ?_, ?_⟩
  case refine_5 =>
    intro frags
    have hinv := trimInv_feed frags trimInv_fresh
    simp only [List.nil_append] at hinv
    exact trimStateOK_of_trimInv hinv
  all_goals
    cases hl : st.leadingSpacesProcessed with
    | true =>
      rcases convertChunk_processed st c hl with ⟨hall, heq⟩ | ⟨pre, x, suf, _, hx, hsuf, heq⟩
      all_goals rw [heq]
      all_goals first
        | (intro _; rfl)
        | (intro hne; exact absurd rfl hne)
        | (intro hf; cases hf)
        | (intro _; exact ⟨st.undecidedSpaces ++ pre, x, by simp, hx⟩)
        | (refine ⟨?_, fun hf => by cases hf⟩
           intro y hy
           first
             | exact hsuf y hy
             | (rcases List.mem_append.mp hy with hy | hy
                · exact hsp y hy
                · exact hall y hy))
    | false =>
      rcases convertChunk_leading st c hl with ⟨_, heq⟩ | ⟨pre, x, suf, _, hx, hsuf, heq⟩
      all_goals rw [heq]
      all_goals first
        | (intro _; rfl)
        | (intro hne; exact absurd rfl hne)
        | (intro hf; cases hf)
        | (intro _; exact ⟨st.undecidedSpaces ++ pre, x, by simp, hx⟩)
        | (refine ⟨?_, fun hf => by cases hf⟩
           intro y hy
           exact hsuf y hy)
        | (refine ⟨?_, fun _ => hemp hl⟩
           intro y hy
           exact hsp y hy)

/-- The witness of C20: a fresh converter and the fragment space, `a`, space. -/
theorem convertChunk_invariant_witness :
    trimStateOK (TrimSpaces.fresh.ConvertChunk [0x20, 0x61, 0x20]).2
    ∧ TrimSpaces.fresh.ConvertChunk [0x20, 0x61, 0x20]
      = ([0x61], { leadingSpacesProcessed := true, undecidedSpaces := [0x20] }) :=
  ⟨(convertChunk_invariant TrimSpaces.fresh [0x20, 0x61, 0x20] trimStateOK_fresh).1, by decide⟩

/-- C16 (the claim as stated fails).  A stream of three bytes with offset 5: the
offset is accepted by `postValidateParams`, but the seek reaches the end of the
input and `main` ends with exit code 1. -/
theorem stream_offset_beyond_end_fails :
    (postValidateParams (betterStream fileReader 4) [0x61, 0x62, 0x63] 5).1 = none
    ∧ main (betterStream fileReader 4) fullSink latin1Tables 4
        { From := [0x61, 0x62, 0x63], To := [], Conversions := [], Offset := 5,
          Limit := 2 ^ 64 - 1, BlockSize := 1024 }
      = some (1, [], { sink := [], conversions := [] }) := by
  exact ⟨rfl, rfl⟩

/-- C16, amended.  On a stream the offset check is skipped for every offset.  When
the offset is the length of the data of the stream, the seek discards all of it and
the run ends without failure (exit code 0) and writes nothing.  When the offset is
beyond the end of the data, the seek reaches the end of the input and the program
ends with exit code 1, and writes nothing. -/
theorem stream_offset_at_or_beyond_end (T : CaseTables) (data out : List Byte)
    (convs : List Converter) (offset : Int) (limit blockSize seekFuel fuel : Nat)
    (hoff : (data.length : Int) ≤ offset) (hbs : 1 ≤ blockSize) (hsf : 2 ≤ seekFuel)
    (hfuel : 1 ≤ fuel) :
    (postValidateParams (betterStream fileReader seekFuel) data offset).1 = none
    ∧ main (betterStream fileReader seekFuel) fullSink T fuel
        { From := data, To := out, Conversions := convs, Offset := offset, Limit := limit,
          BlockSize := blockSize }
      = some (if offset = (data.length : Int) then 0 else 1, [],
          { sink := out, conversions := convs }) := by
  have h0 : 0 ≤ offset := by omega
  have hpv : postValidateParams (betterStream fileReader seekFuel) data offset = (none, data) := by
    simp [postValidateParams, betterStream, BetterStream.Size]
  refine ⟨by rw [hpv], ?_⟩
  have hseek : (betterStream fileReader seekFuel).seek data offset 1
      = BetterStream.Seek fileReader seekFuel data offset 1 := rfl
  simp only [main, hpv, ne_eq, not_true_eq_false, if_false, hseek,
    seek_fileReader seekFuel data offset h0 hsf]
  by_cases heq : offset = (data.length : Int)
  · subst heq
    have htn : ((data.length : Int)).toNat = data.length := Int.toNat_ofNat _
    have hrd : (betterStream fileReader seekFuel).reader = fileReader := rfl
    obtain ⟨f, rfl⟩ : ∃ f, fuel = f + 1 := ⟨fuel - 1, by omega⟩
    simp only [htn, le_refl, if_true, List.drop_length, hrd]
    by_cases hl : limit = 0
    · subst hl
      simp [runRead_stop]
    · rw [runRead_file_eof _ _ _ _ _ _ hbs (by omega), processAndWrite_nil_last]
      simp [runRead_stop]
  · have hle : ¬ offset.toNat ≤ data.length := by omega
    simp [hle, heq]

/-- The witness of the amended C16: a stream of three bytes, with offset 3 and with
offset 5. -/
theorem stream_offset_at_or_beyond_end_witness :
    main (betterStream fileReader 2) fullSink latin1Tables 1
        { From := [0x61, 0x62, 0x63], To := [], Conversions := [], Offset := 3,
          Limit := 2 ^ 64 - 1, BlockSize := 1024 }
      = some (0, [], { sink := [], conversions := [] })
    ∧ main (betterStream fileReader 2) fullSink latin1Tables 1
        { From := [0x61, 0x62, 0x63], To := [], Conversions := [], Offset := 5,
          Limit := 2 ^ 64 - 1, BlockSize := 1024 }
      = some (1, [], { sink := [], conversions := [] }) :=
  ⟨(stream_offset_at_or_beyond_end latin1Tables [0x61, 0x62, 0x63] [] [] 3 (2 ^ 64 - 1) 1024 2 1
      (by decide) (by decide) (by decide) (by decide)).2,
    (stream_offset_at_or_beyond_end latin1Tables [0x61, 0x62, 0x63] [] [] 5 (2 ^ 64 - 1) 1024 2 1
      (by decide) (by decide) (by decide) (by decide)).2⟩

/-- C19.  With one case folding and one fresh `TrimSpaces` in `opts.Conversions`,
the fragments returned for a sequence of fragments are the same whatever the
iteration order of the map is at each fragment.  The Unicode case tables are assumed
to leave whitespace characters as they are and to send no other character to a
whitespace character. -/
theorem conversion_order_irrelevant (T : CaseTables) (hT : foldKeepsSpace T) (fold : Converter)
    (hfold : fold = Converter.upperCase ∨ fold = Converter.lowerCase)
    (frags : List (List Nat)) (orders1 orders2 : List Bool) :
    convertFragsOrdered T orders1 [fold, Converter.trimSpaces TrimSpaces.fresh] frags
      = convertFragsOrdered T orders2 [fold, Converter.trimSpaces TrimSpaces.fresh] frags :=
  convertFragsOrdered_fold_trim hT fold hfold frags TrimSpaces.fresh
    (by intro y hy; simp [TrimSpaces.fresh] at hy) orders1 orders2

/-- The witness of C19: the fragments ` a `, ` b`, ` ` with `upper_case` and
`trim_spaces`, in two different sequences of orders. -/
theorem conversion_order_irrelevant_witness :
    convertFragsOrdered latin1Tables [true, false, true]
        [Converter.upperCase, Converter.trimSpaces TrimSpaces.fresh]
        [[0x20, 0x61, 0x20], [0x20, 0x62], [0x20]]
      = convertFragsOrdered latin1Tables [false, true, false]
        [Converter.upperCase, Converter.trimSpaces TrimSpaces.fresh]
        [[0x20, 0x61, 0x20], [0x20, 0x62], [0x20]]
    ∧ convertFragsOrdered latin1Tables [true, false, true]
        [Converter.upperCase, Converter.trimSpaces TrimSpaces.fresh]
        [[0x20, 0x61, 0x20], [0x20, 0x62], [0x20]]
      = [[0x41], [0x20, 0x20, 0x42], []] :=
  ⟨conversion_order_irrelevant latin1Tables latin1Tables_foldKeepsSpace Converter.upperCase
    (Or.inl rfl) [[0x20, 0x61, 0x20], [0x20, 0x62], [0x20]] [true, false, true]
    [false, true, false], by decide⟩

/-- C17.  The loop of `runRead` with the engine `processAndWrite` ends.  The source
is any reader whose reads return at least one byte (and no more than asked) or the
end of the input; the sink accepts every write in full; the limit, the block size
(at least 1) and the conversions are arbitrary.  Every iteration makes one engine
call, so `fuel` bounds the engine calls.  First part: with `limit + 2` iterations
the loop returns no error, which it does only through its exit.  Second part: an
engine call never fails; its carry-over holds no valid character, and is empty, or
the whole chunk, or what follows the last valid character of the chunk; a last call
on a chunk without a valid character returns an empty carry-over.  Third part: from
the iteration of the last read (end of the input, or the counter reached) two
iterations, that is two engine calls, end the loop.  Fourth part: the loop returns
without a further iteration only where the counter is zero and the carry-over is
empty. -/
theorem runRead_terminates {σ : Type} (R : Reader σ) (T : CaseTables)
    (blockSize limit fuel : Nat) (hR : readsProgress R) (hbs : 1 ≤ blockSize)
    (hlim : limit < 2 ^ 64) (hfuel : limit + 2 ≤ fuel) (src : σ) (e : Engine (List Byte)) :
    (∃ src1 e1, runMain R fullSink T fuel src limit blockSize e = some (none, src1, e1))
    ∧ (∀ (e0 : Engine (List Byte)) (chunk : List Byte) (isLastChunk : Bool),
        (processAndWrite fullSink T e0 chunk isLastChunk).1.2 = none
        ∧ allRaw (processAndWrite fullSink T e0 chunk isLastChunk).1.1
        ∧ ((processAndWrite fullSink T e0 chunk isLastChunk).1.1 = []
          ∨ (processAndWrite fullSink T e0 chunk isLastChunk).1.1 = chunk
          ∨ ∃ (pre : List Byte) (r : Nat), r ≠ RuneError
              ∧ (decodeRune (appendRune r
                  ++ (processAndWrite fullSink T e0 chunk isLastChunk).1.1)).1 = r
              ∧ chunk = pre ++ appendRune r
                  ++ (processAndWrite fullSink T e0 chunk isLastChunk).1.1)
        ∧ (allRaw chunk → (processAndWrite fullSink T e0 chunk true).1.1 = []))
    ∧ (∀ (src0 : σ) (bytesToRead : Nat) (tail : List Byte) (e0 : Engine (List Byte)),
        0 < bytesToRead → bytesToRead < 2 ^ 64 →
        ((R.read src0 (min blockSize bytesToRead)).1.2 = some Err.EOF
          ∨ (R.read src0 (min blockSize bytesToRead)).1.1.length = bytesToRead) →
        ∃ src1 e1, runRead R (processAndWrite fullSink T) blockSize 2 src0 bytesToRead tail e0
          = some (none, src1, e1))
    ∧ (∀ (src0 : σ) (bytesToRead : Nat) (tail : List Byte) (e0 : Engine (List Byte))
        (res : Option Err × σ × Engine (List Byte)),
        runRead R (processAndWrite fullSink T) blockSize 0 src0 bytesToRead tail e0 = some res →
        bytesToRead = 0 ∧ tail = []) := by
  refine ⟨?_, ?_, ?_, ?_⟩
  case refine_4 =>
    intro src0 btr tail e0 res h
    by_contra hc
    have hc2 : 0 < btr ∨ tail ≠ [] := by
      by_cases hb : btr = 0
      · right
        intro ht
        exact hc ⟨hb, ht⟩
      · left
        omega
    rw [runRead_zero_fuel _ _ _ _ _ _ _ hc2] at h
    cases h
  · exact runRead_ends R T blockSize hR hbs fuel src limit [] e.sink e.conversions hlim hfuel
  · intro e0 chunk isLastChunk
    obtain ⟨carry, out, convs1, h1, h2, h3, _⟩ :=
      processAndWrite_full T e0.sink e0.conversions chunk isLastChunk
    have h1b : processAndWrite fullSink T e0 chunk isLastChunk
        = ((carry, none), { sink := e0.sink ++ out, conversions := convs1 }) := h1
    rw [h1b]
    refine ⟨rfl, h2, h3, ?_⟩
    intro hc
    have h5 : processAndWrite fullSink T e0 chunk true
        = (([], none), { sink := e0.sink ++ chunk, conversions := e0.conversions }) :=
      processAndWrite_allRaw_last T e0.sink e0.conversions chunk hc
    rw [h5]
  · intro src0 btr tail e0 hpos hlt hlast
    have hn : 1 ≤ min blockSize btr := by omega
    rcases hR src0 (min blockSize btr) hn with ⟨he, hl1, hl2⟩ | he
    · have hlen : (R.read src0 (min blockSize btr)).1.1.length = btr := by
        rcases hlast with h | h
        · rw [he] at h
          cases h
        · exact h
      obtain ⟨carry, out, convs1, h1, h2, _, _⟩ := processAndWrite_full T e0.sink e0.conversions
        (tail ++ (R.read src0 (min blockSize btr)).1.1)
        (decide ((if (none : Option Err) = some Err.EOF then 0
          else uint64Sub btr (R.read src0 (min blockSize btr)).1.1.length) = 0))
      have hrd : R.read src0 (min blockSize btr)
          = (((R.read src0 (min blockSize btr)).1.1, none), (R.read src0 (min blockSize btr)).2) := by
        rw [← he]
      have hstep := runRead_step_ok R (processAndWrite fullSink T) blockSize 1 src0 _ btr tail _
        carry none e0 _ hpos hrd (Or.inl rfl) h1
      rw [hstep]
      simp only [reduceCtorEq, if_false, hlen, uint64Sub_eq (le_refl btr) hlt, Nat.sub_self]
      exact ⟨_, _, runRead_flush R T blockSize 1 _ _ _ carry h2 (le_refl _)⟩
    · obtain ⟨carry, out, convs1, h1, h2, _, _⟩ := processAndWrite_full T e0.sink e0.conversions
        (tail ++ (R.read src0 (min blockSize btr)).1.1)
        (decide ((if some Err.EOF = some Err.EOF then 0
          else uint64Sub btr (R.read src0 (min blockSize btr)).1.1.length) = 0))
      have hrd : R.read src0 (min blockSize btr)
          = (((R.read src0 (min blockSize btr)).1.1, some Err.EOF),
              (R.read src0 (min blockSize btr)).2) := by
        rw [← he]
      have hstep := runRead_step_ok R (processAndWrite fullSink T) blockSize 1 src0 _ btr tail _
        carry (some Err.EOF) e0 _ hpos hrd (Or.inr rfl) h1
      rw [hstep]
      simp only [if_true]
      exact ⟨_, _, runRead_flush R T blockSize 1 _ _ _ carry h2 (le_refl _)⟩

/-- The witness of C17: a file of the two bytes `a`, `0xFF` read in one block with
the upper case conversion.  The first engine call, which is the last chunk, writes
`A` and returns the byte `0xFF`; the second call flushes it. -/
theorem runRead_terminates_witness :
    readsProgress fileReader ∧ 1 ≤ 2 ∧ 2 < 2 ^ 64 ∧ 2 + 2 ≤ 4
    ∧ runMain fileReader fullSink latin1Tables 4 [0x61, 0xFF] 2 2
        { sink := [], conversions := [Converter.upperCase] }
      = some (none, [], { sink := [0x41, 0xFF], conversions := [Converter.upperCase] })
    ∧ ∃ src1 e1, runMain fileReader fullSink latin1Tables 4 [0x61, 0xFF] 2 2
        { sink := [], conversions := [Converter.upperCase] } = some (none, src1, e1) :=
  ⟨fileReader_progress, by decide, by decide, by decide, rfl,
    (runRead_terminates fileReader latin1Tables 2 2 4 fileReader_progress (by decide)
      (by decide) (by decide) [0x61, 0xFF]
      { sink := [], conversions := [Converter.upperCase] }).1⟩

/-- C18.  A whole run on a file with no conversion and a sink that accepts every
write in full, for every content of the file (valid UTF-8 or not), every offset,
every limit and every block size of at least 1: the run ends without error, and
its output is a permutation of the bytes of the input from the offset within the
limit; it has their length, and every byte occurs in it as often as in them. -/
theorem copy_is_permutation (T : CaseTables) (input : List Byte)
    (offset limit blockSize fuel : Nat) (hbs : 1 ≤ blockSize) (hlim : limit < 2 ^ 64)
    (hfuel : min (input.length - offset) limit + 2 ≤ fuel) :
    ∃ out, runOutput T fuel input offset limit blockSize [] = some out
      ∧ out.Perm ((input.drop offset).take limit)
      ∧ out.length = min (input.length - offset) limit
      ∧ ∀ b : Byte, out.count b = ((input.drop offset).take limit).count b := by
  obtain ⟨src1, out, h1, h2⟩ := runRead_file_perm T blockSize hbs fuel (input.drop offset) limit
    [] [] hlim (by
      rw [List.length_drop]
      exact hfuel)
  simp only [List.nil_append] at h1 h2
  refine ⟨out, ?_, h2, ?_, ?_⟩
  · simp only [runOutput, runMain, h1]
  · rw [h2.length_eq, List.length_take, List.length_drop]
    exact Nat.min_comm _ _
  · intro b
    exact h2.count_eq b

/-- The witness of C18: the file `a`, `0xFF`, `b` read in one block.  The output is
`0xFF`, `a`, `b`: the same bytes in another order. -/
theorem copy_is_permutation_witness :
    1 ≤ 3 ∧ 3 < 2 ^ 64 ∧ min (([0x61, 0xFF, 0x62] : List Byte).length - 0) 3 + 2 ≤ 5
    ∧ runOutput latin1Tables 5 [0x61, 0xFF, 0x62] 0 3 3 [] = some [0xFF, 0x61, 0x62]
    ∧ ∃ out, runOutput latin1Tables 5 [0x61, 0xFF, 0x62] 0 3 3 [] = some out
      ∧ out.Perm ((([0x61, 0xFF, 0x62] : List Byte).drop 0).take 3)
      ∧ out.length = min (([0x61, 0xFF, 0x62] : List Byte).length - 0) 3
      ∧ ∀ b : Byte, out.count b = ((([0x61, 0xFF, 0x62] : List Byte).drop 0).take 3).count b :=
  ⟨by decide, by decide, by decide, rfl,
    copy_is_permutation latin1Tables [0x61, 0xFF, 0x62] 0 3 3 5 (by decide) (by decide)
      (by decide)⟩

end Lesson3
